import Mathlib

/-!
Verification of the threaded Game of Life kernel: a shallow embedding of
`util.h`, `life.c` and `load.c`, and theorems about it.

Modelling conventions.
* A `char` buffer is a `List Nat` of byte values (bit patterns `0..255`); every
  store truncates with `% 256`.  Where the source compares `char`s the byte is
  read as a signed `char` (`toChar`).
* `int` values are mathematical integers: the loader bounds `nrows * ncols` by
  `100000000`, so no index computation of the kernel overflows.
* A buffer access outside the buffer makes the embedded function return `none`.
* The thread count (`sysconf (_SC_NPROCESSORS_ONLN)`) is a parameter and the
  workers of the interior pass run one after the other, in package order.
-/

namespace Gol

/-! ## util.h -/

/-- A flat `char` buffer. -/
abbrev Board := List Nat

/-- Value of a byte read as a signed `char`. -/
def toChar (v : Nat) : Int := if v < 128 then (v : Int) else (v : Int) - 256

/-- Byte pattern of an `int` converted to `char`. -/
def ofInt (x : Int) : Nat := (x % 256).toNat

/-- Checked read `board[k]`. -/
def rd (board : Board) (k : Int) : Option Nat :=
  if 0 ≤ k then board[k.toNat]? else none

/-- Checked store `board[k] = v`. -/
def wr (board : Board) (k : Int) (v : Nat) : Option Board :=
  if 0 ≤ k ∧ k.toNat < board.length then some (board.set k.toNat v) else none

/-- The macro `IS_ALIVE(var)`, `((var) & (1<<(4)))`. -/
def IS_ALIVE (var : Nat) : Nat := var &&& (1 <<< 4)

/-- The macro `SET_ALIVE(var)`, `(var |= (1 << (4)))`, as the new byte. -/
def SET_ALIVE (var : Nat) : Nat := (var ||| (1 <<< 4)) % 256

/-- The macro `SET_DEAD(var)`, `(var &= ~(1 << (4)))`, as the new byte. -/
def SET_DEAD (var : Nat) : Nat := (var &&& (255 - (1 <<< 4))) % 256

/-- The macro `INCREMENT_NEIGHBOURS(board, i, j)`, `board[(i) + (j)] ++`. -/
def INCREMENT_NEIGHBOURS (board : Board) (i j : Int) : Option Board :=
  (rd board (i + j)).bind fun v => wr board (i + j) ((v + 1) % 256)

/-- The macro `DECREMENT_NEIGHBOURS(board, i, j)`, `board[(i) + (j)] --`. -/
def DECREMENT_NEIGHBOURS (board : Board) (i j : Int) : Option Board :=
  (rd board (i + j)).bind fun v => wr board (i + j) ((v + 255) % 256)

/-- The function `mod` of util.h: `(x < 0) ? ((x % m) + m) : (x % m)`, where the
`%` of C truncates towards zero. -/
def mod (x m : Int) : Int :=
  if x < 0 then Int.tmod x m + m else Int.tmod x m

/-! ## life.c -/

/-- The eight `(row, column offset)` argument pairs of the notification block of
`gol_worker` / `gol_worker_for_row` (and of `init_neighbour_cnts`), in source
order; the element addressed is `row + column offset`. -/
def neighbours (nrows ncols : Nat) (i : Int) (j : Nat) : List (Int × Int) :=
  let nrowsxj : Int := (nrows : Int) * (j : Int)
  let inorth := mod (i - 1) nrows
  let isouth := mod (i + 1) nrows
  let jwest := mod ((j : Int) - 1) ncols
  let jeast := mod ((j : Int) + 1) ncols
  let nrows_jwest := (nrows : Int) * jwest
  let nrows_jeast := (nrows : Int) * jeast
  [(inorth, nrows_jwest), (inorth, nrowsxj), (inorth, nrows_jeast),
   (i, nrows_jwest), (i, nrows_jeast),
   (isouth, nrows_jwest), (isouth, nrowsxj), (isouth, nrows_jeast)]

/-- Body of the column loop of `gol_worker_for_row`, which is also, verbatim,
the body of the inner loop of `gol_worker`: decide on `inboard`, write
`outboard`. -/
def cellStep (nrows ncols : Nat) (inboard : Board) (i : Int) (j : Nat)
    (outboard : Board) : Option Board :=
  let nrowsxj : Int := (nrows : Int) * (j : Int)
  (rd inboard (i + nrowsxj)).bind fun cell =>
    if IS_ALIVE cell = 0 then
      if cell = 0x3 then
        (rd outboard (i + nrowsxj)).bind fun v =>
          (wr outboard (i + nrowsxj) (SET_ALIVE v)).bind fun outboard =>
            (neighbours nrows ncols i j).foldlM
              (fun b p => INCREMENT_NEIGHBOURS b p.1 p.2) outboard
      else some outboard
    else
      if toChar cell ≤ 0x11 ∨ toChar cell ≥ 0x14 then
        (rd outboard (i + nrowsxj)).bind fun v =>
          (wr outboard (i + nrowsxj) (SET_DEAD v)).bind fun outboard =>
            (neighbours nrows ncols i j).foldlM
              (fun b p => DECREMENT_NEIGHBOURS b p.1 p.2) outboard
      else some outboard

/-- The function `gol_worker_for_row (i, ncols, nrows, inboard, outboard)`. -/
def gol_worker_for_row (i : Int) (ncols nrows : Nat) (inboard outboard : Board) :
    Option Board :=
  (List.range ncols).foldlM (fun out (j : Nat) => cellStep nrows ncols inboard i j out) outboard

/-- The struct `Package` without its two buffer pointers, which `threaded_gol`
sets anew in every generation. -/
structure Package where
  nrows : Nat
  ncols : Nat
  start_row : Int
  end_row : Int
deriving DecidableEq

/-- The row indices `start_row, ..., end_row - 1` of the inner loop of `gol_worker`. -/
def rowRange (start_row end_row : Int) : List Int :=
  (List.range (end_row - start_row).toNat).map fun (d : Nat) => start_row + (d : Int)

/-- The function `gol_worker`, run on package `p` with the buffers of the
current generation. -/
def gol_worker (p : Package) (inboard outboard : Board) : Option Board :=
  (List.range p.ncols).foldlM
    (fun out (j : Nat) => (rowRange p.start_row p.end_row).foldlM
      (fun out (i : Int) => cellStep p.nrows p.ncols inboard i j out) out) outboard

/-- The package set-up loop of `threaded_gol`: `k` packages remain to be filled,
`start_row` and `end_row` are the running locals. -/
def setupPackages (nrows ncols : Nat) (chunk_size : Int) : Nat → Int → Int → List Package
  | 0, _, _ => []
  | k + 1, start_row, end_row =>
    { nrows := nrows, ncols := ncols, start_row := start_row + 1, end_row := end_row - 1 } ::
      setupPackages nrows ncols chunk_size k end_row (end_row + chunk_size)

/-- The packages of `threaded_gol` for `num_threads` threads:
`chunk_size = nrows/num_threads`, `start_row = 0`, `end_row = chunk_size`. -/
def packagesOf (num_threads nrows ncols : Nat) : List Package :=
  let chunk_size : Int := Int.tdiv nrows num_threads
  setupPackages nrows ncols chunk_size num_threads 0 chunk_size

/-- The call `memcpy (dst, src, n)`. -/
def memcpy (dst src : Board) (n : Nat) : Option Board :=
  if n ≤ dst.length ∧ n ≤ src.length then some (src.take n ++ dst.drop n) else none

/-- The edge pass of one generation. -/
def edgePass (packages : List Package) (ncols nrows : Nat) (inboard outboard : Board) :
    Option Board :=
  packages.foldlM (fun out p =>
    (gol_worker_for_row (p.start_row - 1) ncols nrows inboard out).bind fun out =>
      gol_worker_for_row p.end_row ncols nrows inboard out) outboard

/-- The interior pass of one generation, the workers run in package order. -/
def interiorPass (packages : List Package) (inboard outboard : Board) : Option Board :=
  packages.foldlM (fun out p => gol_worker p inboard out) outboard

/-- One iteration of the generation loop of `threaded_gol` up to, and without,
`SWAP_BOARDS`: the result is the new content of `outboard`. -/
def generation (packages : List Package) (nrows ncols : Nat) (outboard inboard : Board) :
    Option Board :=
  (memcpy outboard inboard (nrows * ncols)).bind fun outboard =>
    (edgePass packages ncols nrows inboard outboard).bind fun outboard =>
      interiorPass packages inboard outboard

/-- The generation loop of `threaded_gol`; the result is `(outboard, inboard)`
after the last `SWAP_BOARDS`. -/
def genLoop (packages : List Package) (nrows ncols : Nat) :
    Nat → Board → Board → Option (Board × Board)
  | 0, outboard, inboard => some (outboard, inboard)
  | g + 1, outboard, inboard =>
    (generation packages nrows ncols outboard inboard).bind fun outboard =>
      genLoop packages nrows ncols g inboard outboard

/-- The expression `BOARD(inboard,i,nrowsxj) >> 4` stored back into a `char`. -/
def shiftCell (v : Nat) : Nat := ofInt (toChar v >>> (4 : Nat))

/-- The output formatting loop of `threaded_gol`. -/
def formatOutput (nrows ncols : Nat) (inboard : Board) : Option Board :=
  (List.range ncols).foldlM (fun b (j : Nat) =>
    let nrowsxj : Int := (nrows : Int) * (j : Int)
    (List.range nrows).foldlM (fun b (i : Nat) =>
      (rd b ((i : Int) + nrowsxj)).bind fun v => wr b ((i : Int) + nrowsxj) (shiftCell v)) b)
    inboard

/-- The function `threaded_gol`, with the thread count as a parameter.  A thread
count of zero (a division by zero in the source) gives `none`. -/
def threaded_gol (num_threads : Nat) (outboard inboard : Board) (nrows ncols gens_max : Nat) :
    Option Board :=
  if num_threads = 0 then none
  else
    (genLoop (packagesOf num_threads nrows ncols) nrows ncols gens_max outboard inboard).bind
      fun s => formatOutput nrows ncols s.2

/-! ## load.c -/

/-- The function `make_board`: `2 * nrows * ncols` bytes, all zero. -/
def make_board (nrows ncols : Nat) : Board := List.replicate (2 * nrows * ncols) 0

/-- The bit-field `isAlive` of `elementNode_t` (bit 4 of the byte). -/
def isAlive (v : Nat) : Nat := v / 16 % 2

/-- The bit-field `neighborCnt` of `elementNode_t` (bits 0-3 of the byte). -/
def neighborCnt (v : Nat) : Nat := v % 16

/-- The assignment `.isAlive = 1` on a byte. -/
def setIsAlive (v : Nat) : Nat := if isAlive v = 1 then v else v + 16

/-- The statement `.neighborCnt++` on a byte: the four-bit field wraps, the other
bits stay. -/
def incNeighborCnt (v : Nat) : Nat := v - v % 16 + (v % 16 + 1) % 16

/-- The statement `BOARD(board, i, j).neighborCnt++`. -/
def bumpNeighborCnt (board : Board) (i j : Int) : Option Board :=
  (rd board (i + j)).bind fun v => wr board (i + j) (incNeighborCnt v)

/-- Body of the inner loop of `init_neighbour_cnts`. -/
def initStep (nrows ncols : Nat) (i j : Nat) (board : Board) : Option Board :=
  let nrowsxj : Int := (nrows : Int) * (j : Int)
  (rd board ((i : Int) + nrowsxj)).bind fun cell =>
    if isAlive cell ≠ 0 then
      (neighbours nrows ncols i j).foldlM (fun b p => bumpNeighborCnt b p.1 p.2) board
    else some board

/-- The function `init_neighbour_cnts`. -/
def init_neighbour_cnts (board : Board) (nrows ncols : Nat) : Option Board :=
  (List.range ncols).foldlM
    (fun b (j : Nat) => (List.range nrows).foldlM (fun b (i : Nat) => initStep nrows ncols i j b) b)
    board

/-- The fill loop of `load_board_values` followed by its call of
`init_neighbour_cnts`; `input` holds the characters read by `fscanf`, `none`
is the exit on a short input. -/
def load_board_values (input : List Nat) (nrows ncols : Nat) : Option Board :=
  if input.length < nrows * ncols then none
  else
    ((List.range (nrows * ncols)).foldlM (fun b (i : Nat) =>
        if input.getD i 48 ≠ 48 then
          (rd b i).bind fun v => wr b i (setIsAlive v)
        else some b) (make_board nrows ncols)).bind
      fun b => init_neighbour_cnts b nrows ncols

/-- The value of an `int` expression computed in 32-bit two's complement. -/
def wrap32 (x : Int) : Int := (x + 2147483648) % 4294967296 - 2147483648

/-- The function `load_dimensions`: `ngotten` is the value returned by `fscanf`,
`nrows` and `ncols` are the two `int`s it stored; `none` is
`exit (EXIT_FAILURE)`, `some` the accepted dimensions. -/
def load_dimensions (ngotten nrows ncols : Int) : Option (Int × Int) :=
  if ngotten < 1 then none
  else if nrows < 1 then none
  else if ncols < 1 then none
  else if wrap32 (ncols * nrows) > 100000000 then none
  else some (nrows, ncols)

/-! ## Reference semantics: Conway's Life on the torus -/

/-- The eight toroidal neighbours of cell `(i, j)`, as `(row, column)` pairs. -/
def torus (nrows ncols i j : Nat) : List (Nat × Nat) :=
  let up := (i + nrows - 1) % nrows
  let down := (i + 1) % nrows
  let left := (j + ncols - 1) % ncols
  let right := (j + 1) % ncols
  [(up, left), (up, j), (up, right), (i, left), (i, right),
   (down, left), (down, j), (down, right)]

/-- Number of alive cells among the eight toroidal neighbours of `(i, j)`. -/
def liveCount (nrows ncols : Nat) (g : Nat → Nat → Bool) (i j : Nat) : Nat :=
  (torus nrows ncols i j).countP fun p => g p.1 p.2

/-- Conway's rule: birth on three, survival on two or three. -/
def lifeRule (alive : Bool) (n : Nat) : Bool :=
  if alive then n == 2 || n == 3 else n == 3

/-- One synchronous step of Life on the `nrows x ncols` torus. -/
def lifeStep (nrows ncols : Nat) (g : Nat → Nat → Bool) : Nat → Nat → Bool :=
  fun i j => lifeRule (g i j) (liveCount nrows ncols g i j)

/-- The grid after `k` steps of Life. -/
def life (nrows ncols : Nat) : Nat → (Nat → Nat → Bool) → Nat → Nat → Bool
  | 0, g => g
  | k + 1, g => life nrows ncols k (lifeStep nrows ncols g)

/-- The byte of cell `(i, j)`: `BOARD (b, i, nrows * j)`. -/
def cellAt (b : Board) (nrows i j : Nat) : Nat := b.getD (i + nrows * j) 0

/-- Alive flag (bit 4) of cell `(i, j)`. -/
def aliveAt (b : Board) (nrows i j : Nat) : Bool := cellAt b nrows i j / 16 % 2 == 1

/-- Count field (bits 0-3) of cell `(i, j)`. -/
def countAt (b : Board) (nrows i j : Nat) : Nat := cellAt b nrows i j % 16

/-- The count invariant: every count field is the number of alive toroidal
neighbours. -/
def CountInv (nrows ncols : Nat) (b : Board) : Prop :=
  ∀ i < nrows, ∀ j < ncols, countAt b nrows i j = liveCount nrows ncols (aliveAt b nrows) i j

instance (nrows ncols : Nat) (b : Board) : Decidable (CountInv nrows ncols b) := by
  unfold CountInv; infer_instance

/-- Bits 5-7 of every cell are clear. -/
def HighClear (nrows ncols : Nat) (b : Board) : Prop :=
  ∀ i < nrows, ∀ j < ncols, cellAt b nrows i j < 32

instance (nrows ncols : Nat) (b : Board) : Decidable (HighClear nrows ncols b) := by
  unfold HighClear; infer_instance

/-- The 5 x 5 board with the blinker `(1,0), (1,1), (1,2)`, counts initialised. -/
def blinkerBoard : Board :=
  [2, 17, 2, 0, 0,  3, 18, 3, 0, 0,  2, 17, 2, 0, 0,  1, 1, 1, 0, 0,  1, 1, 1, 0, 0]

/-- A zeroed companion buffer for a 5 x 5 board. -/
def zeroBoard25 : Board := List.replicate 25 0

/-- The 5 x 5 board with the blinker `(4,0), (4,1), (4,2)`, counts initialised. -/
def lastRowBlinker : Board :=
  [2, 0, 0, 2, 17,  3, 0, 0, 3, 18,  2, 0, 0, 2, 17,  1, 0, 0, 1, 1,  1, 0, 0, 1, 1]

/-- The 3 x 3 board whose only alive cell is `(1,1)`, counts initialised. -/
def loneCellBoard : Board := [1, 1, 1, 1, 16, 1, 1, 1, 1]

/-- The 4 x 4 board with the block `(1,1), (1,2), (2,1), (2,2)`, counts initialised. -/
def blockBoard : Board := [1, 2, 2, 1,  2, 19, 19, 2,  2, 19, 19, 2,  1, 2, 2, 1]

/-- The 4 x 4 board with the block `(0,0), (0,1), (1,0), (1,1)`, counts
initialised, and the reserved bit 5 set in cell `(0,0)`. -/
def reservedBitBlock : Board := [0x33, 19, 2, 2,  19, 19, 2, 2,  2, 2, 1, 1,  2, 2, 1, 1]

/-- A still life: no dead cell has count 3, every alive cell has count 2 or 3. -/
def StillLife (nrows ncols : Nat) (b : Board) : Prop :=
  ∀ i < nrows, ∀ j < ncols,
    (aliveAt b nrows i j = false → countAt b nrows i j ≠ 3) ∧
    (aliveAt b nrows i j = true → countAt b nrows i j = 2 ∨ countAt b nrows i j = 3)

instance (nrows ncols : Nat) (b : Board) : Decidable (StillLife nrows ncols b) := by
  unfold StillLife; infer_instance

/-- The 4 x 6 board on which exactly the corners `(0,0)` and `(3,5)` are alive,
all counts zero, in a buffer as `make_board` allocates it. -/
def cornersBoard : Board :=
  (List.range (2 * 4 * 6)).map fun k => if k = 0 ∨ k = 23 then 16 else 0

/-! ## Auxiliary definitions of the proofs -/

/-- Pure form of one read-modify-write `board[k] = f (board[k])`. -/
def applyAt (f : Nat → Nat) (b : Board) (k : Nat) : Board := b.set k (f (b.getD k 0))

/-- Pure form of a sequence of read-modify-writes. -/
def applyAll (f : Nat → Nat) (L : List Nat) (b : Board) : Board := L.foldl (applyAt f) b

/-- Row or column index one lower, wrapping to `n - 1`. -/
def wrapDec (n i : Nat) : Nat := if i = 0 then n - 1 else i - 1

/-- Row or column index one higher, wrapping to `0`. -/
def wrapInc (n i : Nat) : Nat := if i + 1 = n then 0 else i + 1

/-- Flat address of cell `(i, j)`. -/
def flat (nrows : Nat) (q : Nat × Nat) : Nat := q.1 + nrows * q.2

/-- The alive flag that the row kernels give a cell whose byte in `inboard` is
`cell`: the two guards of `cellStep`. -/
def nextAlive (cell : Nat) : Bool :=
  if IS_ALIVE cell = 0 then decide (cell = 0x3)
  else !(decide (toChar cell ≤ 0x11 ∨ toChar cell ≥ 0x14))

/-- Pure form of `cellStep` at an in-range cell `(i, j)`. -/
def cellPure (nrows ncols : Nat) (inboard : Board) (i j : Nat) (outboard : Board) : Board :=
  let k := flat nrows (i, j)
  let cell := inboard.getD k 0
  let L := (torus nrows ncols i j).map (flat nrows)
  if IS_ALIVE cell = 0 then
    if cell = 0x3 then
      applyAll (fun v => (v + 1) % 256) L (outboard.set k (SET_ALIVE (outboard.getD k 0)))
    else outboard
  else
    if toChar cell ≤ 0x11 ∨ toChar cell ≥ 0x14 then
      applyAll (fun v => (v + 255) % 256) L (outboard.set k (SET_DEAD (outboard.getD k 0)))
    else outboard

/-- A sequence of cell updates of one generation, in the given order. -/
def runCells (nrows ncols : Nat) (inboard : Board) (cells : List (Int × Nat))
    (outboard : Board) : Option Board :=
  cells.foldlM (fun out c => cellStep nrows ncols inboard c.1 c.2 out) outboard

/-- The cells `gol_worker_for_row` visits on row `i`, in order. -/
def rowCells (i : Int) (ncols : Nat) : List (Int × Nat) :=
  (List.range ncols).map fun (j : Nat) => (i, j)

/-- The cells `gol_worker` visits for package `p`, in order (column by column). -/
def workerCells (p : Package) : List (Int × Nat) :=
  (List.range p.ncols).flatMap fun (j : Nat) =>
    (rowRange p.start_row p.end_row).map fun (i : Int) => (i, j)

/-- The row indices handed to `gol_worker_for_row` by the edge pass, in order. -/
def edgeRows (packages : List Package) : List Int :=
  packages.flatMap fun p => [p.start_row - 1, p.end_row]

/-- The row indices visited by the workers of the interior pass. -/
def interiorRows (packages : List Package) : List Int :=
  packages.flatMap fun p => rowRange p.start_row p.end_row

/-- All row indices updated in one generation: edge pass, then interior pass. -/
def updatedRows (packages : List Package) : List Int :=
  edgeRows packages ++ interiorRows packages

/-- The cells visited by the edge pass, in order. -/
def edgeCells (packages : List Package) (ncols : Nat) : List (Int × Nat) :=
  packages.flatMap fun p => rowCells (p.start_row - 1) ncols ++ rowCells p.end_row ncols

/-- The cells visited by the interior pass, in order. -/
def interiorCells (packages : List Package) : List (Int × Nat) :=
  packages.flatMap workerCells

/-- All cells visited in one generation, in order. -/
def genCells (packages : List Package) (ncols : Nat) : List (Int × Nat) :=
  edgeCells packages ncols ++ interiorCells packages

/-- The cells of one package: its two edge rows, then its interior. -/
def packageCells (ncols : Nat) (p : Package) : List (Int × Nat) :=
  (rowCells (p.start_row - 1) ncols ++ rowCells p.end_row ncols) ++ workerCells p

/-- The cells in the order `init_neighbour_cnts` visits them (column by column). -/
def cellsCM (nrows ncols : Nat) : List (Nat × Nat) :=
  (List.range ncols).flatMap fun (j : Nat) => (List.range nrows).map fun (i : Nat) => (i, j)

/-- Pure form of `initStep` at an in-range cell `(i, j)`. -/
def initPure (nrows ncols : Nat) (i j : Nat) (board : Board) : Board :=
  if isAlive (board.getD (flat nrows (i, j)) 0) ≠ 0 then
    applyAll incNeighborCnt ((torus nrows ncols i j).map (flat nrows)) board
  else board

/-- Loop invariant of `init_neighbour_cnts`: `D` marks the cells already
visited, `b0` is the board at entry. -/
def InitInv (nrows ncols : Nat) (b0 b : Board) (D : Nat × Nat → Bool) : Prop :=
  nrows * ncols ≤ b.length ∧
  ∀ a < nrows, ∀ c < ncols,
    cellAt b nrows a c / 16 = cellAt b0 nrows a c / 16 ∧
    cellAt b nrows a c % 16 =
      (torus nrows ncols a c).countP (fun q => aliveAt b0 nrows q.1 q.2 && D q)

/-- The `(row, column offset)` pairs of the elements of `outboard` that the loop
body `cellStep` can write for cell `(i, j)`: the cell itself and its eight
notified neighbours. -/
def writePairs (nrows ncols : Nat) (i : Int) (j : Nat) : List (Int × Int) :=
  (i, (nrows : Int) * (j : Int)) :: neighbours nrows ncols i j

/-- The package of worker `k` when the chunk size is `c`. -/
def packageAt (nrows ncols : Nat) (c : Int) (k : Nat) : Package :=
  { nrows := nrows, ncols := ncols, start_row := (k : Int) * c + 1,
    end_row := ((k : Int) + 1) * c - 1 }

/-- Observer of a notification block: the byte at the addressed element before
and after each single `INCREMENT_NEIGHBOURS` / `DECREMENT_NEIGHBOURS` (`f`) of
the block, in order. -/
def notifyTrace (f : Board → Int → Int → Option Board) :
    List (Int × Int) → Board → Option (List (Nat × Nat))
  | [], _ => some []
  | p :: ps, board =>
    (rd board (p.1 + p.2)).bind fun old =>
      (f board p.1 p.2).bind fun board' =>
        (rd board' (p.1 + p.2)).bind fun new =>
          (notifyTrace f ps board').bind fun rest => some ((old, new) :: rest)


theorem and_mod256 (v m : Nat) (hm : m < 256) : v &&& m = (v % 256) &&& m := by
  apply Nat.eq_of_testBit_eq
  intro i
  have h256 : (256 : Nat) = 2 ^ 8 := by norm_num
  rw [Nat.testBit_and, Nat.testBit_and, h256, Nat.testBit_mod_two_pow]
  by_cases hi : i < 8
  · simp [hi]
  · have : m.testBit i = false := by
      apply Nat.testBit_lt_two_pow
      calc m < 2 ^ 8 := by omega
        _ ≤ 2 ^ i := Nat.pow_le_pow_right (by norm_num) (by omega)
    simp [this]

theorem or_mod256 (v m : Nat) (hm : m < 256) : (v ||| m) % 256 = (v % 256) ||| m := by
  apply Nat.eq_of_testBit_eq
  intro i
  have h256 : (256 : Nat) = 2 ^ 8 := by norm_num
  rw [Nat.testBit_or, h256, Nat.testBit_mod_two_pow, Nat.testBit_or, Nat.testBit_mod_two_pow]
  by_cases hi : i < 8
  · simp [hi]
  · have : m.testBit i = false := by
      apply Nat.testBit_lt_two_pow
      calc m < 2 ^ 8 := by omega
        _ ≤ 2 ^ i := Nat.pow_le_pow_right (by norm_num) (by omega)
    simp [this, hi]

set_option maxRecDepth 100000 in
theorem byte_and16 : ∀ w < 256, w &&& 16 = 16 * (w / 16 % 2) := by decide

set_option maxRecDepth 100000 in
theorem byte_or16 : ∀ w < 256, w ||| 16 = w + 16 * (1 - w / 16 % 2) := by decide

set_option maxRecDepth 100000 in
theorem byte_and239 : ∀ w < 256, w &&& 239 = w - 16 * (w / 16 % 2) := by decide

theorem IS_ALIVE_eq (v : Nat) : IS_ALIVE v = 16 * (v / 16 % 2) := by
  have h := byte_and16 (v % 256) (Nat.mod_lt _ (by norm_num))
  have h2 := and_mod256 v 16 (by norm_num)
  show v &&& 16 = _
  rw [h2, h]; omega

theorem SET_ALIVE_eq (v : Nat) : SET_ALIVE v = v % 256 + 16 * (1 - v / 16 % 2) := by
  have h := byte_or16 (v % 256) (Nat.mod_lt _ (by norm_num))
  have h2 := or_mod256 v 16 (by norm_num)
  show (v ||| 16) % 256 = _
  rw [h2, h]; omega

theorem SET_DEAD_eq (v : Nat) : SET_DEAD v = v % 256 - 16 * (v / 16 % 2) := by
  have h := byte_and239 (v % 256) (Nat.mod_lt _ (by norm_num))
  have h2 := and_mod256 v 239 (by norm_num)
  show (v &&& 239) % 256 = _
  rw [h2, h]; omega


/-! ### Buffer accesses -/

theorem rd_nat (b : Board) (m : Nat) (h : m < b.length) : rd b (m : Int) = some (b.getD m 0) := by
  simp [rd, List.getD_eq_getElem?_getD, List.getElem?_eq_getElem h]

theorem wr_nat (b : Board) (m v : Nat) (h : m < b.length) :
    wr b (m : Int) v = some (b.set m v) := by
  simp [wr, h]

theorem getD_set (b : Board) (m k v : Nat) :
    (b.set m v).getD k 0 = if m = k ∧ m < b.length then v else b.getD k 0 := by
  simp only [List.getD_eq_getElem?_getD, List.getElem?_set]
  by_cases hmk : m = k
  · subst hmk
    by_cases hm : m < b.length
    · simp [hm]
    · simp [hm, List.getElem?_eq_none (Nat.le_of_not_lt hm)]
  · simp [hmk]

theorem applyAll_length (f : Nat → Nat) (L : List Nat) (b : Board) :
    (applyAll f L b).length = b.length := by
  induction L generalizing b with
  | nil => rfl
  | cons k L ih => simp [applyAll, applyAt] at ih ⊢; rw [ih]; simp

theorem applyAll_getD (f : Nat → Nat) (L : List Nat) (b : Board) (k : Nat)
    (hk : k < b.length) : (applyAll f L b).getD k 0 = f^[L.count k] (b.getD k 0) := by
  induction L generalizing b with
  | nil => rfl
  | cons k0 L ih =>
    have h1 : applyAll f (k0 :: L) b = applyAll f L (applyAt f b k0) := rfl
    rw [h1, ih _ (by simpa [applyAt] using hk)]
    by_cases h : k0 = k
    · subst h
      simp [applyAt, getD_set, hk, Function.iterate_succ_apply]
    · have hc : (k0 :: L).count k = L.count k := by
        rw [List.count_cons]; simp [h]
      simp [applyAt, getD_set, h, hc]

theorem foldlM_update (f : Nat → Nat) (g : Board → Int → Int → Option Board)
    (hg : ∀ b i j, g b i j = (rd b (i + j)).bind fun v => wr b (i + j) (f v))
    (ps : List (Int × Int)) (L : List Nat)
    (hL : ps.map (fun p => p.1 + p.2) = List.map (fun k : Nat => (k : Int)) L)
    (b : Board) (hb : ∀ k ∈ L, k < b.length) :
    ps.foldlM (fun b p => g b p.1 p.2) b = some (applyAll f L b) := by
  induction ps generalizing L b with
  | nil =>
    cases L with
    | nil => rfl
    | cons k L => simp at hL
  | cons p ps ih =>
    cases L with
    | nil => simp at hL
    | cons k L =>
      simp only [List.map_cons, List.cons.injEq] at hL
      have hk : k < b.length := hb k (by simp)
      rw [List.foldlM_cons, hg, hL.1, rd_nat b k hk]
      simp only [Option.some_bind, Option.bind_eq_bind]
      rw [wr_nat b k _ hk]
      simp only [Option.some_bind]
      have := ih L hL.2 (b.set k (f (b.getD k 0))) (by
        intro k' hk'; simpa using hb k' (by simp [hk']))
      rw [this]; rfl

/-! ### Wrap-around arithmetic -/

theorem pred_mod (n i : Nat) (hi : i < n) : (i + n - 1) % n = wrapDec n i := by
  unfold wrapDec
  split_ifs with h
  · subst h; rw [Nat.zero_add]; exact Nat.mod_eq_of_lt (by omega)
  · have : i + n - 1 = (i - 1) + n := by omega
    rw [this, Nat.add_mod_right]; exact Nat.mod_eq_of_lt (by omega)

theorem succ_mod (n i : Nat) (hi : i < n) : (i + 1) % n = wrapInc n i := by
  unfold wrapInc
  split_ifs with h
  · rw [h]; exact Nat.mod_self n
  · exact Nat.mod_eq_of_lt (by omega)

theorem mod_of_nonneg (x m : Int) (h0 : 0 ≤ x) (h1 : x < m) : mod x m = x := by
  unfold mod
  rw [if_neg (by omega), Int.tmod_eq_of_lt h0 h1]

theorem tmod_neg_nat (a n : Nat) :
    Int.tmod (-(a : Int)) (n : Int) = -((a % n : Nat) : Int) := by
  cases a with
  | zero => simp
  | succ k => rfl

theorem mod_neg_one (m : Int) (hm : 2 ≤ m) : mod (-1) m = m - 1 := by
  unfold mod
  obtain ⟨n, rfl⟩ : ∃ n : Nat, m = (n : Int) := ⟨m.toNat, by omega⟩
  have h : Int.tmod (-1) (n : Int) = -1 := by
    have := tmod_neg_nat 1 n
    rw [Nat.mod_eq_of_lt (by omega)] at this
    simpa using this
  rw [if_pos (by omega), h]; omega

theorem mod_self_eq (m : Int) (hm : 1 ≤ m) : mod m m = 0 := by
  unfold mod
  rw [if_neg (by omega), Int.tmod_self]

theorem mod_pred (n i : Nat) (hn : 2 ≤ n) (hi : i < n) :
    mod ((i : Int) - 1) (n : Int) = ((wrapDec n i : Nat) : Int) := by
  unfold wrapDec
  split_ifs with h
  · subst h
    have := mod_neg_one (n : Int) (by omega)
    simp at this ⊢
    rw [this]; omega
  · rw [mod_of_nonneg _ _ (by omega) (by omega)]; omega

theorem mod_succ (n i : Nat) (hi : i < n) :
    mod ((i : Int) + 1) (n : Int) = ((wrapInc n i : Nat) : Int) := by
  unfold wrapInc
  split_ifs with h
  · have h2 : (i : Int) + 1 = (n : Int) := by omega
    rw [h2, mod_self_eq _ (by omega)]; rfl
  · rw [mod_of_nonneg _ _ (by omega) (by omega)]; omega

theorem torus_eq (nrows ncols i j : Nat) (hi : i < nrows) (hj : j < ncols) :
    torus nrows ncols i j =
      [(wrapDec nrows i, wrapDec ncols j), (wrapDec nrows i, j), (wrapDec nrows i, wrapInc ncols j),
       (i, wrapDec ncols j), (i, wrapInc ncols j),
       (wrapInc nrows i, wrapDec ncols j), (wrapInc nrows i, j),
       (wrapInc nrows i, wrapInc ncols j)] := by
  simp only [torus, pred_mod _ _ hi, pred_mod _ _ hj, succ_mod _ _ hi, succ_mod _ _ hj]

theorem neighbours_eq (nrows ncols i j : Nat) (hr : 2 ≤ nrows) (hc : 2 ≤ ncols)
    (hi : i < nrows) (hj : j < ncols) :
    (neighbours nrows ncols (i : Int) j).map (fun p => p.1 + p.2) =
      List.map (fun k : Nat => (k : Int)) ((torus nrows ncols i j).map (flat nrows)) := by
  rw [torus_eq _ _ _ _ hi hj]
  simp only [neighbours, mod_pred _ _ hr hi, mod_pred _ _ hc hj, mod_succ _ _ hi, mod_succ _ _ hj,
    List.map_cons, List.map_nil, flat]
  push_cast
  rfl

theorem wrapDec_lt (n i : Nat) (hi : i < n) : wrapDec n i < n := by
  unfold wrapDec; split_ifs <;> omega

theorem wrapInc_lt (n i : Nat) (hi : i < n) : wrapInc n i < n := by
  unfold wrapInc; split_ifs <;> omega

theorem torus_range (nrows ncols i j : Nat) (hi : i < nrows) (hj : j < ncols)
    (q : Nat × Nat) (hq : q ∈ torus nrows ncols i j) : q.1 < nrows ∧ q.2 < ncols := by
  rw [torus_eq _ _ _ _ hi hj] at hq
  have h1 := wrapDec_lt _ _ hi
  have h2 := wrapInc_lt _ _ hi
  have h3 := wrapDec_lt _ _ hj
  have h4 := wrapInc_lt _ _ hj
  simp only [List.mem_cons, List.mem_singleton, List.not_mem_nil, or_false] at hq
  rcases hq with h | h | h | h | h | h | h | h <;> subst h <;> exact ⟨by assumption, by assumption⟩

/-- Adjacency of two indices on a cycle of length `n`. -/
theorem mem_torus (nrows ncols i j a b : Nat) (hr : 3 ≤ nrows) (hc : 3 ≤ ncols)
    (hi : i < nrows) (hj : j < ncols) :
    (a, b) ∈ torus nrows ncols i j ↔
      (a = i ∨ a = wrapDec nrows i ∨ a = wrapInc nrows i) ∧
      (b = j ∨ b = wrapDec ncols j ∨ b = wrapInc ncols j) ∧ ¬ (a = i ∧ b = j) := by
  rw [torus_eq _ _ _ _ hi hj]
  simp only [List.mem_cons, List.mem_singleton, List.not_mem_nil, or_false, Prod.mk.injEq]
  have h1 : wrapDec nrows i ≠ i := by unfold wrapDec; split_ifs <;> omega
  have h2 : wrapInc nrows i ≠ i := by unfold wrapInc; split_ifs <;> omega
  have h3 : wrapDec ncols j ≠ j := by unfold wrapDec; split_ifs <;> omega
  have h4 : wrapInc ncols j ≠ j := by unfold wrapInc; split_ifs <;> omega
  constructor
  · rintro (⟨rfl, rfl⟩ | ⟨rfl, rfl⟩ | ⟨rfl, rfl⟩ | ⟨rfl, rfl⟩ | ⟨rfl, rfl⟩ | ⟨rfl, rfl⟩ |
      ⟨rfl, rfl⟩ | ⟨rfl, rfl⟩) <;> simp [h1, h2, h3, h4]
  · rintro ⟨ha | ha | ha, hb | hb | hb, hne⟩ <;> subst ha <;> subst hb <;> simp_all

theorem wrap_symm (n a i : Nat) (hn : 3 ≤ n) (ha : a < n) (hi : i < n) :
    (a = wrapDec n i ↔ i = wrapInc n a) ∧ (a = wrapInc n i ↔ i = wrapDec n a) := by
  unfold wrapDec wrapInc
  split_ifs <;> omega

theorem torus_symm (nrows ncols i j a b : Nat) (hr : 3 ≤ nrows) (hc : 3 ≤ ncols)
    (hi : i < nrows) (hj : j < ncols) (ha : a < nrows) (hb : b < ncols) :
    (a, b) ∈ torus nrows ncols i j ↔ (i, j) ∈ torus nrows ncols a b := by
  rw [mem_torus _ _ _ _ _ _ hr hc hi hj, mem_torus _ _ _ _ _ _ hr hc ha hb]
  have h1 := wrap_symm nrows a i hr ha hi
  have h2 := wrap_symm ncols b j hc hb hj
  rw [h1.1, h1.2, h2.1, h2.2]
  constructor
  · rintro ⟨h, h', hne⟩
    refine ⟨?_, ?_, fun ⟨x, y⟩ => hne ⟨x.symm, y.symm⟩⟩
    · rcases h with h | h | h
      · exact Or.inl h.symm
      · exact Or.inr (Or.inr h)
      · exact Or.inr (Or.inl h)
    · rcases h' with h | h | h
      · exact Or.inl h.symm
      · exact Or.inr (Or.inr h)
      · exact Or.inr (Or.inl h)
  · rintro ⟨h, h', hne⟩
    refine ⟨?_, ?_, fun ⟨x, y⟩ => hne ⟨x.symm, y.symm⟩⟩
    · rcases h with h | h | h
      · exact Or.inl h.symm
      · exact Or.inr (Or.inr h)
      · exact Or.inr (Or.inl h)
    · rcases h' with h | h | h
      · exact Or.inl h.symm
      · exact Or.inr (Or.inr h)
      · exact Or.inr (Or.inl h)

theorem torus_not_self (nrows ncols i j : Nat) (hr : 3 ≤ nrows) (hc : 3 ≤ ncols)
    (hi : i < nrows) (hj : j < ncols) : (i, j) ∉ torus nrows ncols i j := by
  rw [mem_torus _ _ _ _ _ _ hr hc hi hj]; simp

theorem torus_nodup (nrows ncols i j : Nat) (hr : 3 ≤ nrows) (hc : 3 ≤ ncols)
    (hi : i < nrows) (hj : j < ncols) : (torus nrows ncols i j).Nodup := by
  rw [torus_eq _ _ _ _ hi hj]
  have h1 : wrapDec nrows i ≠ i := by unfold wrapDec; split_ifs <;> omega
  have h2 : wrapInc nrows i ≠ i := by unfold wrapInc; split_ifs <;> omega
  have h3 : wrapDec ncols j ≠ j := by unfold wrapDec; split_ifs <;> omega
  have h4 : wrapInc ncols j ≠ j := by unfold wrapInc; split_ifs <;> omega
  have h5 : wrapDec nrows i ≠ wrapInc nrows i := by unfold wrapDec wrapInc; split_ifs <;> omega
  have h6 : wrapDec ncols j ≠ wrapInc ncols j := by unfold wrapDec wrapInc; split_ifs <;> omega
  simp [List.nodup_cons, h1, h2, h3, h4, h5, h6, Ne.symm h1, Ne.symm h2, Ne.symm h3, Ne.symm h4,
    Ne.symm h5, Ne.symm h6]

theorem torus_length (nrows ncols i j : Nat) : (torus nrows ncols i j).length = 8 := rfl

/-! ### Flat addresses -/

theorem flat_lt (nrows ncols : Nat) (q : Nat × Nat) (h1 : q.1 < nrows) (h2 : q.2 < ncols) :
    flat nrows q < nrows * ncols := by
  unfold flat
  have h : nrows * (q.2 + 1) ≤ nrows * ncols := Nat.mul_le_mul_left _ h2
  rw [Nat.mul_add, Nat.mul_one] at h
  omega

theorem flat_inj (nrows : Nat) (q q' : Nat × Nat) (h : q.1 < nrows) (h' : q'.1 < nrows) :
    flat nrows q = flat nrows q' ↔ q = q' := by
  constructor
  · intro e
    unfold flat at e
    have hn : 0 < nrows := by omega
    have e1 := congrArg (· % nrows) e
    have e2 := congrArg (· / nrows) e
    simp only [Nat.add_mul_mod_self_left, Nat.mod_eq_of_lt h, Nat.mod_eq_of_lt h',
      Nat.add_mul_div_left _ _ hn, Nat.div_eq_of_lt h, Nat.div_eq_of_lt h', Nat.zero_add] at e1 e2
    exact Prod.ext e1 e2
  · intro e; rw [e]

theorem count_flat (nrows : Nat) (L : List (Nat × Nat)) (hL : ∀ q ∈ L, q.1 < nrows)
    (q : Nat × Nat) (hq : q.1 < nrows) :
    (L.map (flat nrows)).count (flat nrows q) = L.count q := by
  induction L with
  | nil => rfl
  | cons x L ih =>
    have hx : x.1 < nrows := hL x (by simp)
    have ih' := ih (fun y hy => hL y (by simp [hy]))
    rw [List.map_cons, List.count_cons, List.count_cons, ih']
    have := flat_inj nrows x q hx hq
    by_cases hxq : x = q
    · simp [hxq]
    · have : flat nrows x ≠ flat nrows q := fun e => hxq (this.1 e)
      simp [hxq, this]

theorem torus_flat_lt (nrows ncols i j : Nat) (hi : i < nrows) (hj : j < ncols) :
    ∀ k ∈ (torus nrows ncols i j).map (flat nrows), k < nrows * ncols := by
  intro k hk
  rw [List.mem_map] at hk
  obtain ⟨q, hq, rfl⟩ := hk
  have := torus_range _ _ _ _ hi hj q hq
  exact flat_lt _ _ _ this.1 this.2

theorem cellStep_eq (nrows ncols : Nat) (inb out : Board) (i j : Nat)
    (hr : 2 ≤ nrows) (hc : 2 ≤ ncols) (hi : i < nrows) (hj : j < ncols)
    (hin : nrows * ncols ≤ inb.length) (hout : nrows * ncols ≤ out.length) :
    cellStep nrows ncols inb (i : Int) j out = some (cellPure nrows ncols inb i j out) := by
  have hk : flat nrows (i, j) < nrows * ncols := flat_lt _ _ _ hi hj
  have hcast : (i : Int) + (nrows : Int) * (j : Int) = ((flat nrows (i, j) : Nat) : Int) := by
    simp [flat]
  unfold cellStep cellPure
  simp only [hcast]
  rw [rd_nat inb _ (by omega)]
  simp only [Option.some_bind]
  split_ifs with h1 h2 h3
  · rw [rd_nat out _ (by omega), Option.some_bind, wr_nat out _ _ (by omega), Option.some_bind]
    exact foldlM_update _ INCREMENT_NEIGHBOURS (fun _ _ _ => rfl) _ _
      (neighbours_eq _ _ _ _ hr hc hi hj) _
      (fun k hk' => by
        have := torus_flat_lt _ _ _ _ hi hj k hk'
        simp only [List.length_set]; omega)
  · rfl
  · rw [rd_nat out _ (by omega), Option.some_bind, wr_nat out _ _ (by omega), Option.some_bind]
    exact foldlM_update _ DECREMENT_NEIGHBOURS (fun _ _ _ => rfl) _ _
      (neighbours_eq _ _ _ _ hr hc hi hj) _
      (fun k hk' => by
        have := torus_flat_lt _ _ _ _ hi hj k hk'
        simp only [List.length_set]; omega)
  · rfl

theorem cellPure_length (nrows ncols : Nat) (inb out : Board) (i j : Nat) :
    (cellPure nrows ncols inb i j out).length = out.length := by
  unfold cellPure
  simp only
  split_ifs <;> simp [applyAll_length]

theorem count_nodup_mem {α : Type} [BEq α] [LawfulBEq α] (L : List α) (a : α)
    (hnd : L.Nodup) (h : a ∈ L) : L.count a = 1 := by
  induction L with
  | nil => simp at h
  | cons x L ih =>
    rw [List.nodup_cons] at hnd
    rw [List.count_cons]
    by_cases hx : x = a
    · subst hx
      rw [List.count_eq_zero_of_not_mem hnd.1]; simp
    · have : a ∈ L := by
        rcases List.mem_cons.1 h with h | h
        · exact absurd h.symm hx
        · exact h
      rw [ih hnd.2 this]; simp [hx]

/-- The byte of every in-range cell after a birth or a death at `(i, j)`: `g` is
the flag update of the cell, `f` the count update of its neighbours. -/
theorem applyAll_cellAt (nrows ncols : Nat) (f : Nat → Nat) (g : Nat) (out : Board) (i j a b : Nat)
    (hr : 3 ≤ nrows) (hc : 3 ≤ ncols) (hi : i < nrows) (hj : j < ncols)
    (ha : a < nrows) (hb : b < ncols) (hout : nrows * ncols ≤ out.length) :
    cellAt (applyAll f ((torus nrows ncols i j).map (flat nrows))
        (out.set (flat nrows (i, j)) g)) nrows a b =
      if (a, b) = (i, j) then g
      else if (a, b) ∈ torus nrows ncols i j then f (cellAt out nrows a b)
      else cellAt out nrows a b := by
  have hk : flat nrows (a, b) < nrows * ncols := flat_lt _ _ _ ha hb
  have hk' : flat nrows (i, j) < nrows * ncols := flat_lt _ _ _ hi hj
  show (applyAll _ _ _).getD (flat nrows (a, b)) 0 = _
  rw [applyAll_getD _ _ _ _ (by simp only [List.length_set]; omega),
    count_flat nrows _ (fun q hq => (torus_range _ _ _ _ hi hj q hq).1) (a, b) ha, getD_set]
  have hnd := torus_nodup _ _ i j hr hc hi hj
  have hns := torus_not_self _ _ i j hr hc hi hj
  by_cases hab : (a, b) = (i, j)
  · rw [if_pos hab, hab, List.count_eq_zero_of_not_mem hns]
    simp; omega
  · have hne : ¬ (flat nrows (i, j) = flat nrows (a, b) ∧ flat nrows (i, j) < out.length) :=
      fun h => hab ((flat_inj nrows _ _ hi ha).1 h.1).symm
    rw [if_neg hab, if_neg hne]
    by_cases hm : (a, b) ∈ torus nrows ncols i j
    · rw [if_pos hm, count_nodup_mem _ _ hnd hm]; rfl
    · rw [if_neg hm, List.count_eq_zero_of_not_mem hm]; rfl

/-! ### Counting alive neighbours under a flip -/

theorem countP_flip {α : Type} [DecidableEq α] (L : List α) (f f' : α → Bool) (q : α)
    (hnd : L.Nodup) (hagree : ∀ x ∈ L, x ≠ q → f' x = f x) :
    L.countP f' + (if q ∈ L ∧ f q = true then 1 else 0) =
      L.countP f + (if q ∈ L ∧ f' q = true then 1 else 0) := by
  induction L with
  | nil => simp
  | cons x L ih =>
    rw [List.nodup_cons] at hnd
    have ih' := ih hnd.2 (fun y hy hne => hagree y (by simp [hy]) hne)
    rw [List.countP_cons, List.countP_cons]
    by_cases hx : x = q
    · subst hx
      have hq : x ∉ L := hnd.1
      simp only [hq, false_and, if_false, Nat.add_zero] at ih'
      simp only [List.mem_cons, true_or, true_and]
      rw [ih']
      cases f x <;> cases f' x <;> simp
    · have hfx : f' x = f x := hagree x (by simp) hx
      have hmem : (q ∈ x :: L) ↔ q ∈ L := by
        simp only [List.mem_cons]
        constructor
        · rintro (h | h)
          · exact absurd h.symm hx
          · exact h
        · exact Or.inr
      simp only [hmem, hfx]
      omega

theorem flip_inv (nrows ncols : Nat) (out out' : Board) (i j : Nat) (f : Nat → Nat) (g : Nat)
    (fl : Bool) (hr : 3 ≤ nrows) (hc : 3 ≤ ncols) (hi : i < nrows) (hj : j < ncols)
    (hcell : ∀ a < nrows, ∀ b < ncols, cellAt out' nrows a b =
      if (a, b) = (i, j) then g
      else if (a, b) ∈ torus nrows ncols i j then f (cellAt out nrows a b)
      else cellAt out nrows a b)
    (hg1 : g % 16 = cellAt out nrows i j % 16) (hg2 : (g / 16 % 2 == 1) = fl)
    (hold : aliveAt out nrows i j = !fl)
    (hf : ∀ v, (if fl = true then v % 16 ≤ 7 else 1 ≤ v % 16) →
      f v % 16 + (if fl = true then 0 else 1) = v % 16 + (if fl = true then 1 else 0) ∧
        f v / 16 % 2 = v / 16 % 2)
    (hinv : CountInv nrows ncols out) :
    CountInv nrows ncols out' ∧
      (∀ a < nrows, ∀ b < ncols, aliveAt out' nrows a b =
        if (a, b) = (i, j) then fl else aliveAt out nrows a b) ∧
      (∀ a < nrows, ∀ b < ncols, (a, b) ∈ torus nrows ncols i j →
        (if fl = true then cellAt out nrows a b % 16 ≤ 7 else 1 ≤ cellAt out nrows a b % 16)) := by
  -- the count field of a neighbour leaves room for the update
  have hroom : ∀ a < nrows, ∀ b < ncols, (a, b) ∈ torus nrows ncols i j →
      (if fl = true then cellAt out nrows a b % 16 ≤ 7 else 1 ≤ cellAt out nrows a b % 16) := by
    intro a ha b hb hm
    have hq : (i, j) ∈ torus nrows ncols a b := (torus_symm _ _ _ _ _ _ hr hc hi hj ha hb).1 hm
    have hcnt : cellAt out nrows a b % 16 =
        (torus nrows ncols a b).countP (fun p => aliveAt out nrows p.1 p.2) := hinv a ha b hb
    have hflip := countP_flip (torus nrows ncols a b) (fun p => aliveAt out nrows p.1 p.2)
      (fun p => if p = (i, j) then fl else aliveAt out nrows p.1 p.2) (i, j)
      (torus_nodup _ _ _ _ hr hc ha hb) (fun x _ hne => by simp [hne])
    have hlen := List.countP_le_length (fun p => if p = (i, j) then fl else aliveAt out nrows p.1 p.2)
      (l := torus nrows ncols a b)
    rw [torus_length] at hlen
    simp only [hq, true_and, hold, if_true] at hflip
    rw [hcnt]
    generalize List.countP (fun p => if p = (i, j) then fl else aliveAt out nrows p.1 p.2)
      (torus nrows ncols a b) = c' at hflip hlen
    generalize List.countP (fun p => aliveAt out nrows p.1 p.2) (torus nrows ncols a b) = c
      at hflip
    cases fl <;> simp at hflip ⊢ <;> omega
  have halive : ∀ a < nrows, ∀ b < ncols, aliveAt out' nrows a b =
      if (a, b) = (i, j) then fl else aliveAt out nrows a b := by
    intro a ha b hb
    unfold aliveAt
    rw [hcell a ha b hb]
    by_cases hab : (a, b) = (i, j)
    · simp only [hab, if_true]; exact hg2
    · simp only [hab, if_false]
      by_cases hm : (a, b) ∈ torus nrows ncols i j
      · simp only [hm, if_true]
        rw [(hf _ (hroom a ha b hb hm)).2]
      · simp only [hm, if_false]
  refine ⟨?_, halive, hroom⟩
  intro a ha b hb
  have hcnt : cellAt out nrows a b % 16 =
      (torus nrows ncols a b).countP (fun p => aliveAt out nrows p.1 p.2) := hinv a ha b hb
  have hflip := countP_flip (torus nrows ncols a b) (fun p => aliveAt out nrows p.1 p.2)
    (fun p => aliveAt out' nrows p.1 p.2) (i, j)
    (torus_nodup _ _ _ _ hr hc ha hb) (fun x hx hne => by
      have hx' := torus_range _ _ _ _ ha hb x hx
      have := halive x.1 hx'.1 x.2 hx'.2
      simp only [Prod.mk.eta, hne, if_false] at this
      exact this)
  have hnew : aliveAt out' nrows i j = fl := by
    have := halive i hi j hj
    simpa using this
  simp only [hold, hnew] at hflip
  show cellAt out' nrows a b % 16 = (torus nrows ncols a b).countP (fun p => aliveAt out' nrows p.1 p.2)
  rw [hcell a ha b hb]
  by_cases hab : (a, b) = (i, j)
  · have hns := torus_not_self _ _ i j hr hc hi hj
    simp only [Prod.mk.injEq] at hab
    obtain ⟨rfl, rfl⟩ := hab
    simp only [hns, false_and, if_false, Nat.add_zero] at hflip
    simp only [if_true]
    rw [hg1, hcnt, hflip]
  · simp only [hab, if_false]
    by_cases hm : (a, b) ∈ torus nrows ncols i j
    · have hq : (i, j) ∈ torus nrows ncols a b := (torus_symm _ _ _ _ _ _ hr hc hi hj ha hb).1 hm
      have h1 := (hf _ (hroom a ha b hb hm)).1
      simp only [hm, if_true]
      simp only [hq, true_and] at hflip
      cases fl <;> simp at hflip h1 ⊢ <;> omega
    · have hq : (i, j) ∉ torus nrows ncols a b :=
        fun h => hm ((torus_symm _ _ _ _ _ _ hr hc hi hj ha hb).2 h)
      simp only [hm, if_false]
      simp only [hq, false_and, if_false, Nat.add_zero] at hflip
      rw [hcnt, hflip]

/-! ### One cell update keeps the count invariant -/

theorem aliveAt_iff (b : Board) (nrows i j : Nat) :
    aliveAt b nrows i j = true ↔ cellAt b nrows i j / 16 % 2 = 1 := by
  unfold aliveAt; simp

theorem aliveAt_false_iff (b : Board) (nrows i j : Nat) :
    aliveAt b nrows i j = false ↔ cellAt b nrows i j / 16 % 2 = 0 := by
  unfold aliveAt
  have : cellAt b nrows i j / 16 % 2 < 2 := Nat.mod_lt _ (by norm_num)
  constructor
  · intro h
    have h' : ¬ (cellAt b nrows i j / 16 % 2 = 1) := by simpa using h
    omega
  · intro h; simp [h]

theorem cellPure_inv (nrows ncols : Nat) (inb out : Board) (i j : Nat)
    (hr : 3 ≤ nrows) (hc : 3 ≤ ncols) (hi : i < nrows) (hj : j < ncols)
    (hout : nrows * ncols ≤ out.length) (hinv : CountInv nrows ncols out)
    (hfresh : aliveAt out nrows i j = aliveAt inb nrows i j) :
    CountInv nrows ncols (cellPure nrows ncols inb i j out) ∧
      (∀ a < nrows, ∀ b < ncols, aliveAt (cellPure nrows ncols inb i j out) nrows a b =
        if (a, b) = (i, j) then nextAlive (cellAt inb nrows i j) else aliveAt out nrows a b) ∧
      (HighClear nrows ncols out → HighClear nrows ncols (cellPure nrows ncols inb i j out)) := by
  have hcellin : inb.getD (flat nrows (i, j)) 0 = cellAt inb nrows i j := rfl
  have hcellout : out.getD (flat nrows (i, j)) 0 = cellAt out nrows i j := rfl
  have hIS := IS_ALIVE_eq (cellAt inb nrows i j)
  have hlt2 : cellAt inb nrows i j / 16 % 2 < 2 := Nat.mod_lt _ (by norm_num)
  unfold cellPure
  simp only [hcellin, hcellout]
  by_cases h1 : IS_ALIVE (cellAt inb nrows i j) = 0
  · have hdead : aliveAt inb nrows i j = false := by
      rw [aliveAt_false_iff]; omega
    have hdead' : cellAt out nrows i j / 16 % 2 = 0 := by
      rw [← aliveAt_false_iff, hfresh, hdead]
    by_cases h2 : cellAt inb nrows i j = 0x3
    · rw [if_pos h1, if_pos h2]
      have hSA := SET_ALIVE_eq (cellAt out nrows i j)
      have hfl := flip_inv nrows ncols out _ i j (fun v => (v + 1) % 256)
        (SET_ALIVE (cellAt out nrows i j)) true hr hc hi hj
        (fun a ha b hb => applyAll_cellAt nrows ncols (fun v => (v + 1) % 256)
          (SET_ALIVE (cellAt out nrows i j)) out i j a b hr hc hi hj ha hb hout)
        (by omega) (by simp; omega) (by rw [hfresh, hdead]; rfl)
        (fun v hv => by simp at hv ⊢; omega) hinv
      refine ⟨hfl.1, ?_, ?_⟩
      · intro a ha b hb
        rw [hfl.2.1 a ha b hb]
        have hn : nextAlive (cellAt inb nrows i j) = true := by
          unfold nextAlive; rw [if_pos h1]; simp [h2]
        simp [hn]
      · intro hhc a ha b hb
        rw [applyAll_cellAt nrows ncols (fun v => (v + 1) % 256)
          (SET_ALIVE (cellAt out nrows i j)) out i j a b hr hc hi hj ha hb hout]
        have hv := hhc a ha b hb
        have hv' := hhc i hi j hj
        split_ifs with e1 e2
        · omega
        · have := hfl.2.2 a ha b hb e2
          simp at this
          show (cellAt out nrows a b + 1) % 256 < 32
          omega
        · exact hv
    · rw [if_pos h1, if_neg h2]
      refine ⟨hinv, ?_, fun h => h⟩
      intro a ha b hb
      have hn : nextAlive (cellAt inb nrows i j) = false := by
        unfold nextAlive; rw [if_pos h1]; simp [h2]
      by_cases hab : (a, b) = (i, j)
      · simp only [hab, if_true, hn]
        simp only [Prod.mk.injEq] at hab
        obtain ⟨rfl, rfl⟩ := hab
        rw [hfresh, hdead]
      · simp [hab]
  · have halive : aliveAt inb nrows i j = true := by
      rw [aliveAt_iff]; omega
    have halive' : cellAt out nrows i j / 16 % 2 = 1 := by
      rw [← aliveAt_iff, hfresh, halive]
    by_cases h3 : toChar (cellAt inb nrows i j) ≤ 0x11 ∨ toChar (cellAt inb nrows i j) ≥ 0x14
    · rw [if_neg h1, if_pos h3]
      have hSD := SET_DEAD_eq (cellAt out nrows i j)
      have hfl := flip_inv nrows ncols out _ i j (fun v => (v + 255) % 256)
        (SET_DEAD (cellAt out nrows i j)) false hr hc hi hj
        (fun a ha b hb => applyAll_cellAt nrows ncols (fun v => (v + 255) % 256)
          (SET_DEAD (cellAt out nrows i j)) out i j a b hr hc hi hj ha hb hout)
        (by omega) (by simp; omega) (by rw [hfresh, halive]; rfl)
        (fun v hv => by simp at hv ⊢; omega) hinv
      refine ⟨hfl.1, ?_, ?_⟩
      · intro a ha b hb
        rw [hfl.2.1 a ha b hb]
        have hn : nextAlive (cellAt inb nrows i j) = false := by
          unfold nextAlive; rw [if_neg h1]; simp [h3]
        simp [hn]
      · intro hhc a ha b hb
        rw [applyAll_cellAt nrows ncols (fun v => (v + 255) % 256)
          (SET_DEAD (cellAt out nrows i j)) out i j a b hr hc hi hj ha hb hout]
        have hv := hhc a ha b hb
        have hv' := hhc i hi j hj
        split_ifs with e1 e2
        · omega
        · have := hfl.2.2 a ha b hb e2
          simp at this
          show (cellAt out nrows a b + 255) % 256 < 32
          omega
        · exact hv
    · rw [if_neg h1, if_neg h3]
      refine ⟨hinv, ?_, fun h => h⟩
      intro a ha b hb
      have hn : nextAlive (cellAt inb nrows i j) = true := by
        unfold nextAlive; rw [if_neg h1]; simp [h3]
      by_cases hab : (a, b) = (i, j)
      · simp only [hab, if_true, hn]
        simp only [Prod.mk.injEq] at hab
        obtain ⟨rfl, rfl⟩ := hab
        rw [hfresh, halive]
      · simp [hab]

/-! ### The loops as sequences of cell updates -/

theorem foldlM_flatMap {α β : Type} (l : List α) (f : α → List β) (g : Board → β → Option Board)
    (b : Board) :
    (l.flatMap f).foldlM g b = l.foldlM (fun b x => (f x).foldlM g b) b := by
  induction l generalizing b with
  | nil => rfl
  | cons x l ih =>
    rw [List.flatMap_cons, List.foldlM_append, List.foldlM_cons]
    cases h : List.foldlM g b (f x) with
    | none => rfl
    | some b' => exact ih b'

theorem gol_worker_for_row_eq (i : Int) (ncols nrows : Nat) (inb out : Board) :
    gol_worker_for_row i ncols nrows inb out = runCells nrows ncols inb (rowCells i ncols) out := by
  unfold gol_worker_for_row runCells rowCells
  rw [List.foldlM_map]

theorem gol_worker_eq (p : Package) (inb out : Board) :
    gol_worker p inb out = runCells p.nrows p.ncols inb (workerCells p) out := by
  unfold gol_worker runCells workerCells
  rw [foldlM_flatMap]
  congr 1
  funext out j
  rw [List.foldlM_map]

theorem runCells_append (nrows ncols : Nat) (inb : Board) (c1 c2 : List (Int × Nat)) (out : Board) :
    runCells nrows ncols inb (c1 ++ c2) out =
      (runCells nrows ncols inb c1 out).bind (runCells nrows ncols inb c2) := by
  unfold runCells
  rw [List.foldlM_append]; rfl

theorem edgePass_eq (packages : List Package) (ncols nrows : Nat) (inb out : Board) :
    edgePass packages ncols nrows inb out =
      runCells nrows ncols inb (edgeCells packages ncols) out := by
  unfold edgePass edgeCells
  show _ = List.foldlM _ _ _
  rw [foldlM_flatMap]
  congr 1
  funext out p
  rw [gol_worker_for_row_eq]
  have := runCells_append nrows ncols inb (rowCells (p.start_row - 1) ncols)
    (rowCells p.end_row ncols) out
  unfold runCells at this ⊢
  rw [this]
  congr 1
  funext out'
  rw [gol_worker_for_row_eq]; rfl

theorem interiorPass_eq (packages : List Package) (nrows ncols : Nat) (inb out : Board)
    (hp : ∀ p ∈ packages, p.nrows = nrows ∧ p.ncols = ncols) :
    interiorPass packages inb out = runCells nrows ncols inb (interiorCells packages) out := by
  unfold interiorPass interiorCells
  show _ = List.foldlM _ _ _
  rw [foldlM_flatMap]
  induction packages generalizing out with
  | nil => rfl
  | cons p ps ih =>
    rw [List.foldlM_cons, List.foldlM_cons, gol_worker_eq, (hp p (by simp)).1, (hp p (by simp)).2]
    show _ = (runCells nrows ncols inb (workerCells p) out).bind _
    cases runCells nrows ncols inb (workerCells p) out with
    | none => rfl
    | some b => exact ih b (fun q hq => hp q (by simp [hq]))

theorem setupPackages_dims (nrows ncols : Nat) (c : Int) (k : Nat) (s e : Int) :
    ∀ p ∈ setupPackages nrows ncols c k s e, p.nrows = nrows ∧ p.ncols = ncols := by
  induction k generalizing s e with
  | zero => intro p hp; simp [setupPackages] at hp
  | succ k ih =>
    intro p hp
    simp only [setupPackages, List.mem_cons] at hp
    rcases hp with rfl | hp
    · exact ⟨rfl, rfl⟩
    · exact ih _ _ p hp

theorem generation_eq (t nrows ncols : Nat) (out inb : Board) :
    generation (packagesOf t nrows ncols) nrows ncols out inb =
      (memcpy out inb (nrows * ncols)).bind
        (runCells nrows ncols inb (genCells (packagesOf t nrows ncols) ncols)) := by
  unfold generation genCells
  congr 1
  funext out0
  rw [runCells_append, edgePass_eq]
  congr 1
  funext out1
  exact interiorPass_eq _ nrows ncols inb out1 (setupPackages_dims _ _ _ _ _ _)

/-! ### A duplicate-free sequence of cell updates -/

theorem runCells_inv (nrows ncols : Nat) (inb : Board) (hr : 3 ≤ nrows) (hc : 3 ≤ ncols)
    (hin : nrows * ncols ≤ inb.length) (cells : List (Int × Nat)) (out : Board)
    (hrange : ∀ c ∈ cells, 0 ≤ c.1 ∧ c.1 < nrows ∧ c.2 < ncols) (hnd : cells.Nodup)
    (hout : nrows * ncols ≤ out.length) (hinv : CountInv nrows ncols out)
    (hfresh : ∀ a < nrows, ∀ b < ncols, ((a : Int), b) ∈ cells →
      aliveAt out nrows a b = aliveAt inb nrows a b) :
    ∃ out', runCells nrows ncols inb cells out = some out' ∧ out'.length = out.length ∧
      CountInv nrows ncols out' ∧
      (∀ a < nrows, ∀ b < ncols, aliveAt out' nrows a b =
        if ((a : Int), b) ∈ cells then nextAlive (cellAt inb nrows a b)
        else aliveAt out nrows a b) ∧
      (HighClear nrows ncols out → HighClear nrows ncols out') := by
  induction cells generalizing out with
  | nil => exact ⟨out, rfl, rfl, hinv, fun a _ b _ => by simp, fun h => h⟩
  | cons c cells ih =>
    obtain ⟨h0, h1, h2⟩ := hrange c (by simp)
    obtain ⟨i, hi⟩ : ∃ i : Nat, c.1 = (i : Int) := ⟨c.1.toNat, by omega⟩
    have hi' : i < nrows := by omega
    have hc' : c = ((i : Int), c.2) := by rw [← hi]
    rw [List.nodup_cons] at hnd
    have hstep := cellStep_eq nrows ncols inb out i c.2 (by omega) (by omega) hi' h2 hin hout
    have hpure := cellPure_inv nrows ncols inb out i c.2 hr hc hi' h2 hout hinv
      (hfresh i hi' c.2 h2 (by rw [← hc']; simp))
    have hlen := cellPure_length nrows ncols inb out i c.2
    obtain ⟨out', hrun, hlen', hinv', halive', hhigh'⟩ :=
      ih (cellPure nrows ncols inb i c.2 out)
        (fun x hx => hrange x (by simp [hx])) hnd.2 (by omega) hpure.1
        (fun a ha b hb hm => by
          rw [hpure.2.1 a ha b hb]
          have hne : ¬ ((a, b) = (i, c.2)) := by
            intro e
            simp only [Prod.mk.injEq] at e
            apply hnd.1
            rw [hc', ← e.1, ← e.2]; exact hm
          rw [if_neg hne]
          exact hfresh a ha b hb (by simp [hm]))
    refine ⟨out', ?_, by omega, hinv', ?_, fun h => hhigh' (hpure.2.2 h)⟩
    · unfold runCells at hrun ⊢
      rw [List.foldlM_cons, hi, hstep]
      exact hrun
    · intro a ha b hb
      rw [halive' a ha b hb, hpure.2.1 a ha b hb]
      by_cases hm : ((a : Int), b) ∈ cells
      · simp [hm]
      · by_cases e : (a, b) = (i, c.2)
        · simp only [Prod.mk.injEq] at e
          obtain ⟨rfl, rfl⟩ := e
          rw [if_neg hm, if_pos rfl, if_pos (by rw [← hc']; simp)]
        · have : ¬ (((a : Int), b) = c) := by
            intro e'
            rw [hc'] at e'
            simp only [Prod.mk.injEq] at e'
            exact e (by simp only [Prod.mk.injEq]; exact ⟨by omega, e'.2⟩)
          simp [hm, this, e]

theorem CountInv_congr (nrows ncols : Nat) (b1 b2 : Board)
    (h : ∀ a < nrows, ∀ b < ncols, cellAt b1 nrows a b = cellAt b2 nrows a b)
    (hinv : CountInv nrows ncols b1) : CountInv nrows ncols b2 := by
  intro i hi j hj
  have := hinv i hi j hj
  unfold countAt liveCount at this ⊢
  rw [← h i hi j hj, this]
  apply List.countP_congr
  intro q hq
  have hq' := torus_range _ _ _ _ hi hj q hq
  unfold aliveAt
  rw [h q.1 hq'.1 q.2 hq'.2]

theorem memcpy_spec (nrows ncols : Nat) (out inb : Board)
    (hin : nrows * ncols ≤ inb.length) (hout : nrows * ncols ≤ out.length) :
    ∃ out0, memcpy out inb (nrows * ncols) = some out0 ∧ out0.length = out.length ∧
      (∀ k < nrows * ncols, out0.getD k 0 = inb.getD k 0) := by
  refine ⟨_, by unfold memcpy; rw [if_pos ⟨hout, hin⟩], ?_, ?_⟩
  · simp; omega
  · intro k hk
    rw [List.getD_append _ _ _ _ (by simp; omega)]
    simp only [List.getD_eq_getElem?_getD]
    rw [List.getElem?_take_of_lt hk]

theorem cellAt_of_getD (nrows ncols : Nat) (b1 b2 : Board)
    (h : ∀ k < nrows * ncols, b1.getD k 0 = b2.getD k 0) :
    ∀ a < nrows, ∀ b < ncols, cellAt b1 nrows a b = cellAt b2 nrows a b :=
  fun a ha b hb => h _ (flat_lt nrows ncols (a, b) ha hb)

/-! ### Which cells a generation visits -/

theorem mem_rowCells (i : Int) (ncols : Nat) (a : Int) (b : Nat) :
    (a, b) ∈ rowCells i ncols ↔ a = i ∧ b < ncols := by
  unfold rowCells
  simp only [List.mem_map, List.mem_range, Prod.mk.injEq]
  constructor
  · rintro ⟨j, hj, rfl, rfl⟩; exact ⟨rfl, hj⟩
  · rintro ⟨rfl, hb⟩; exact ⟨b, hb, rfl, rfl⟩

theorem nodup_rowCells (i : Int) (ncols : Nat) : (rowCells i ncols).Nodup := by
  unfold rowCells
  apply List.Nodup.map _ (List.nodup_range ncols)
  intro x y h
  simp only [Prod.mk.injEq] at h
  exact h.2

theorem mem_rowRange (s e r : Int) : r ∈ rowRange s e ↔ s ≤ r ∧ r < e := by
  unfold rowRange
  simp only [List.mem_map, List.mem_range]
  constructor
  · rintro ⟨d, hd, rfl⟩; omega
  · rintro ⟨h1, h2⟩; exact ⟨(r - s).toNat, by omega, by omega⟩

theorem nodup_rowRange (s e : Int) : (rowRange s e).Nodup := by
  unfold rowRange
  apply List.Nodup.map _ (List.nodup_range _)
  intro x y h
  simp only at h
  omega

theorem mem_workerCells (p : Package) (a : Int) (b : Nat) :
    (a, b) ∈ workerCells p ↔ b < p.ncols ∧ p.start_row ≤ a ∧ a < p.end_row := by
  unfold workerCells
  simp only [List.mem_flatMap, List.mem_map, List.mem_range, Prod.mk.injEq, mem_rowRange]
  constructor
  · rintro ⟨j, hj, i, hi, rfl, rfl⟩; exact ⟨hj, hi⟩
  · rintro ⟨hb, hi⟩; exact ⟨b, hb, a, hi, rfl, rfl⟩

theorem nodup_workerCells (p : Package) : (workerCells p).Nodup := by
  unfold workerCells
  rw [List.nodup_flatMap]
  refine ⟨fun j _ => ?_, ?_⟩
  · apply List.Nodup.map _ (nodup_rowRange _ _)
    intro x y h
    simp only [Prod.mk.injEq] at h
    exact h.1
  · apply List.Pairwise.imp _ (List.nodup_range p.ncols)
    intro j j' hne
    show List.Disjoint _ _
    intro x hx hx'
    simp only [List.mem_map] at hx hx'
    obtain ⟨_, _, rfl⟩ := hx
    obtain ⟨_, _, h⟩ := hx'
    simp only [Prod.mk.injEq] at h
    exact hne h.2.symm

theorem mem_packageCells (nrows ncols : Nat) (s c : Int) (hc : 1 ≤ c) (a : Int) (b : Nat) :
    (a, b) ∈ packageCells ncols
        { nrows := nrows, ncols := ncols, start_row := s + 1, end_row := s + c - 1 } ↔
      b < ncols ∧ s ≤ a ∧ a < s + c := by
  unfold packageCells
  simp only [List.mem_append, mem_rowCells, mem_workerCells]
  constructor
  · rintro ((⟨h, hb⟩ | ⟨h, hb⟩) | ⟨hb, h⟩) <;> refine ⟨hb, ?_⟩ <;> omega
  · rintro ⟨hb, h1, h2⟩
    by_cases e1 : a = s
    · exact Or.inl (Or.inl ⟨by omega, hb⟩)
    · by_cases e2 : a = s + c - 1
      · exact Or.inl (Or.inr ⟨by omega, hb⟩)
      · exact Or.inr ⟨hb, by omega, by omega⟩

theorem nodup_packageCells (nrows ncols : Nat) (s c : Int) (hc : 2 ≤ c) :
    (packageCells ncols
        { nrows := nrows, ncols := ncols, start_row := s + 1, end_row := s + c - 1 }).Nodup := by
  unfold packageCells
  rw [List.nodup_append, List.nodup_append]
  refine ⟨⟨nodup_rowCells _ _, nodup_rowCells _ _, ?_⟩, nodup_workerCells _, ?_⟩
  · intro x hx hx'
    obtain ⟨a, b⟩ := x
    rw [mem_rowCells] at hx hx'
    simp only at hx hx'
    omega
  · intro x hx hx'
    obtain ⟨a, b⟩ := x
    rw [List.mem_append, mem_rowCells, mem_rowCells] at hx
    rw [mem_workerCells] at hx'
    simp only at hx hx'
    omega

theorem mem_setupCells (nrows ncols : Nat) (c : Int) (hc : 1 ≤ c) (k : Nat) (s : Int)
    (a : Int) (b : Nat) :
    (a, b) ∈ (setupPackages nrows ncols c k s (s + c)).flatMap (packageCells ncols) ↔
      b < ncols ∧ s ≤ a ∧ a < s + (k : Int) * c := by
  induction k generalizing s with
  | zero => simp [setupPackages]
  | succ k ih =>
    rw [setupPackages, List.flatMap_cons, List.mem_append, ih (s + c)]
    have e : s + 1 + c - 1 - 1 = s + c - 1 := by omega
    have := mem_packageCells nrows ncols s c hc a b
    simp only [Int.add_sub_cancel] at this ⊢
    rw [this]
    have hk : ((k + 1 : Nat) : Int) * c = (k : Int) * c + c := by push_cast; ring
    rw [hk]
    have hkc : 0 ≤ (k : Int) * c := Int.mul_nonneg (by omega) (by omega)
    constructor
    · rintro (⟨hb, h⟩ | ⟨hb, h⟩) <;> refine ⟨hb, ?_⟩ <;> omega
    · rintro ⟨hb, h1, h2⟩
      by_cases e1 : a < s + c
      · exact Or.inl ⟨hb, h1, e1⟩
      · exact Or.inr ⟨hb, by omega, by omega⟩

theorem nodup_setupCells (nrows ncols : Nat) (c : Int) (hc : 2 ≤ c) (k : Nat) (s : Int) :
    ((setupPackages nrows ncols c k s (s + c)).flatMap (packageCells ncols)).Nodup := by
  induction k generalizing s with
  | zero => simp [setupPackages]
  | succ k ih =>
    rw [setupPackages, List.flatMap_cons, List.nodup_append]
    have := nodup_packageCells nrows ncols s c hc
    simp only [Int.add_sub_cancel] at this ⊢
    refine ⟨this, ih (s + c), ?_⟩
    intro x hx hx'
    obtain ⟨a, b⟩ := x
    have h1 := (mem_packageCells nrows ncols s c (by omega) a b)
    simp only [Int.add_sub_cancel] at h1
    rw [h1] at hx
    rw [mem_setupCells nrows ncols c (by omega) k (s + c) a b] at hx'
    omega

theorem genCells_perm (packages : List Package) (ncols : Nat) :
    List.Perm (genCells packages ncols) (packages.flatMap (packageCells ncols)) := by
  unfold genCells edgeCells interiorCells
  exact List.flatMap_append_perm packages _ _

theorem chunk_cast (t nrows : Nat) : Int.tdiv (nrows : Int) (t : Int) = ((nrows / t : Nat) : Int) :=
  (Int.ofNat_tdiv nrows t).symm

theorem packagesOf_eq (t nrows ncols : Nat) :
    packagesOf t nrows ncols =
      setupPackages nrows ncols ((nrows / t : Nat) : Int) t 0 (0 + ((nrows / t : Nat) : Int)) := by
  unfold packagesOf
  simp only [chunk_cast, Int.zero_add]

theorem mem_genCells (t nrows ncols : Nat) (hchunk : 1 ≤ nrows / t) (a : Int) (b : Nat) :
    (a, b) ∈ genCells (packagesOf t nrows ncols) ncols ↔
      b < ncols ∧ 0 ≤ a ∧ a < ((t * (nrows / t) : Nat) : Int) := by
  rw [(genCells_perm _ _).mem_iff, packagesOf_eq,
    mem_setupCells nrows ncols _ (by omega) t 0 a b]
  push_cast
  simp only [Int.zero_add]

theorem nodup_genCells (t nrows ncols : Nat) (hchunk : 2 ≤ nrows / t) :
    (genCells (packagesOf t nrows ncols) ncols).Nodup := by
  rw [(genCells_perm _ _).nodup_iff, packagesOf_eq]
  exact nodup_setupCells nrows ncols _ (by omega) t 0

/-! ### One generation -/

theorem generation_inv (t nrows ncols : Nat) (out inb : Board) (hr : 3 ≤ nrows) (hc : 3 ≤ ncols)
    (hchunk : 2 ≤ nrows / t) (hin : nrows * ncols ≤ inb.length)
    (hout : nrows * ncols ≤ out.length) (hinv : CountInv nrows ncols inb) :
    ∃ out', generation (packagesOf t nrows ncols) nrows ncols out inb = some out' ∧
      out'.length = out.length ∧ CountInv nrows ncols out' ∧
      (∀ a < nrows, ∀ b < ncols, aliveAt out' nrows a b =
        if a < t * (nrows / t) then nextAlive (cellAt inb nrows a b)
        else aliveAt inb nrows a b) ∧
      (HighClear nrows ncols inb → HighClear nrows ncols out') := by
  obtain ⟨out0, hcpy, hlen0, hget0⟩ := memcpy_spec nrows ncols out inb hin hout
  have hcell0 := cellAt_of_getD nrows ncols out0 inb hget0
  have hle : t * (nrows / t) ≤ nrows := Nat.mul_div_le nrows t
  have hinv0 : CountInv nrows ncols out0 :=
    CountInv_congr nrows ncols inb out0 (fun a ha b hb => (hcell0 a ha b hb).symm) hinv
  obtain ⟨out', hrun, hlen', hinv', halive', hhigh'⟩ :=
    runCells_inv nrows ncols inb hr hc hin (genCells (packagesOf t nrows ncols) ncols) out0
      (fun c hc' => by
        have := (mem_genCells t nrows ncols (by omega) c.1 c.2).1 hc'
        omega)
      (nodup_genCells t nrows ncols hchunk) (by omega) hinv0
      (fun a ha b hb _ => by unfold aliveAt; rw [hcell0 a ha b hb])
  refine ⟨out', ?_, by omega, hinv', ?_, ?_⟩
  · rw [generation_eq, hcpy]; exact hrun
  · intro a ha b hb
    rw [halive' a ha b hb]
    have hm := mem_genCells t nrows ncols (by omega) a b
    have h0 : aliveAt out0 nrows a b = aliveAt inb nrows a b := by
      unfold aliveAt; rw [hcell0 a ha b hb]
    by_cases hlt : a < t * (nrows / t)
    · rw [if_pos (hm.2 ⟨hb, by omega, by omega⟩), if_pos hlt]
    · rw [if_neg (fun h => hlt (by have := hm.1 h; omega)), if_neg hlt, h0]
  · intro hh
    apply hhigh'
    intro a ha b hb
    rw [hcell0 a ha b hb]; exact hh a ha b hb

/-- C2. One iteration of the generation loop of `threaded_gol` (`memcpy`, edge
pass, interior pass) keeps the count invariant: for `nrows, ncols ≥ 3` and a
thread count `t ≥ 1` with `nrows / t ≥ 2` (divisibility not required), if every
count field of `inboard` is the number of alive toroidal neighbours, the
iteration succeeds and every count field of the resulting `outboard` is the
number of alive toroidal neighbours in `outboard`. -/
theorem generation_preserves_count_invariant (t nrows ncols : Nat) (outboard inboard : Board)
    (hr : 3 ≤ nrows) (hc : 3 ≤ ncols) (_ht : 1 ≤ t) (hchunk : 2 ≤ nrows / t)
    (hin : nrows * ncols ≤ inboard.length) (hout : nrows * ncols ≤ outboard.length)
    (hinv : CountInv nrows ncols inboard) :
    ∃ out', generation (packagesOf t nrows ncols) nrows ncols outboard inboard = some out' ∧
      CountInv nrows ncols out' := by
  obtain ⟨out', h1, _, h2, _⟩ :=
    generation_inv t nrows ncols outboard inboard hr hc hchunk hin hout hinv
  exact ⟨out', h1, h2⟩

set_option maxRecDepth 100000 in
theorem generation_preserves_count_invariant_witness :
    CountInv 5 5 blinkerBoard ∧
      ∃ out', generation (packagesOf 2 5 5) 5 5 zeroBoard25 blinkerBoard = some out' ∧
        CountInv 5 5 out' :=
  ⟨by decide!, generation_preserves_count_invariant 2 5 5 zeroBoard25 blinkerBoard (by decide)
    (by decide) (by decide) (by decide) (by decide) (by decide) (by decide!)⟩

/-! ### The generation loop and the output -/

set_option maxRecDepth 100000 in
theorem nextAlive_eq_lifeRule :
    ∀ cell < 32, nextAlive cell = lifeRule (cell / 16 % 2 == 1) (cell % 16) := by decide!

theorem lifeStep_congr (nrows ncols : Nat) (g1 g2 : Nat → Nat → Bool)
    (h : ∀ a < nrows, ∀ b < ncols, g1 a b = g2 a b) :
    ∀ a < nrows, ∀ b < ncols, lifeStep nrows ncols g1 a b = lifeStep nrows ncols g2 a b := by
  intro a ha b hb
  unfold lifeStep liveCount
  rw [h a ha b hb]
  congr 1
  apply List.countP_congr
  intro q hq
  have := torus_range nrows ncols a b ha hb q hq
  rw [h q.1 this.1 q.2 this.2]

theorem life_congr (nrows ncols k : Nat) (g1 g2 : Nat → Nat → Bool)
    (h : ∀ a < nrows, ∀ b < ncols, g1 a b = g2 a b) :
    ∀ a < nrows, ∀ b < ncols, life nrows ncols k g1 a b = life nrows ncols k g2 a b := by
  induction k generalizing g1 g2 with
  | zero => exact h
  | succ k ih => exact ih _ _ (lifeStep_congr nrows ncols g1 g2 h)

theorem genLoop_inv (t nrows ncols : Nat) (hr : 3 ≤ nrows) (hc : 3 ≤ ncols)
    (hchunk : 2 ≤ nrows / t) (hdiv : t * (nrows / t) = nrows) (g : Nat) (out inb : Board)
    (hin : nrows * ncols ≤ inb.length) (hout : nrows * ncols ≤ out.length)
    (hinv : CountInv nrows ncols inb) (hhigh : HighClear nrows ncols inb) :
    ∃ s, genLoop (packagesOf t nrows ncols) nrows ncols g out inb = some s ∧
      nrows * ncols ≤ s.2.length ∧ CountInv nrows ncols s.2 ∧ HighClear nrows ncols s.2 ∧
      ∀ a < nrows, ∀ b < ncols,
        aliveAt s.2 nrows a b = life nrows ncols g (aliveAt inb nrows) a b := by
  induction g generalizing out inb with
  | zero => exact ⟨(out, inb), rfl, hin, hinv, hhigh, fun _ _ _ _ => rfl⟩
  | succ g ih =>
    obtain ⟨out1, hgen, hlen1, hinv1, halive1, hhigh1⟩ :=
      generation_inv t nrows ncols out inb hr hc hchunk hin hout hinv
    obtain ⟨s, hs, hlen, hinv', hhigh', halive'⟩ :=
      ih inb out1 (by omega) hin hinv1 (hhigh1 hhigh)
    refine ⟨s, ?_, hlen, hinv', hhigh', ?_⟩
    · show (generation _ nrows ncols out inb).bind _ = _
      rw [hgen]; exact hs
    · intro a ha b hb
      rw [halive' a ha b hb]
      show _ = life nrows ncols g (lifeStep nrows ncols (aliveAt inb nrows)) a b
      refine life_congr nrows ncols g _ _ ?_ a ha b hb
      intro a' ha' b' hb'
      rw [halive1 a' ha' b' hb', if_pos (by omega),
        nextAlive_eq_lifeRule _ (hhigh a' ha' b' hb')]
      unfold lifeStep
      congr 1
      exact hinv a' ha' b' hb'

theorem flatMap_range_flat (nrows ncols : Nat) :
    (List.range ncols).flatMap (fun j => (List.range nrows).map fun i => i + nrows * j) =
      List.range (nrows * ncols) := by
  induction ncols with
  | zero => simp
  | succ n ih =>
    rw [List.range_succ, List.flatMap_append, ih, Nat.mul_succ, List.range_add]
    simp only [List.flatMap_cons, List.flatMap_nil, List.append_nil]
    congr 1
    apply List.map_congr_left
    intro i _
    omega

theorem formatOutput_eq (nrows ncols : Nat) (b : Board) (hb : nrows * ncols ≤ b.length) :
    formatOutput nrows ncols b = some (applyAll shiftCell (List.range (nrows * ncols)) b) := by
  have h1 : formatOutput nrows ncols b =
      List.foldlM (fun b (p : Int × Int) =>
          (fun b i j => (rd b (i + j)).bind fun v => wr b (i + j) (shiftCell v)) b p.1 p.2) b
        ((List.range ncols).flatMap fun j =>
          (List.range nrows).map fun i => (((i : Nat) : Int), (nrows : Int) * ((j : Nat) : Int))) := by
    unfold formatOutput
    rw [foldlM_flatMap]
    simp only [List.foldlM_map]
  rw [h1]
  refine foldlM_update shiftCell _ (fun _ _ _ => rfl) _ _ ?_ b ?_
  · rw [← flatMap_range_flat]
    simp only [List.map_flatMap, List.map_map]
    congr 1
  · intro k hk
    rw [List.mem_range] at hk
    omega

theorem formatOutput_spec (nrows ncols : Nat) (b : Board) (hb : nrows * ncols ≤ b.length) :
    ∃ res, formatOutput nrows ncols b = some res ∧ res.length = b.length ∧
      ∀ i < nrows, ∀ j < ncols, cellAt res nrows i j = shiftCell (cellAt b nrows i j) := by
  refine ⟨_, formatOutput_eq nrows ncols b hb, applyAll_length _ _ _, ?_⟩
  intro i hi j hj
  have hk := flat_lt nrows ncols (i, j) hi hj
  show (applyAll _ _ _).getD (flat nrows (i, j)) 0 = _
  rw [applyAll_getD _ _ _ _ (by omega),
    count_nodup_mem _ _ (List.nodup_range _) (List.mem_range.2 hk)]
  rfl

set_option maxRecDepth 100000 in
theorem shiftCell_low : ∀ v < 32, shiftCell v = if v / 16 % 2 == 1 then 1 else 0 := by decide!

theorem threaded_gol_cells (t nrows ncols gens_max : Nat) (outboard inboard : Board)
    (hr : 3 ≤ nrows) (hc : 3 ≤ ncols) (ht : 1 ≤ t) (hdiv : t ∣ nrows) (hchunk : 2 ≤ nrows / t)
    (hin : nrows * ncols ≤ inboard.length) (hout : nrows * ncols ≤ outboard.length)
    (hhigh : HighClear nrows ncols inboard) (hinv : CountInv nrows ncols inboard) :
    ∃ res, threaded_gol t outboard inboard nrows ncols gens_max = some res ∧
      ∀ i < nrows, ∀ j < ncols, cellAt res nrows i j =
        if life nrows ncols gens_max (aliveAt inboard nrows) i j then 1 else 0 := by
  obtain ⟨s, hs, hlen, _, hhigh', halive⟩ :=
    genLoop_inv t nrows ncols hr hc hchunk (Nat.mul_div_cancel' hdiv) gens_max outboard inboard
      hin hout hinv hhigh
  obtain ⟨res, hres, _, hcells⟩ := formatOutput_spec nrows ncols s.2 hlen
  refine ⟨res, ?_, ?_⟩
  · unfold threaded_gol
    rw [if_neg (by omega), hs]
    exact hres
  · intro i hi j hj
    rw [hcells i hi j hj, shiftCell_low _ (hhigh' i hi j hj), ← halive i hi j hj]
    rfl

/-- For thread counts that divide `nrows` into chunks of at least two rows the
cells of the returned board do not depend on the thread count. -/
theorem threaded_gol_thread_independent (t nrows ncols gens_max : Nat)
    (outboard inboard : Board) (hr : 3 ≤ nrows) (hc : 3 ≤ ncols) (ht : 1 ≤ t)
    (hdiv : t ∣ nrows) (hchunk : 2 ≤ nrows / t)
    (hin : nrows * ncols ≤ inboard.length) (hout : nrows * ncols ≤ outboard.length)
    (hhigh : HighClear nrows ncols inboard) (hinv : CountInv nrows ncols inboard) :
    ∃ res res1, threaded_gol t outboard inboard nrows ncols gens_max = some res ∧
      threaded_gol 1 outboard inboard nrows ncols gens_max = some res1 ∧
      ∀ i < nrows, ∀ j < ncols, cellAt res nrows i j = cellAt res1 nrows i j := by
  obtain ⟨res, h, hcells⟩ := threaded_gol_cells t nrows ncols gens_max outboard inboard hr hc ht
    hdiv hchunk hin hout hhigh hinv
  obtain ⟨res1, h1, hcells1⟩ := threaded_gol_cells 1 nrows ncols gens_max outboard inboard hr hc
    (by omega) (one_dvd nrows) (by rw [Nat.div_one]; omega) hin hout hhigh hinv
  exact ⟨res, res1, h, h1, fun i hi j hj => by rw [hcells i hi j hj, hcells1 i hi j hj]⟩

/-- C1. End-to-end correctness of `threaded_gol`: for `nrows, ncols ≥ 3`, a
thread count `t ≥ 1` that divides `nrows` with `nrows / t ≥ 2`, any `gens_max`
and any initial board with bits 5-7 clear whose count fields are the numbers of
alive toroidal neighbours, `threaded_gol` returns a board, and the cell `(i, j)`
of that board is `1` if `(i, j)` is alive after `gens_max` steps of Conway's
Life on the torus started from the initial alive flags, and `0` otherwise. -/
theorem threaded_gol_correct (t nrows ncols gens_max : Nat) (outboard inboard : Board)
    (hr : 3 ≤ nrows) (hc : 3 ≤ ncols) (ht : 1 ≤ t) (hdiv : t ∣ nrows) (hchunk : 2 ≤ nrows / t)
    (hin : nrows * ncols ≤ inboard.length) (hout : nrows * ncols ≤ outboard.length)
    (hhigh : HighClear nrows ncols inboard) (hinv : CountInv nrows ncols inboard) :
    ∃ res, threaded_gol t outboard inboard nrows ncols gens_max = some res ∧
      ∀ i < nrows, ∀ j < ncols, cellAt res nrows i j =
        if life nrows ncols gens_max (aliveAt inboard nrows) i j then 1 else 0 := by
  have hloop := genLoop_inv t nrows ncols hr hc hchunk (Nat.mul_div_cancel' hdiv) gens_max
    outboard inboard hin hout hinv hhigh
  obtain ⟨s, hs, hlen, _, hhigh', halive⟩ := hloop
  obtain ⟨res, hres, _, hcells⟩ := formatOutput_spec nrows ncols s.2 hlen
  refine ⟨res, ?_, ?_⟩
  · unfold threaded_gol
    rw [if_neg (by omega), hs]
    exact hres
  · intro i hi j hj
    rw [hcells i hi j hj, shiftCell_low _ (hhigh' i hi j hj), ← halive i hi j hj]
    rfl

set_option maxRecDepth 100000 in
theorem threaded_gol_correct_witness :
    (HighClear 5 5 blinkerBoard ∧ CountInv 5 5 blinkerBoard) ∧
    threaded_gol 1 zeroBoard25 blinkerBoard 5 5 1 =
      some [0, 0, 0, 0, 0,  1, 1, 1, 0, 0,  0, 0, 0, 0, 0,  0, 0, 0, 0, 0,  0, 0, 0, 0, 0] ∧
    threaded_gol 1 zeroBoard25 blinkerBoard 5 5 2 =
      some [0, 1, 0, 0, 0,  0, 1, 0, 0, 0,  0, 1, 0, 0, 0,  0, 0, 0, 0, 0,  0, 0, 0, 0, 0] ∧
    ∃ res, threaded_gol 1 zeroBoard25 blinkerBoard 5 5 2 = some res ∧
      ∀ i < 5, ∀ j < 5, cellAt res 5 i j =
        if life 5 5 2 (aliveAt blinkerBoard 5) i j then 1 else 0 :=
  ⟨⟨by decide!, by decide!⟩, by decide!, by decide!,
    threaded_gol_correct 1 5 5 2 zeroBoard25 blinkerBoard (by decide) (by decide) (by decide)
      (by decide) (by decide) (by decide) (by decide) (by decide!) (by decide!)⟩

/-! ### The decision on the packed byte -/

theorem IS_ALIVE_SET_ALIVE (v : Nat) : IS_ALIVE (SET_ALIVE v) ≠ 0 := by
  rw [IS_ALIVE_eq, SET_ALIVE_eq]; omega

theorem IS_ALIVE_SET_DEAD (v : Nat) : IS_ALIVE (SET_DEAD v) = 0 := by
  rw [IS_ALIVE_eq, SET_DEAD_eq]; omega

/-- C3. Rule fidelity of the packed-byte decision of `gol_worker_for_row` and
`gol_worker` (the shared loop body `cellStep`), for each of the 18 bytes with
alive flag `alive ≤ 1`, count `count ≤ 8` and bits 5-7 clear read from
`inboard`: a dead cell with count 3 gets `SET_ALIVE` applied to its byte in
`outboard` (alive bit set); an alive cell with count 2 or 3 and a dead cell with
a count other than 3 leave `outboard` untouched; an alive cell with count at
most 1 or at least 4 gets `SET_DEAD` applied (alive bit cleared). -/
theorem rule_fidelity (nrows ncols i j : Nat) (inboard outboard : Board) (alive count : Nat)
    (hr : 3 ≤ nrows) (hc : 3 ≤ ncols) (hi : i < nrows) (hj : j < ncols)
    (hin : nrows * ncols ≤ inboard.length) (hout : nrows * ncols ≤ outboard.length)
    (ha : alive ≤ 1) (hn : count ≤ 8) (hcell : cellAt inboard nrows i j = 16 * alive + count) :
    ∃ out', cellStep nrows ncols inboard (i : Int) j outboard = some out' ∧
      (alive = 0 ∧ count = 3 →
        cellAt out' nrows i j = SET_ALIVE (cellAt outboard nrows i j) ∧
          IS_ALIVE (cellAt out' nrows i j) ≠ 0) ∧
      (alive = 1 ∧ (count = 2 ∨ count = 3) → out' = outboard) ∧
      (alive = 1 ∧ (count ≤ 1 ∨ 4 ≤ count) →
        cellAt out' nrows i j = SET_DEAD (cellAt outboard nrows i j) ∧
          IS_ALIVE (cellAt out' nrows i j) = 0) ∧
      (alive = 0 ∧ count ≠ 3 → out' = outboard) := by
  refine ⟨_, cellStep_eq nrows ncols inboard outboard i j (by omega) (by omega) hi hj hin hout, ?_⟩
  have hcellin : inboard.getD (flat nrows (i, j)) 0 = 16 * alive + count := hcell
  have hcellout : outboard.getD (flat nrows (i, j)) 0 = cellAt outboard nrows i j := rfl
  have hIS := IS_ALIVE_eq (16 * alive + count)
  have hchar : toChar (16 * alive + count) = ((16 * alive + count : Nat) : Int) := by
    unfold toChar; rw [if_pos (by omega)]
  unfold cellPure
  simp only [hcellin, hcellout, hchar]
  refine ⟨?_, ?_, ?_, ?_⟩
  · rintro ⟨rfl, rfl⟩
    rw [if_pos (by omega), if_pos (by omega),
      applyAll_cellAt nrows ncols (fun v => (v + 1) % 256) (SET_ALIVE (cellAt outboard nrows i j))
        outboard i j i j hr hc hi hj hi hj hout, if_pos rfl]
    exact ⟨rfl, IS_ALIVE_SET_ALIVE _⟩
  · rintro ⟨rfl, h⟩
    rw [if_neg (by omega), if_neg (by omega)]
  · rintro ⟨rfl, h⟩
    rw [if_neg (by omega), if_pos (by omega),
      applyAll_cellAt nrows ncols (fun v => (v + 255) % 256) (SET_DEAD (cellAt outboard nrows i j))
        outboard i j i j hr hc hi hj hi hj hout, if_pos rfl]
    exact ⟨rfl, IS_ALIVE_SET_DEAD _⟩
  · rintro ⟨rfl, h⟩
    rw [if_pos (by omega), if_neg (by omega)]

set_option maxRecDepth 100000 in
theorem rule_fidelity_witness :
    cellAt blinkerBoard 5 0 1 = 16 * 0 + 3 ∧
      ∃ out', cellStep 5 5 blinkerBoard ((0 : Nat) : Int) 1 blinkerBoard = some out' ∧
        (0 = 0 ∧ 3 = 3 →
          cellAt out' 5 0 1 = SET_ALIVE (cellAt blinkerBoard 5 0 1) ∧
            IS_ALIVE (cellAt out' 5 0 1) ≠ 0) ∧
        (0 = 1 ∧ (3 = 2 ∨ 3 = 3) → out' = blinkerBoard) ∧
        (0 = 1 ∧ (3 ≤ 1 ∨ 4 ≤ 3) →
          cellAt out' 5 0 1 = SET_DEAD (cellAt blinkerBoard 5 0 1) ∧
            IS_ALIVE (cellAt out' 5 0 1) = 0) ∧
        (0 = 0 ∧ 3 ≠ 3 → out' = blinkerBoard) :=
  ⟨by decide, rule_fidelity 5 5 0 1 blinkerBoard blinkerBoard 0 3 (by decide) (by decide)
    (by decide) (by decide) (by decide) (by decide) (by decide) (by decide) (by decide)⟩

/-! ### The rows a generation updates -/

theorem edgePass_rows (packages : List Package) (ncols nrows : Nat) (inb out : Board) :
    edgePass packages ncols nrows inb out =
      (edgeRows packages).foldlM (fun out r => gol_worker_for_row r ncols nrows inb out) out := by
  unfold edgePass edgeRows
  rw [foldlM_flatMap]
  congr 1
  funext out p
  rw [List.foldlM_cons]
  cases gol_worker_for_row (p.start_row - 1) ncols nrows inb out with
  | none => rfl
  | some b =>
    show gol_worker_for_row p.end_row ncols nrows inb b =
      List.foldlM (fun out r => gol_worker_for_row r ncols nrows inb out) b [p.end_row]
    rw [List.foldlM_cons]
    cases gol_worker_for_row p.end_row ncols nrows inb b <;> rfl

/-- C4 (failing input). With `nrows = 5` and two threads the chunk size is
`5 / 2 = 2`: the edge pass updates rows `0, 1, 2, 3`, the interior ranges are
empty, and row `4`, the remainder, is in no chunk and is never updated; on the
(well-formed) board with the blinker in row 4 the generation therefore leaves
`(4,0)` and `(4,2)` alive. -/
theorem remainder_rows_not_updated :
    (CountInv 5 5 lastRowBlinker ∧ HighClear 5 5 lastRowBlinker) ∧
      edgeRows (packagesOf 2 5 5) = [0, 1, 2, 3] ∧ interiorRows (packagesOf 2 5 5) = [] ∧
      (4 : Int) ∉ updatedRows (packagesOf 2 5 5) ∧
      threaded_gol 2 zeroBoard25 lastRowBlinker 5 5 1 =
        some [0, 0, 0, 0, 1,  1, 0, 0, 1, 1,  0, 0, 0, 0, 1,  0, 0, 0, 0, 0,  0, 0, 0, 0, 0] := by
  decide!

/-- C5 (failing input). On the 5 x 5 board with the blinker in row 4 and one
generation, the board returned with two threads differs from the board returned
with one thread. -/
theorem thread_count_changes_result :
    (CountInv 5 5 lastRowBlinker ∧ HighClear 5 5 lastRowBlinker) ∧
      threaded_gol 1 zeroBoard25 lastRowBlinker 5 5 1 =
        some [0, 0, 0, 0, 0,  1, 0, 0, 1, 1,  0, 0, 0, 0, 0,  0, 0, 0, 0, 0,  0, 0, 0, 0, 0] ∧
      threaded_gol 2 zeroBoard25 lastRowBlinker 5 5 1 ≠
        threaded_gol 1 zeroBoard25 lastRowBlinker 5 5 1 := by
  decide!

/-- C6 (failing input). With `nrows = 3` and three threads every chunk is a
single row, and the edge pass hands each row to `gol_worker_for_row` twice; on
the board with the single alive cell `(1,1)` the death decrements each of the
eight counts twice, from `1` to `0xFF`, where one thread leaves them at `0`. -/
theorem single_row_chunk_updated_twice :
    (CountInv 3 3 loneCellBoard ∧ HighClear 3 3 loneCellBoard) ∧
      edgeRows (packagesOf 3 3 3) = [0, 0, 1, 1, 2, 2] ∧
      generation (packagesOf 3 3 3) 3 3 (List.replicate 9 0) loneCellBoard =
        some [255, 255, 255, 255, 0, 255, 255, 255, 255] ∧
      generation (packagesOf 1 3 3) 3 3 (List.replicate 9 0) loneCellBoard =
        some [0, 0, 0, 0, 0, 0, 0, 0, 0] := by
  decide!

/-! ### Still lifes -/

theorem cellStep_unchanged (nrows ncols : Nat) (inb out : Board) (i j : Nat)
    (hi : i < nrows) (hj : j < ncols) (hin : nrows * ncols ≤ inb.length)
    (hlow : cellAt inb nrows i j < 32)
    (hstill : (aliveAt inb nrows i j = false → countAt inb nrows i j ≠ 3) ∧
      (aliveAt inb nrows i j = true → countAt inb nrows i j = 2 ∨ countAt inb nrows i j = 3)) :
    cellStep nrows ncols inb (i : Int) j out = some out := by
  have hk : flat nrows (i, j) < nrows * ncols := flat_lt _ _ _ hi hj
  have hcast : (i : Int) + (nrows : Int) * (j : Int) = ((flat nrows (i, j) : Nat) : Int) := by
    simp [flat]
  have hcellin : inb.getD (flat nrows (i, j)) 0 = cellAt inb nrows i j := rfl
  have hIS := IS_ALIVE_eq (cellAt inb nrows i j)
  have hchar : toChar (cellAt inb nrows i j) = ((cellAt inb nrows i j : Nat) : Int) := by
    unfold toChar; rw [if_pos (by omega)]
  have h1 := aliveAt_false_iff inb nrows i j
  have h2 := aliveAt_iff inb nrows i j
  unfold countAt at hstill
  unfold cellStep
  simp only [hcast]
  rw [rd_nat inb _ (by omega), Option.some_bind, hcellin]
  by_cases hd : cellAt inb nrows i j / 16 % 2 = 0
  · have := hstill.1 (h1.2 hd)
    rw [if_pos (by omega), if_neg (by omega)]
  · have := hstill.2 (h2.2 (by omega))
    rw [if_neg (by omega), if_neg (by rw [hchar]; omega)]

theorem runCells_unchanged (nrows ncols : Nat) (inb out : Board)
    (hin : nrows * ncols ≤ inb.length) (hhigh : HighClear nrows ncols inb)
    (hstill : StillLife nrows ncols inb) (cells : List (Int × Nat))
    (hrange : ∀ c ∈ cells, 0 ≤ c.1 ∧ c.1 < nrows ∧ c.2 < ncols) :
    runCells nrows ncols inb cells out = some out := by
  induction cells with
  | nil => rfl
  | cons c cells ih =>
    obtain ⟨h0, h1, h2⟩ := hrange c (by simp)
    obtain ⟨i, hi⟩ : ∃ i : Nat, c.1 = (i : Int) := ⟨c.1.toNat, by omega⟩
    have hi' : i < nrows := by omega
    unfold runCells at ih ⊢
    rw [List.foldlM_cons, hi,
      cellStep_unchanged nrows ncols inb out i c.2 hi' h2 hin (hhigh i hi' c.2 h2)
        (hstill i hi' c.2 h2)]
    exact ih (fun x hx => hrange x (by simp [hx]))

theorem generation_unchanged (t nrows ncols : Nat) (out inb : Board) (ht : 1 ≤ t)
    (htn : t ≤ nrows) (hin : nrows * ncols ≤ inb.length) (hhigh : HighClear nrows ncols inb)
    (hstill : StillLife nrows ncols inb) :
    generation (packagesOf t nrows ncols) nrows ncols out inb =
      memcpy out inb (nrows * ncols) := by
  rw [generation_eq]
  have hchunk : 1 ≤ nrows / t := (Nat.one_le_div_iff (by omega)).2 htn
  have hle : t * (nrows / t) ≤ nrows := Nat.mul_div_le nrows t
  cases memcpy out inb (nrows * ncols) with
  | none => rfl
  | some out0 =>
    exact runCells_unchanged nrows ncols inb out0 hin hhigh hstill _ (fun c hc' => by
      have := (mem_genCells t nrows ncols hchunk c.1 c.2).1 hc'
      omega)

theorem genLoop_unchanged (t nrows ncols : Nat) (ht : 1 ≤ t) (htn : t ≤ nrows) (g : Nat)
    (out inb : Board) (hin : nrows * ncols ≤ inb.length) (hout : nrows * ncols ≤ out.length)
    (hhigh : HighClear nrows ncols inb) (hstill : StillLife nrows ncols inb) :
    ∃ s, genLoop (packagesOf t nrows ncols) nrows ncols g out inb = some s ∧
      nrows * ncols ≤ s.2.length ∧
      ∀ i < nrows, ∀ j < ncols, cellAt s.2 nrows i j = cellAt inb nrows i j := by
  induction g generalizing out inb with
  | zero => exact ⟨(out, inb), rfl, hin, fun _ _ _ _ => rfl⟩
  | succ g ih =>
    obtain ⟨out0, hcpy, hlen0, hget0⟩ := memcpy_spec nrows ncols out inb hin hout
    have hcell0 := cellAt_of_getD nrows ncols out0 inb hget0
    have hhigh0 : HighClear nrows ncols out0 := by
      intro i hi j hj; rw [hcell0 i hi j hj]; exact hhigh i hi j hj
    have hstill0 : StillLife nrows ncols out0 := by
      intro i hi j hj
      have := hstill i hi j hj
      unfold aliveAt countAt at this ⊢
      rw [hcell0 i hi j hj]; exact this
    obtain ⟨s, hs, hlen, hcells⟩ := ih inb out0 (by omega) hin hhigh0 hstill0
    refine ⟨s, ?_, hlen, fun i hi j hj => by rw [hcells i hi j hj, hcell0 i hi j hj]⟩
    show (generation _ nrows ncols out inb).bind _ = _
    rw [generation_unchanged t nrows ncols out inb ht htn hin hhigh hstill, hcpy]
    exact hs

/-- C7 (counterexample). The 4 x 4 block whose cell `(0,0)` carries the reserved
bit 5 satisfies the count invariant and the still-life condition, yet one
generation with one thread kills `(0,0)` (its byte `0x33` is `≥ 0x14`), changes
the board, and the returned board is not the alive flags. -/
theorem still_life_needs_clear_reserved_bits :
    CountInv 4 4 reservedBitBlock ∧ StillLife 4 4 reservedBitBlock ∧
      generation (packagesOf 1 4 4) 4 4 (List.replicate 16 0) reservedBitBlock =
        some [35, 18, 2, 1,  18, 18, 2, 1,  2, 2, 1, 1,  1, 1, 1, 0] ∧
      threaded_gol 1 (List.replicate 16 0) reservedBitBlock 4 4 1 =
        some [2, 1, 0, 0,  1, 1, 0, 0,  0, 0, 0, 0,  0, 0, 0, 0] := by
  decide!

/-- C7 (amended). Still-life stability for boards with bits 5-7 clear: for
`nrows, ncols ≥ 3`, a thread count `1 ≤ t ≤ nrows`, any `gens_max` and any board
with bits 5-7 clear that satisfies the count invariant, in which no dead cell
has count 3 and every alive cell has count 2 or 3: one generation writes
nothing after the `memcpy`, after `gens_max` generations every cell of the board
equals the initial byte, and `threaded_gol` returns the initial alive flags. -/
theorem still_life_stable (t nrows ncols gens_max : Nat) (outboard inboard : Board)
    (_hr : 3 ≤ nrows) (_hc : 3 ≤ ncols) (ht : 1 ≤ t) (htn : t ≤ nrows)
    (hin : nrows * ncols ≤ inboard.length) (hout : nrows * ncols ≤ outboard.length)
    (hhigh : HighClear nrows ncols inboard) (_hinv : CountInv nrows ncols inboard)
    (hstill : StillLife nrows ncols inboard) :
    (∃ out', memcpy outboard inboard (nrows * ncols) = some out' ∧
      generation (packagesOf t nrows ncols) nrows ncols outboard inboard = some out') ∧
    (∃ s, genLoop (packagesOf t nrows ncols) nrows ncols gens_max outboard inboard = some s ∧
      ∀ i < nrows, ∀ j < ncols, cellAt s.2 nrows i j = cellAt inboard nrows i j) ∧
    ∃ res, threaded_gol t outboard inboard nrows ncols gens_max = some res ∧
      ∀ i < nrows, ∀ j < ncols,
        cellAt res nrows i j = if aliveAt inboard nrows i j then 1 else 0 := by
  obtain ⟨out0, hcpy, _, _⟩ := memcpy_spec nrows ncols outboard inboard hin hout
  obtain ⟨s, hs, hlen, hcells⟩ :=
    genLoop_unchanged t nrows ncols ht htn gens_max outboard inboard hin hout hhigh hstill
  obtain ⟨res, hres, _, hrc⟩ := formatOutput_spec nrows ncols s.2 hlen
  refine ⟨⟨out0, hcpy, ?_⟩, ⟨s, hs, hcells⟩, res, ?_, ?_⟩
  · rw [generation_unchanged t nrows ncols outboard inboard ht htn hin hhigh hstill, hcpy]
  · unfold threaded_gol
    rw [if_neg (by omega), hs]
    exact hres
  · intro i hi j hj
    rw [hrc i hi j hj, hcells i hi j hj, shiftCell_low _ (hhigh i hi j hj)]
    rfl

set_option maxRecDepth 100000 in
theorem still_life_stable_witness :
    (HighClear 4 4 blockBoard ∧ CountInv 4 4 blockBoard ∧ StillLife 4 4 blockBoard) ∧
    threaded_gol 2 (List.replicate 16 0) blockBoard 4 4 3 =
      some [0, 0, 0, 0,  0, 1, 1, 0,  0, 1, 1, 0,  0, 0, 0, 0] ∧
    ((∃ out', memcpy (List.replicate 16 0) blockBoard (4 * 4) = some out' ∧
      generation (packagesOf 2 4 4) 4 4 (List.replicate 16 0) blockBoard = some out') ∧
    (∃ s, genLoop (packagesOf 2 4 4) 4 4 3 (List.replicate 16 0) blockBoard = some s ∧
      ∀ i < 4, ∀ j < 4, cellAt s.2 4 i j = cellAt blockBoard 4 i j) ∧
    ∃ res, threaded_gol 2 (List.replicate 16 0) blockBoard 4 4 3 = some res ∧
      ∀ i < 4, ∀ j < 4, cellAt res 4 i j = if aliveAt blockBoard 4 i j then 1 else 0) :=
  ⟨by decide!, by decide!,
    still_life_stable 2 4 4 3 (List.replicate 16 0) blockBoard (by decide) (by decide)
      (by decide) (by decide) (by decide) (by decide) (by decide!) (by decide!) (by decide!)⟩

/-! ### The loader -/

theorem initStep_eq (nrows ncols i j : Nat) (b : Board) (hr : 2 ≤ nrows) (hc : 2 ≤ ncols)
    (hi : i < nrows) (hj : j < ncols) (hb : nrows * ncols ≤ b.length) :
    initStep nrows ncols i j b = some (initPure nrows ncols i j b) := by
  have hk : flat nrows (i, j) < nrows * ncols := flat_lt _ _ _ hi hj
  have hcast : (i : Int) + (nrows : Int) * (j : Int) = ((flat nrows (i, j) : Nat) : Int) := by
    simp [flat]
  unfold initStep initPure
  simp only [hcast]
  rw [rd_nat b _ (by omega), Option.some_bind]
  split_ifs with h
  · exact foldlM_update _ bumpNeighborCnt (fun _ _ _ => rfl) _ _
      (neighbours_eq _ _ _ _ hr hc hi hj) _
      (fun k hk' => by have := torus_flat_lt _ _ _ _ hi hj k hk'; omega)
  · rfl

theorem applyAll_torus_cellAt (nrows ncols : Nat) (f : Nat → Nat) (b : Board) (i j a c : Nat)
    (hr : 3 ≤ nrows) (hc : 3 ≤ ncols) (hi : i < nrows) (hj : j < ncols)
    (ha : a < nrows) (hc' : c < ncols) (hb : nrows * ncols ≤ b.length) :
    cellAt (applyAll f ((torus nrows ncols i j).map (flat nrows)) b) nrows a c =
      if (a, c) ∈ torus nrows ncols i j then f (cellAt b nrows a c) else cellAt b nrows a c := by
  have hk : flat nrows (a, c) < nrows * ncols := flat_lt _ _ _ ha hc'
  show (applyAll _ _ _).getD (flat nrows (a, c)) 0 = _
  rw [applyAll_getD _ _ _ _ (by omega),
    count_flat nrows _ (fun q hq => (torus_range _ _ _ _ hi hj q hq).1) (a, c) ha]
  have hnd := torus_nodup _ _ i j hr hc hi hj
  by_cases hm : (a, c) ∈ torus nrows ncols i j
  · rw [if_pos hm, count_nodup_mem _ _ hnd hm]; rfl
  · rw [if_neg hm, List.count_eq_zero_of_not_mem hm]; rfl

theorem initPure_inv (nrows ncols : Nat) (b0 b : Board) (D : Nat × Nat → Bool) (i j : Nat)
    (hr : 3 ≤ nrows) (hc : 3 ≤ ncols) (hi : i < nrows) (hj : j < ncols)
    (hfresh : D (i, j) = false) (hinv : InitInv nrows ncols b0 b D) :
    InitInv nrows ncols b0 (initPure nrows ncols i j b) (fun q => D q || decide (q = (i, j))) := by
  obtain ⟨hlen, hcells⟩ := hinv
  have hcellb : b.getD (flat nrows (i, j)) 0 = cellAt b nrows i j := rfl
  have hbit : isAlive (cellAt b nrows i j) = cellAt b0 nrows i j / 16 % 2 := by
    unfold isAlive; rw [(hcells i hi j hj).1]
  have hflip := fun (a c : Nat) (ha : a < nrows) (hc' : c < ncols) =>
    countP_flip (torus nrows ncols a c) (fun q => aliveAt b0 nrows q.1 q.2 && D q)
      (fun q => aliveAt b0 nrows q.1 q.2 && (D q || decide (q = (i, j)))) (i, j)
      (torus_nodup _ _ _ _ hr hc ha hc') (fun x _ hne => by simp [hne])
  unfold initPure
  rw [hcellb]
  by_cases hal : isAlive (cellAt b nrows i j) ≠ 0
  · rw [if_pos hal]
    have halive : aliveAt b0 nrows i j = true := by
      rw [aliveAt_iff]
      have : cellAt b0 nrows i j / 16 % 2 < 2 := Nat.mod_lt _ (by norm_num)
      omega
    refine ⟨by rw [applyAll_length]; exact hlen, ?_⟩
    intro a ha c hc'
    rw [applyAll_torus_cellAt nrows ncols _ b i j a c hr hc hi hj ha hc' hlen]
    have h := hflip a c ha hc'
    have hle := List.countP_le_length
      (fun q => aliveAt b0 nrows q.1 q.2 && (D q || decide (q = (i, j))))
      (l := torus nrows ncols a c)
    rw [torus_length] at hle
    have hold := hcells a ha c hc'
    generalize List.countP (fun q => aliveAt b0 nrows q.1 q.2 && (D q || decide (q = (i, j))))
      (torus nrows ncols a c) = c1 at h hle ⊢
    generalize List.countP (fun q => aliveAt b0 nrows q.1 q.2 && D q)
      (torus nrows ncols a c) = c0 at h hold ⊢
    simp only [hfresh, halive, Bool.and_false, Bool.false_eq_true, and_false, if_false,
      Nat.add_zero, decide_True, Bool.or_true, Bool.and_true, and_true] at h
    by_cases hm : (a, c) ∈ torus nrows ncols i j
    · have hq : (i, j) ∈ torus nrows ncols a c :=
        (torus_symm _ _ _ _ _ _ hr hc hi hj ha hc').1 hm
      rw [if_pos hm]
      rw [if_pos hq] at h
      unfold incNeighborCnt
      omega
    · have hq : (i, j) ∉ torus nrows ncols a c :=
        fun h' => hm ((torus_symm _ _ _ _ _ _ hr hc hi hj ha hc').2 h')
      rw [if_neg hm]
      rw [if_neg hq] at h
      omega
  · rw [if_neg hal]
    have hdead : aliveAt b0 nrows i j = false := by
      rw [aliveAt_false_iff]; omega
    refine ⟨hlen, ?_⟩
    intro a ha c hc'
    have h := hflip a c ha hc'
    have hold := hcells a ha c hc'
    generalize List.countP (fun q => aliveAt b0 nrows q.1 q.2 && (D q || decide (q = (i, j))))
      (torus nrows ncols a c) = c1 at h ⊢
    generalize List.countP (fun q => aliveAt b0 nrows q.1 q.2 && D q)
      (torus nrows ncols a c) = c0 at h hold ⊢
    simp only [hdead, Bool.false_and, Bool.false_eq_true, and_false, if_false,
      Nat.add_zero] at h
    omega

theorem InitInv_congr (nrows ncols : Nat) (b0 b : Board) (D D' : Nat × Nat → Bool)
    (h : ∀ q, D q = D' q) (hinv : InitInv nrows ncols b0 b D) : InitInv nrows ncols b0 b D' := by
  have : D = D' := funext h
  rw [← this]; exact hinv

theorem init_fold (nrows ncols : Nat) (b0 : Board) (hr : 3 ≤ nrows) (hc : 3 ≤ ncols)
    (cells : List (Nat × Nat)) (b : Board) (D : Nat × Nat → Bool)
    (hrange : ∀ x ∈ cells, x.1 < nrows ∧ x.2 < ncols) (hnd : cells.Nodup)
    (hfresh : ∀ x ∈ cells, D x = false) (hinv : InitInv nrows ncols b0 b D) :
    ∃ b', cells.foldlM (fun b x => initStep nrows ncols x.1 x.2 b) b = some b' ∧
      InitInv nrows ncols b0 b' (fun q => D q || decide (q ∈ cells)) := by
  induction cells generalizing b D with
  | nil => exact ⟨b, rfl, InitInv_congr _ _ _ _ _ _ (fun q => by simp) hinv⟩
  | cons x cells ih =>
    obtain ⟨h1, h2⟩ := hrange x (by simp)
    rw [List.nodup_cons] at hnd
    have hstep := initStep_eq nrows ncols x.1 x.2 b (by omega) (by omega) h1 h2 hinv.1
    have hpure := initPure_inv nrows ncols b0 b D x.1 x.2 hr hc h1 h2 (hfresh x (by simp)) hinv
    obtain ⟨b', hrun, hinv'⟩ := ih (initPure nrows ncols x.1 x.2 b)
      (fun q => D q || decide (q = (x.1, x.2)))
      (fun y hy => hrange y (by simp [hy])) hnd.2
      (fun y hy => by
        have hne : y ≠ x := fun e => hnd.1 (e ▸ hy)
        simp [hfresh y (by simp [hy]), hne])
      hpure
    refine ⟨b', ?_, InitInv_congr _ _ _ _ _ _ (fun q => ?_) hinv'⟩
    · rw [List.foldlM_cons, hstep]; exact hrun
    · simp only [Prod.mk.eta, List.mem_cons, Bool.decide_or, Bool.or_assoc]

theorem mem_cellsCM (nrows ncols a c : Nat) :
    (a, c) ∈ cellsCM nrows ncols ↔ a < nrows ∧ c < ncols := by
  unfold cellsCM
  simp only [List.mem_flatMap, List.mem_map, List.mem_range, Prod.mk.injEq]
  constructor
  · rintro ⟨j, hj, i, hi, rfl, rfl⟩; exact ⟨hi, hj⟩
  · rintro ⟨h1, h2⟩; exact ⟨c, h2, a, h1, rfl, rfl⟩

theorem nodup_cellsCM (nrows ncols : Nat) : (cellsCM nrows ncols).Nodup := by
  unfold cellsCM
  rw [List.nodup_flatMap]
  refine ⟨fun j _ => ?_, ?_⟩
  · apply List.Nodup.map _ (List.nodup_range _)
    intro x y h
    simp only [Prod.mk.injEq] at h
    exact h.1
  · apply List.Pairwise.imp _ (List.nodup_range ncols)
    intro j j' hne
    show List.Disjoint _ _
    intro x hx hx'
    simp only [List.mem_map] at hx hx'
    obtain ⟨_, _, rfl⟩ := hx
    obtain ⟨_, _, h⟩ := hx'
    simp only [Prod.mk.injEq] at h
    exact hne h.2.symm

theorem init_neighbour_cnts_eq (board : Board) (nrows ncols : Nat) :
    init_neighbour_cnts board nrows ncols =
      (cellsCM nrows ncols).foldlM (fun b x => initStep nrows ncols x.1 x.2 b) board := by
  unfold init_neighbour_cnts cellsCM
  rw [foldlM_flatMap]
  simp only [List.foldlM_map]

/-- C8. The loader establishes the count invariant for generation 0: for
`nrows, ncols ≥ 3` and a board whose cells all have `neighborCnt = 0`,
`init_neighbour_cnts` succeeds, leaves every `isAlive` flag unchanged and sets
every `neighborCnt` to the number of alive cells among the eight toroidal
neighbours, so the resulting board satisfies the count invariant. -/
theorem init_neighbour_cnts_correct (nrows ncols : Nat) (board : Board)
    (hr : 3 ≤ nrows) (hc : 3 ≤ ncols) (hlen : nrows * ncols ≤ board.length)
    (hzero : ∀ i < nrows, ∀ j < ncols, neighborCnt (cellAt board nrows i j) = 0) :
    ∃ b', init_neighbour_cnts board nrows ncols = some b' ∧
      (∀ i < nrows, ∀ j < ncols,
        isAlive (cellAt b' nrows i j) = isAlive (cellAt board nrows i j) ∧
        neighborCnt (cellAt b' nrows i j) = liveCount nrows ncols (aliveAt board nrows) i j) ∧
      CountInv nrows ncols b' := by
  have h0 : InitInv nrows ncols board board (fun _ => false) := by
    refine ⟨hlen, fun a ha c hc' => ⟨rfl, ?_⟩⟩
    have := hzero a ha c hc'
    unfold neighborCnt at this
    rw [this]
    simp
  obtain ⟨b', hrun, hlen', hcells⟩ := init_fold nrows ncols board hr hc (cellsCM nrows ncols)
    board (fun _ => false)
    (fun x hx => (mem_cellsCM nrows ncols x.1 x.2).1 hx) (nodup_cellsCM nrows ncols)
    (fun _ _ => rfl) h0
  have hcount : ∀ i < nrows, ∀ j < ncols,
      cellAt b' nrows i j % 16 = liveCount nrows ncols (aliveAt board nrows) i j := by
    intro i hi j hj
    rw [(hcells i hi j hj).2]
    unfold liveCount
    apply List.countP_congr
    intro q hq
    have hq' := torus_range _ _ _ _ hi hj q hq
    have : q ∈ cellsCM nrows ncols := (mem_cellsCM nrows ncols q.1 q.2).2 hq'
    simp [this]
  have halive : ∀ i < nrows, ∀ j < ncols, aliveAt b' nrows i j = aliveAt board nrows i j := by
    intro i hi j hj
    unfold aliveAt
    rw [(hcells i hi j hj).1]
  refine ⟨b', by rw [init_neighbour_cnts_eq]; exact hrun, ?_, ?_⟩
  · intro i hi j hj
    refine ⟨?_, hcount i hi j hj⟩
    unfold isAlive
    rw [(hcells i hi j hj).1]
  · intro i hi j hj
    show cellAt b' nrows i j % 16 = _
    rw [hcount i hi j hj]
    unfold liveCount
    apply List.countP_congr
    intro q hq
    have hq' := torus_range _ _ _ _ hi hj q hq
    rw [halive q.1 hq'.1 q.2 hq'.2]

set_option maxRecDepth 100000 in
theorem init_neighbour_cnts_correct_witness :
    (∀ i < 4, ∀ j < 6, neighborCnt (cellAt cornersBoard 4 i j) = 0) ∧
    (init_neighbour_cnts cornersBoard 4 6).map
        (fun b => (neighborCnt (cellAt b 4 0 0), neighborCnt (cellAt b 4 3 5))) = some (1, 1) ∧
    ∃ b', init_neighbour_cnts cornersBoard 4 6 = some b' ∧
      (∀ i < 4, ∀ j < 6,
        isAlive (cellAt b' 4 i j) = isAlive (cellAt cornersBoard 4 i j) ∧
        neighborCnt (cellAt b' 4 i j) = liveCount 4 6 (aliveAt cornersBoard 4) i j) ∧
      CountInv 4 6 b' :=
  ⟨by decide!, by decide!,
    init_neighbour_cnts_correct 4 6 cornersBoard (by decide) (by decide) (by decide!)
      (by decide!)⟩

/-! ### `mod` and the neighbour addresses on degenerate grids -/

/-- What `mod` computes for a positive modulus: the non-negative remainder,
except that a negative multiple of `m` yields `m` itself. -/
theorem mod_eq (x m : Int) (hm : 1 ≤ m) :
    mod x m = if x < 0 ∧ x % m = 0 then m else x % m := by
  unfold mod
  by_cases hx : x < 0
  · obtain ⟨a, rfl⟩ : ∃ a : Nat, x = -(a : Int) := ⟨(-x).toNat, by omega⟩
    obtain ⟨n, rfl⟩ : ∃ n : Nat, m = (n : Int) := ⟨m.toNat, by omega⟩
    rw [if_pos hx, tmod_neg_nat]
    have hdm := Nat.div_add_mod a n
    have hlt : a % n < n := Nat.mod_lt _ (by omega)
    have hdm' : (n : Int) * ((a / n : Nat) : Int) + ((a % n : Nat) : Int) = (a : Int) := by
      exact_mod_cast hdm
    by_cases hr : a % n = 0
    · have h0 : (-(a : Int)) % (n : Int) = 0 := by
        have : -(a : Int) = (n : Int) * (-((a / n : Nat) : Int)) := by
          rw [hr] at hdm'; rw [← hdm']; simp
        rw [this]; exact Int.mul_emod_right _ _
      rw [if_pos ⟨hx, h0⟩, hr]; simp
    · have h1 : (-(a : Int)) % (n : Int) = (n : Int) - ((a % n : Nat) : Int) := by
        have : -(a : Int) =
            ((n : Int) - ((a % n : Nat) : Int)) + (n : Int) * (-((a / n : Nat) : Int) - 1) := by
          rw [← hdm']; ring
        rw [this, Int.add_mul_emod_self_left]
        exact Int.emod_eq_of_lt (by omega) (by omega)
      rw [if_neg (by rw [h1]; omega), h1]; omega
  · rw [if_neg hx, if_neg (fun h => hx h.1)]
    exact Int.tmod_eq_emod (by omega) (by omega)

/-- C9 (failing input). For a negative multiple of the modulus `mod` returns the
modulus itself, which is outside `[0, m)`: `mod (-1, 1) = 1` (the call
`mod (i-1, nrows)` for `i = 0` on a one-row board) and `mod (-3, 3) = 3`. -/
theorem mod_negative_multiple :
    mod (-1) 1 = 1 ∧ ¬ (mod (-1) 1 < 1) ∧ mod (-3) 3 = 3 ∧ ¬ (mod (-3) 3 < 3) := by
  decide

/-- C10 (failing input). On a one-row board the neighbour addresses leave the
board: for cell `(0,0)` of the 1 x 3 grid `inorth = mod (-1, 1) = 1` and the
north-west address is `1 + 1 * 2 = 3`, not in `[0, 3)` (the toroidal north-west
neighbour `(0,2)` has address `2`); on the 1 x 1 board the loader's
`init_neighbour_cnts` writes outside even the `2 * nrows * ncols` bytes that
`make_board` allocates. -/
theorem neighbours_leave_single_row_board :
    (neighbours 1 3 0 0).map (fun p => p.1 + p.2) = [3, 1, 2, 2, 1, 2, 0, 1] ∧
      ¬ ((3 : Int) < 1 * 3) ∧
      (torus 1 3 0 0).map (flat 1) = [2, 0, 1, 2, 1, 2, 0, 1] ∧
      (neighbours 1 1 0 0).map (fun p => p.1 + p.2) = [2, 1, 1, 1, 0, 1, 0, 0] ∧
      init_neighbour_cnts [16, 0] 1 1 = none := by
  decide!

/-! ### The mutators of the cell encoding and the final extraction -/

/-- C17. Each mutator of the cell encoding touches only its own field: for a
byte `c` stored at index `i + j = k` of a board, `SET_ALIVE` sets and `SET_DEAD`
clears bit 4 and both keep bits 0-3 and 5-7; if the count field of `c` is in
`0..7`, `INCREMENT_NEIGHBOURS` stores the count plus one with bits 4-7
unchanged, and if it is in `1..8`, `DECREMENT_NEIGHBOURS` stores the count minus
one with bits 4-7 unchanged; no other element of the board changes. -/
theorem mutators_touch_own_field (board : Board) (i j : Int) (k c : Nat)
    (hij : i + j = (k : Int)) (hk : k < board.length) (hc : board.getD k 0 = c)
    (hbyte : c < 256) :
    (SET_ALIVE c / 16 % 2 = 1 ∧ SET_ALIVE c % 16 = c % 16 ∧ SET_ALIVE c / 32 = c / 32) ∧
    (SET_DEAD c / 16 % 2 = 0 ∧ SET_DEAD c % 16 = c % 16 ∧ SET_DEAD c / 32 = c / 32) ∧
    (c % 16 ≤ 7 → ∃ b', INCREMENT_NEIGHBOURS board i j = some b' ∧
      b'.getD k 0 % 16 = c % 16 + 1 ∧ b'.getD k 0 / 16 = c / 16 ∧
      ∀ k', k' ≠ k → b'.getD k' 0 = board.getD k' 0) ∧
    (1 ≤ c % 16 ∧ c % 16 ≤ 8 → ∃ b', DECREMENT_NEIGHBOURS board i j = some b' ∧
      b'.getD k 0 % 16 + 1 = c % 16 ∧ b'.getD k 0 / 16 = c / 16 ∧
      ∀ k', k' ≠ k → b'.getD k' 0 = board.getD k' 0) := by
  have hSA := SET_ALIVE_eq c
  have hSD := SET_DEAD_eq c
  refine ⟨by omega, by omega, ?_, ?_⟩
  · intro hroom
    refine ⟨board.set k ((c + 1) % 256), ?_, ?_, ?_, ?_⟩
    · unfold INCREMENT_NEIGHBOURS
      rw [hij, rd_nat board k hk, Option.some_bind, wr_nat board k _ hk, hc]
    · rw [getD_set, if_pos ⟨rfl, hk⟩]; omega
    · rw [getD_set, if_pos ⟨rfl, hk⟩]; omega
    · intro k' hne
      rw [getD_set, if_neg (fun h => hne h.1.symm)]
  · intro hroom
    refine ⟨board.set k ((c + 255) % 256), ?_, ?_, ?_, ?_⟩
    · unfold DECREMENT_NEIGHBOURS
      rw [hij, rd_nat board k hk, Option.some_bind, wr_nat board k _ hk, hc]
    · rw [getD_set, if_pos ⟨rfl, hk⟩]; omega
    · rw [getD_set, if_pos ⟨rfl, hk⟩]; omega
    · intro k' hne
      rw [getD_set, if_neg (fun h => hne h.1.symm)]

theorem mutators_touch_own_field_witness :
    (SET_ALIVE 3 / 16 % 2 = 1 ∧ SET_ALIVE 3 % 16 = 3 % 16 ∧ SET_ALIVE 3 / 32 = 3 / 32) ∧
    (SET_DEAD 3 / 16 % 2 = 0 ∧ SET_DEAD 3 % 16 = 3 % 16 ∧ SET_DEAD 3 / 32 = 3 / 32) ∧
    (3 % 16 ≤ 7 → ∃ b', INCREMENT_NEIGHBOURS blinkerBoard 0 5 = some b' ∧
      b'.getD 5 0 % 16 = 3 % 16 + 1 ∧ b'.getD 5 0 / 16 = 3 / 16 ∧
      ∀ k', k' ≠ 5 → b'.getD k' 0 = blinkerBoard.getD k' 0) ∧
    (1 ≤ 3 % 16 ∧ 3 % 16 ≤ 8 → ∃ b', DECREMENT_NEIGHBOURS blinkerBoard 0 5 = some b' ∧
      b'.getD 5 0 % 16 + 1 = 3 % 16 ∧ b'.getD 5 0 / 16 = 3 / 16 ∧
      ∀ k', k' ≠ 5 → b'.getD k' 0 = blinkerBoard.getD k' 0) :=
  mutators_touch_own_field blinkerBoard 0 5 5 3 (by decide) (by decide) (by decide) (by decide)

theorem shiftCell_bit (v : Nat) : shiftCell v % 2 = v / 16 % 2 := by
  unfold shiftCell ofInt toChar
  rw [Int.shiftRight_eq_div_pow]
  split_ifs <;> omega

theorem shiftCell_nonneg (v : Nat) (hv : v < 128) : shiftCell v = v / 16 := by
  unfold shiftCell ofInt toChar
  rw [Int.shiftRight_eq_div_pow, if_pos hv]
  omega

theorem formatOutput_frame (nrows ncols : Nat) (b : Board) (hb : nrows * ncols ≤ b.length) :
    ∃ res, formatOutput nrows ncols b = some res ∧ res.length = b.length ∧
      (∀ k < nrows * ncols, res.getD k 0 = shiftCell (b.getD k 0)) ∧
      ∀ k, nrows * ncols ≤ k → res.getD k 0 = b.getD k 0 := by
  refine ⟨_, formatOutput_eq nrows ncols b hb, applyAll_length _ _ _, ?_, ?_⟩
  · intro k hk
    rw [applyAll_getD _ _ _ _ (by omega),
      count_nodup_mem _ _ (List.nodup_range _) (List.mem_range.2 hk)]
    rfl
  · intro k hk
    by_cases hkl : k < b.length
    · rw [applyAll_getD _ _ _ _ hkl,
        List.count_eq_zero_of_not_mem (fun h => by rw [List.mem_range] at h; omega)]
      rfl
    · have h1 : (applyAll shiftCell (List.range (nrows * ncols)) b).length ≤ k := by
        rw [applyAll_length]; omega
      simp only [List.getD_eq_getElem?_getD]
      rw [List.getElem?_eq_none h1, List.getElem?_eq_none (by omega)]

/-- C11. Final extraction: whatever board `s.2` the generation loop leaves in
`inboard` (also for `gens_max = 0`), `threaded_gol` returns it with every
element of `[0, nrows * ncols)` replaced, exactly once, by its byte shifted right
by 4 (`shiftCell`, the `>> 4` on a `char`) and everything else untouched: the
low-order bit of each output cell is the alive flag (bit 4), a byte below `0x80`
becomes its quotient by 16, and a cell with bits 5-7 clear becomes exactly `1` if
alive and `0` if dead. -/
theorem final_extraction (t nrows ncols gens_max : Nat) (outboard inboard : Board)
    (s : Board × Board) (ht : 1 ≤ t)
    (hloop : genLoop (packagesOf t nrows ncols) nrows ncols gens_max outboard inboard = some s)
    (hlen : nrows * ncols ≤ s.2.length) :
    (List.range ncols).flatMap (fun j => (List.range nrows).map fun i => i + nrows * j) =
        List.range (nrows * ncols) ∧
    ∃ res, threaded_gol t outboard inboard nrows ncols gens_max = some res ∧
      res.length = s.2.length ∧
      (∀ k < nrows * ncols,
        res.getD k 0 = shiftCell (s.2.getD k 0) ∧
        res.getD k 0 % 2 = s.2.getD k 0 / 16 % 2 ∧
        (s.2.getD k 0 < 128 → res.getD k 0 = s.2.getD k 0 / 16) ∧
        (s.2.getD k 0 < 32 → res.getD k 0 = if s.2.getD k 0 / 16 % 2 = 1 then 1 else 0)) ∧
      ∀ k, nrows * ncols ≤ k → res.getD k 0 = s.2.getD k 0 := by
  obtain ⟨res, hres, hl, hin, hout⟩ := formatOutput_frame nrows ncols s.2 hlen
  refine ⟨flatMap_range_flat nrows ncols, res, ?_, hl, ?_, hout⟩
  · unfold threaded_gol
    rw [if_neg (by omega), hloop]
    exact hres
  · intro k hk
    rw [hin k hk]
    refine ⟨rfl, shiftCell_bit _, shiftCell_nonneg _, ?_⟩
    intro h32
    rw [shiftCell_nonneg _ (by omega)]
    split_ifs <;> omega

set_option maxRecDepth 100000 in
theorem final_extraction_witness :
    genLoop (packagesOf 1 5 5) 5 5 0 zeroBoard25 blinkerBoard = some (zeroBoard25, blinkerBoard) ∧
    threaded_gol 1 zeroBoard25 blinkerBoard 5 5 0 =
      some [0, 1, 0, 0, 0,  0, 1, 0, 0, 0,  0, 1, 0, 0, 0,  0, 0, 0, 0, 0,  0, 0, 0, 0, 0] ∧
    ((List.range 5).flatMap (fun j => (List.range 5).map fun i => i + 5 * j) =
        List.range (5 * 5) ∧
    ∃ res, threaded_gol 1 zeroBoard25 blinkerBoard 5 5 0 = some res ∧
      res.length = (zeroBoard25, blinkerBoard).2.length ∧
      (∀ k < 5 * 5,
        res.getD k 0 = shiftCell ((zeroBoard25, blinkerBoard).2.getD k 0) ∧
        res.getD k 0 % 2 = (zeroBoard25, blinkerBoard).2.getD k 0 / 16 % 2 ∧
        ((zeroBoard25, blinkerBoard).2.getD k 0 < 128 →
          res.getD k 0 = (zeroBoard25, blinkerBoard).2.getD k 0 / 16) ∧
        ((zeroBoard25, blinkerBoard).2.getD k 0 < 32 →
          res.getD k 0 = if (zeroBoard25, blinkerBoard).2.getD k 0 / 16 % 2 = 1 then 1 else 0)) ∧
      ∀ k, 5 * 5 ≤ k → res.getD k 0 = (zeroBoard25, blinkerBoard).2.getD k 0) :=
  ⟨by decide!, by decide!,
    final_extraction 1 5 5 0 zeroBoard25 blinkerBoard (zeroBoard25, blinkerBoard) (by decide)
      (by decide!) (by decide)⟩

/-! ### Dimension validation, addressing and degenerate partitions -/

theorem load_dimensions_accepts (ngotten nrows ncols : Int) (p : Int × Int)
    (h : load_dimensions ngotten nrows ncols = some p) :
    p = (nrows, ncols) ∧ 1 ≤ ngotten ∧ 1 ≤ nrows ∧ 1 ≤ ncols ∧
      wrap32 (ncols * nrows) ≤ 100000000 := by
  unfold load_dimensions at h
  split_ifs at h with h1 h2 h3 h4
  simp only [Option.some.injEq] at h
  exact ⟨h.symm, by omega, by omega, by omega, by omega⟩

theorem wrap32_small (x : Int) (h0 : -2147483648 ≤ x) (h1 : x < 2147483648) : wrap32 x = x := by
  unfold wrap32; omega

/-- C19 (failing input). `load_dimensions` accepts `65536 x 65536` and
`46341 x 46341`: the 32-bit product `ncols * nrows` wraps to `0`, respectively
to a negative value, and passes the test `> 100000000`, although the true
products `4294967296` and `2147488281` exceed `100000000`. -/
theorem load_dimensions_accepts_overflowing_product :
    load_dimensions 2 65536 65536 = some (65536, 65536) ∧
      wrap32 (65536 * 65536) = 0 ∧ (65536 : Int) * 65536 > 100000000 ∧
      load_dimensions 2 46341 46341 = some (46341, 46341) ∧
      wrap32 (46341 * 46341) = -2147479015 ∧ (46341 : Int) * 46341 > 100000000 := by
  decide

/-- C18 (counterexample). On the 2 x 5 board the cell `(1,4)` is the last
element, index `1 + 2 * 4 = 9`, for the extraction, the row kernel and the
loader alike; the index `1 + 5 * 4 = 21` of the claim is outside the ten-element
buffer. -/
theorem stride_is_nrows_not_ncols :
    ¬ (1 + 5 * 4 < 2 * 5) ∧
      rd [0, 0, 0, 0, 0, 0, 0, 0, 0, 3] (1 + 5 * 4) = none ∧
      rd [0, 0, 0, 0, 0, 0, 0, 0, 0, 3] (1 + 2 * 4) = some 3 ∧
      formatOutput 2 5 [0, 0, 0, 0, 0, 0, 0, 0, 0, 16] = some [0, 0, 0, 0, 0, 0, 0, 0, 0, 1] ∧
      cellStep 2 5 [0, 0, 0, 0, 0, 0, 0, 0, 0, 3] 1 4 [0, 0, 0, 0, 0, 0, 0, 0, 0, 3] =
        some [2, 1, 0, 0, 0, 0, 2, 1, 2, 19] ∧
      initStep 2 5 1 4 [0, 0, 0, 0, 0, 0, 0, 0, 0, 16] =
        some [2, 1, 0, 0, 0, 0, 2, 1, 2, 16] := by
  decide!

/-- C18 (amended). Board addressing with stride `nrows`: for `i < nrows` and
`j < ncols` the cell at row `i`, column `j` is the buffer element at flat index
`i + nrows * j`; this index lies in `[0, nrows * ncols)` and belongs to no other
cell; it is the element the row kernels read from `inboard` to decide on the
cell, the element the final extraction shifts for the cell, and the element
whose `isAlive` the loader tests. -/
theorem board_addressing (nrows ncols i j : Nat) (inboard outboard board : Board)
    (hi : i < nrows) (hj : j < ncols) (hin : nrows * ncols ≤ inboard.length)
    (hb : nrows * ncols ≤ board.length) :
    i + nrows * j < nrows * ncols ∧
    (∀ i' < nrows, ∀ j' < ncols, i + nrows * j = i' + nrows * j' → i = i' ∧ j = j') ∧
    (∀ inb', nrows * ncols ≤ inb'.length →
      inb'.getD (i + nrows * j) 0 = inboard.getD (i + nrows * j) 0 →
      cellStep nrows ncols inb' (i : Int) j outboard =
        cellStep nrows ncols inboard (i : Int) j outboard) ∧
    (∃ res, formatOutput nrows ncols inboard = some res ∧
      res.getD (i + nrows * j) 0 = shiftCell (inboard.getD (i + nrows * j) 0)) ∧
    initStep nrows ncols i j board =
      if isAlive (board.getD (i + nrows * j) 0) ≠ 0 then
        (neighbours nrows ncols (i : Int) j).foldlM (fun b p => bumpNeighborCnt b p.1 p.2) board
      else some board := by
  have hk : i + nrows * j < nrows * ncols := flat_lt nrows ncols (i, j) hi hj
  have hcast : (i : Int) + (nrows : Int) * (j : Int) = ((i + nrows * j : Nat) : Int) := by
    push_cast; rfl
  refine ⟨hk, ?_, ?_, ?_, ?_⟩
  · intro i' hi' j' _ e
    have := (flat_inj nrows (i, j) (i', j') hi hi').1 e
    simp only [Prod.mk.injEq] at this
    exact this
  · intro inb' hlen' he
    unfold cellStep
    simp only [hcast]
    rw [rd_nat inb' _ (by omega), rd_nat inboard _ (by omega), he]
  · obtain ⟨res, hres, _, hcells, _⟩ := formatOutput_frame nrows ncols inboard hin
    exact ⟨res, hres, hcells _ hk⟩
  · unfold initStep
    simp only [hcast]
    rw [rd_nat board _ (by omega), Option.some_bind]

set_option maxRecDepth 100000 in
theorem board_addressing_witness :
    1 + 2 * 4 < 2 * 5 ∧
    (∀ i' < 2, ∀ j' < 5, 1 + 2 * 4 = i' + 2 * j' → 1 = i' ∧ 4 = j') ∧
    (∀ inb', 2 * 5 ≤ inb'.length →
      inb'.getD (1 + 2 * 4) 0 = [0, 0, 0, 0, 0, 0, 0, 0, 0, 3].getD (1 + 2 * 4) 0 →
      cellStep 2 5 inb' ((1 : Nat) : Int) 4 [0, 0, 0, 0, 0, 0, 0, 0, 0, 3] =
        cellStep 2 5 [0, 0, 0, 0, 0, 0, 0, 0, 0, 3] ((1 : Nat) : Int) 4
          [0, 0, 0, 0, 0, 0, 0, 0, 0, 3]) ∧
    (∃ res, formatOutput 2 5 [0, 0, 0, 0, 0, 0, 0, 0, 0, 3] = some res ∧
      res.getD (1 + 2 * 4) 0 = shiftCell ([0, 0, 0, 0, 0, 0, 0, 0, 0, 3].getD (1 + 2 * 4) 0)) ∧
    initStep 2 5 1 4 [0, 0, 0, 0, 0, 0, 0, 0, 0, 16] =
      if isAlive ([0, 0, 0, 0, 0, 0, 0, 0, 0, 16].getD (1 + 2 * 4) 0) ≠ 0 then
        (neighbours 2 5 ((1 : Nat) : Int) 4).foldlM (fun b p => bumpNeighborCnt b p.1 p.2)
          [0, 0, 0, 0, 0, 0, 0, 0, 0, 16]
      else some [0, 0, 0, 0, 0, 0, 0, 0, 0, 16] :=
  board_addressing 2 5 1 4 [0, 0, 0, 0, 0, 0, 0, 0, 0, 3] [0, 0, 0, 0, 0, 0, 0, 0, 0, 3]
    [0, 0, 0, 0, 0, 0, 0, 0, 0, 16] (by decide) (by decide) (by decide) (by decide)

/-- C12 (failing input). With `nrows = 3` and four threads the chunk size is
`3 / 4 = 0`: every package has `start_row = 1` and `end_row = -1`, the edge pass
hands the rows `0` and `-1` to `gol_worker_for_row`, and the read of row `-1`,
column `0` is element `-1` of `inboard`, outside the buffer. -/
theorem degenerate_partition_leaves_board :
    edgeRows (packagesOf 4 3 3) = [0, -1, 0, -1, 0, -1, 0, -1] ∧
      (packagesOf 4 3 3).map (fun p => (p.start_row, p.end_row)) =
        [(1, -1), (1, -1), (1, -1), (1, -1)] ∧
      ¬ ((0 : Int) ≤ -1) ∧ rd loneCellBoard (-1 + 3 * 0) = none ∧
      gol_worker_for_row (-1) 3 3 loneCellBoard loneCellBoard = none ∧
      generation (packagesOf 4 3 3) 3 3 (List.replicate 9 0) loneCellBoard = none ∧
      threaded_gol 4 (List.replicate 9 0) loneCellBoard 3 3 1 = none := by
  decide!

/-! ### Write footprints -/

theorem setupPackages_eq_map (nrows ncols : Nat) (c : Int) (k : Nat) (s : Int) :
    setupPackages nrows ncols c k s (s + c) =
      (List.range k).map fun (m : Nat) =>
        ({ nrows := nrows, ncols := ncols, start_row := s + (m : Int) * c + 1,
           end_row := s + ((m : Int) + 1) * c - 1 } : Package) := by
  induction k generalizing s with
  | zero => rfl
  | succ k ih =>
    rw [setupPackages, ih (s + c), List.range_succ_eq_map, List.map_cons, List.map_map]
    congr 1
    · simp
    · apply List.map_congr_left
      intro m _
      simp only [Function.comp_apply, Nat.succ_eq_add_one]
      congr 1
      · push_cast; ring
      · push_cast; ring

theorem packagesOf_eq_map (t nrows ncols : Nat) :
    packagesOf t nrows ncols =
      (List.range t).map (packageAt nrows ncols ((nrows / t : Nat) : Int)) := by
  rw [packagesOf_eq, setupPackages_eq_map]
  apply List.map_congr_left
  intro m _
  unfold packageAt
  simp

theorem packagesOf_getElem (t nrows ncols k : Nat) (hk : k < t) :
    (packagesOf t nrows ncols)[k]? = some (packageAt nrows ncols ((nrows / t : Nat) : Int) k) := by
  rw [packagesOf_eq_map, List.getElem?_map, List.getElem?_range hk]
  rfl

theorem chunk_bounds (t nrows k : Nat) (hk : k < t) :
    0 ≤ (k : Int) * ((nrows / t : Nat) : Int) ∧
      ((k : Int) + 1) * ((nrows / t : Nat) : Int) ≤ (nrows : Int) := by
  have h1 : (k + 1) * (nrows / t) ≤ t * (nrows / t) := Nat.mul_le_mul_right _ (by omega)
  have h2 : t * (nrows / t) ≤ nrows := Nat.mul_div_le nrows t
  have h3 : (((k + 1) * (nrows / t) : Nat) : Int) ≤ (nrows : Int) := by
    exact_mod_cast h1.trans h2
  constructor
  · exact Int.mul_nonneg (Int.ofNat_nonneg k) (Int.ofNat_nonneg _)
  · push_cast at h3; exact h3

theorem chunks_ordered (c : Int) (k k' : Nat) (hc : 0 ≤ c) (hlt : k < k') :
    ((k : Int) + 1) * c ≤ (k' : Int) * c :=
  Int.mul_le_mul_of_nonneg_right (by omega) hc

theorem writePairs_rows (nrows ncols : Nat) (i : Int) (j : Nat) (p : Int × Int)
    (hp : p ∈ writePairs nrows ncols i j) :
    (p.1 = mod (i - 1) nrows ∨ p.1 = i ∨ p.1 = mod (i + 1) nrows) ∧
      ∃ x : Int, p.2 = (nrows : Int) * x := by
  unfold writePairs neighbours at hp
  simp only [List.mem_cons, List.mem_singleton, List.not_mem_nil, or_false] at hp
  rcases hp with h | h | h | h | h | h | h | h | h <;> subst h <;> simp

theorem address_row (nrows : Nat) (a a' x x' : Int) (h0 : 0 ≤ a) (h1 : a < nrows)
    (h0' : 0 ≤ a') (h1' : a' < nrows)
    (h : a + (nrows : Int) * x = a' + (nrows : Int) * x') : a = a' := by
  have e := congrArg (· % (nrows : Int)) h
  simp only [Int.add_mul_emod_self_left] at e
  rwa [Int.emod_eq_of_lt h0 h1, Int.emod_eq_of_lt h0' h1'] at e

theorem update_frame (f : Nat → Nat) (g : Board → Int → Int → Option Board)
    (hg : ∀ b i j, g b i j = (rd b (i + j)).bind fun v => wr b (i + j) (f v))
    (b b' : Board) (i j : Int) (m : Nat) (h : g b i j = some b') (hm : i + j ≠ (m : Int)) :
    b'.getD m 0 = b.getD m 0 := by
  rw [hg] at h
  cases hrd : rd b (i + j) with
  | none => rw [hrd] at h; simp at h
  | some v =>
    rw [hrd, Option.some_bind] at h
    unfold wr at h
    split_ifs at h with hc
    simp only [Option.some.injEq] at h
    rw [← h, getD_set, if_neg (fun e => hm (by omega))]

theorem foldlM_frame (f : Nat → Nat) (g : Board → Int → Int → Option Board)
    (hg : ∀ b i j, g b i j = (rd b (i + j)).bind fun v => wr b (i + j) (f v))
    (ps : List (Int × Int)) (b b' : Board) (m : Nat)
    (h : ps.foldlM (fun b p => g b p.1 p.2) b = some b')
    (hm : ∀ p ∈ ps, p.1 + p.2 ≠ (m : Int)) : b'.getD m 0 = b.getD m 0 := by
  induction ps generalizing b with
  | nil => simp only [List.foldlM_nil] at h; cases h; rfl
  | cons p ps ih =>
    rw [List.foldlM_cons] at h
    cases hstep : g b p.1 p.2 with
    | none => rw [hstep] at h; simp at h
    | some b1 =>
      rw [hstep] at h
      rw [ih b1 h (fun q hq => hm q (by simp [hq])),
        update_frame f g hg b b1 p.1 p.2 m hstep (hm p (by simp))]

theorem wr_frame (b b' : Board) (k : Int) (v m : Nat) (h : wr b k v = some b')
    (hm : k ≠ (m : Int)) : b'.getD m 0 = b.getD m 0 := by
  unfold wr at h
  split_ifs at h with hc
  simp only [Option.some.injEq] at h
  rw [← h, getD_set, if_neg (fun e => hm (by omega))]

theorem cellStep_frame (nrows ncols : Nat) (inb out out' : Board) (i : Int) (j m : Nat)
    (h : cellStep nrows ncols inb i j out = some out')
    (hm : ∀ p ∈ writePairs nrows ncols i j, p.1 + p.2 ≠ (m : Int)) :
    out'.getD m 0 = out.getD m 0 := by
  have hself : i + (nrows : Int) * (j : Int) ≠ (m : Int) := hm (i, _) (by simp [writePairs])
  have hnb : ∀ p ∈ neighbours nrows ncols i j, p.1 + p.2 ≠ (m : Int) :=
    fun p hp => hm p (by simp [writePairs, hp])
  unfold cellStep at h
  cases hrd : rd inb (i + (nrows : Int) * (j : Int)) with
  | none => simp only [hrd, Option.none_bind] at h; exact absurd h (by simp)
  | some cell =>
    simp only [hrd, Option.some_bind] at h
    split_ifs at h with h1 h2 h3
    · cases hrd2 : rd out (i + (nrows : Int) * (j : Int)) with
      | none => simp only [hrd2, Option.none_bind] at h; exact absurd h (by simp)
      | some v =>
        simp only [hrd2, Option.some_bind] at h
        cases hwr : wr out (i + (nrows : Int) * (j : Int)) (SET_ALIVE v) with
        | none => simp only [hwr, Option.none_bind] at h; exact absurd h (by simp)
        | some out1 =>
          simp only [hwr, Option.some_bind] at h
          rw [foldlM_frame _ INCREMENT_NEIGHBOURS (fun _ _ _ => rfl) _ out1 out' m h hnb,
            wr_frame out out1 _ _ m hwr hself]
    · simp only [Option.some.injEq] at h; rw [h]
    · cases hrd2 : rd out (i + (nrows : Int) * (j : Int)) with
      | none => simp only [hrd2, Option.none_bind] at h; exact absurd h (by simp)
      | some v =>
        simp only [hrd2, Option.some_bind] at h
        cases hwr : wr out (i + (nrows : Int) * (j : Int)) (SET_DEAD v) with
        | none => simp only [hwr, Option.none_bind] at h; exact absurd h (by simp)
        | some out1 =>
          simp only [hwr, Option.some_bind] at h
          rw [foldlM_frame _ DECREMENT_NEIGHBOURS (fun _ _ _ => rfl) _ out1 out' m h hnb,
            wr_frame out out1 _ _ m hwr hself]
    · simp only [Option.some.injEq] at h; rw [h]

theorem runCells_frame (nrows ncols : Nat) (inb : Board) (cells : List (Int × Nat))
    (out out' : Board) (m : Nat) (h : runCells nrows ncols inb cells out = some out')
    (hm : ∀ c ∈ cells, ∀ p ∈ writePairs nrows ncols c.1 c.2, p.1 + p.2 ≠ (m : Int)) :
    out'.getD m 0 = out.getD m 0 := by
  induction cells generalizing out with
  | nil => unfold runCells at h; simp only [List.foldlM_nil] at h; cases h; rfl
  | cons c cells ih =>
    unfold runCells at h ih
    rw [List.foldlM_cons] at h
    cases hstep : cellStep nrows ncols inb c.1 c.2 out with
    | none => rw [hstep] at h; simp at h
    | some out1 =>
      rw [hstep] at h
      rw [ih out1 h (fun q hq => hm q (by simp [hq])),
        cellStep_frame nrows ncols inb out out1 c.1 c.2 m hstep (hm c (by simp))]

theorem runCells_some (nrows ncols : Nat) (inb : Board) (hr : 2 ≤ nrows) (hc : 2 ≤ ncols)
    (hin : nrows * ncols ≤ inb.length) (cells : List (Int × Nat)) (out : Board)
    (hrange : ∀ c ∈ cells, 0 ≤ c.1 ∧ c.1 < nrows ∧ c.2 < ncols)
    (hout : nrows * ncols ≤ out.length) :
    ∃ out', runCells nrows ncols inb cells out = some out' ∧ out'.length = out.length := by
  induction cells generalizing out with
  | nil => exact ⟨out, rfl, rfl⟩
  | cons c cells ih =>
    obtain ⟨h0, h1, h2⟩ := hrange c (by simp)
    obtain ⟨i, hi⟩ : ∃ i : Nat, c.1 = (i : Int) := ⟨c.1.toNat, by omega⟩
    have hstep := cellStep_eq nrows ncols inb out i c.2 hr hc (by omega) h2 hin hout
    have hlen := cellPure_length nrows ncols inb out i c.2
    obtain ⟨out', hrun, hlen'⟩ := ih (cellPure nrows ncols inb i c.2 out)
      (fun x hx => hrange x (by simp [hx])) (by omega)
    refine ⟨out', ?_, by omega⟩
    unfold runCells at hrun ⊢
    rw [List.foldlM_cons, hi, hstep]
    exact hrun

/-- C14. Frame of the row update: for `nrows, ncols ≥ 2` and a row `i < nrows`,
`gol_worker_for_row (i, ncols, nrows, inboard, outboard)` returns a new
`outboard` of the same length in which every cell whose row is none of
`mod (i-1, nrows)`, `i`, `mod (i+1, nrows)` keeps its byte.  (`inboard` is only
read: the embedded function yields the new `outboard` and nothing else.) -/
theorem row_update_frame (nrows ncols i : Nat) (inboard outboard : Board)
    (hr : 2 ≤ nrows) (hc : 2 ≤ ncols) (hi : i < nrows)
    (hin : nrows * ncols ≤ inboard.length) (hout : nrows * ncols ≤ outboard.length) :
    ∃ out', gol_worker_for_row (i : Int) ncols nrows inboard outboard = some out' ∧
      out'.length = outboard.length ∧
      ∀ a < nrows, ∀ b < ncols,
        (a : Int) ≠ mod ((i : Int) - 1) nrows → a ≠ i → (a : Int) ≠ mod ((i : Int) + 1) nrows →
        cellAt out' nrows a b = cellAt outboard nrows a b := by
  have hcells : ∀ c ∈ rowCells (i : Int) ncols, 0 ≤ c.1 ∧ c.1 < nrows ∧ c.2 < ncols := by
    intro c hc'
    have := (mem_rowCells (i : Int) ncols c.1 c.2).1 hc'
    omega
  obtain ⟨out', hrun, hlen⟩ :=
    runCells_some nrows ncols inboard hr hc hin (rowCells (i : Int) ncols) outboard hcells hout
  refine ⟨out', by rw [gol_worker_for_row_eq]; exact hrun, hlen, ?_⟩
  intro a ha b _ h1 h2 h3
  have hup : mod ((i : Int) - 1) nrows = ((wrapDec nrows i : Nat) : Int) := mod_pred nrows i hr hi
  have hdn : mod ((i : Int) + 1) nrows = ((wrapInc nrows i : Nat) : Int) := mod_succ nrows i hi
  have hup' := wrapDec_lt nrows i hi
  have hdn' := wrapInc_lt nrows i hi
  apply runCells_frame nrows ncols inboard _ outboard out' _ hrun
  intro c hc' p hp e
  have hci : c.1 = (i : Int) := ((mem_rowCells (i : Int) ncols c.1 c.2).1 hc').1
  rw [hci] at hp
  obtain ⟨hrow, x, hx⟩ := writePairs_rows nrows ncols (i : Int) c.2 p hp
  have hflat : ((a + nrows * b : Nat) : Int) = (a : Int) + (nrows : Int) * (b : Int) := by
    push_cast; rfl
  rw [hx, hflat] at e
  have hp0 : 0 ≤ p.1 ∧ p.1 < nrows := by
    rcases hrow with h | h | h <;> rw [h] <;> omega
  have := address_row nrows p.1 a x b hp0.1 hp0.2 (by omega) (by omega) e
  rcases hrow with h | h | h
  · exact h1 (by rw [← this, h])
  · exact h2 (by omega)
  · exact h3 (by rw [← this, h])

set_option maxRecDepth 100000 in
theorem row_update_frame_witness :
    gol_worker_for_row ((0 : Nat) : Int) 5 5 blinkerBoard blinkerBoard =
      some [3, 18, 2, 0, 1,  19, 19, 3, 0, 1,  3, 18, 2, 0, 1,  1, 1, 1, 0, 0,  1, 1, 1, 0, 0] ∧
    ∃ out', gol_worker_for_row ((0 : Nat) : Int) 5 5 blinkerBoard blinkerBoard = some out' ∧
      out'.length = blinkerBoard.length ∧
      ∀ a : Nat, a < 5 → ∀ b : Nat, b < 5 →
        (a : Int) ≠ mod (((0 : Nat) : Int) - 1) (5 : Nat) → a ≠ 0 →
        (a : Int) ≠ mod (((0 : Nat) : Int) + 1) (5 : Nat) →
        cellAt out' 5 a b = cellAt blinkerBoard 5 a b :=
  ⟨by decide!, row_update_frame 5 5 0 blinkerBoard blinkerBoard (by decide) (by decide)
    (by decide) (by decide) (by decide)⟩

theorem interior_rows_bounds (t nrows ncols k : Nat) (r : Int) (hk : k < t)
    (hr : r ∈ rowRange (packageAt nrows ncols ((nrows / t : Nat) : Int) k).start_row
      (packageAt nrows ncols ((nrows / t : Nat) : Int) k).end_row) :
    ((k : Int) * ((nrows / t : Nat) : Int) + 1 ≤ r ∧
      r < ((k : Int) + 1) * ((nrows / t : Nat) : Int) - 1) ∧
    mod (r - 1) nrows = r - 1 ∧ mod (r + 1) nrows = r + 1 ∧
    0 ≤ r - 1 ∧ r + 1 < (nrows : Int) := by
  rw [mem_rowRange] at hr
  unfold packageAt at hr
  simp only at hr
  obtain ⟨h0, h1⟩ := chunk_bounds t nrows k hk
  refine ⟨hr, mod_of_nonneg _ _ (by omega) (by omega), mod_of_nonneg _ _ (by omega) (by omega),
    by omega, by omega⟩

/-- C13. Interior-pass write footprints are confined to the worker's own chunk:
with chunk size `c = nrows / t`, worker `k < t` runs package `k`
(`start_row = k*c + 1`, `end_row = (k+1)*c - 1`); for every row `r` it processes,
the rows `mod (r-1, nrows)`, `r`, `mod (r+1, nrows)` lie in `[k*c, (k+1)*c - 1]`
and every element the update of a cell of row `r` can write has its row there;
`gol_worker` leaves every cell of a row outside `[k*c, (k+1)*c - 1]` unchanged;
hence no element written by worker `k` is written by a worker `k' ≠ k`. -/
theorem interior_writes_confined (t nrows ncols k : Nat) (hk : k < t) :
    (packagesOf t nrows ncols)[k]? =
      some (packageAt nrows ncols ((nrows / t : Nat) : Int) k) ∧
    (∀ r ∈ rowRange (packageAt nrows ncols ((nrows / t : Nat) : Int) k).start_row
        (packageAt nrows ncols ((nrows / t : Nat) : Int) k).end_row,
      ((k : Int) * ((nrows / t : Nat) : Int) + 1 ≤ r ∧
        r < ((k : Int) + 1) * ((nrows / t : Nat) : Int) - 1) ∧
      (∀ x ∈ [mod (r - 1) nrows, r, mod (r + 1) nrows],
        (k : Int) * ((nrows / t : Nat) : Int) ≤ x ∧
          x ≤ ((k : Int) + 1) * ((nrows / t : Nat) : Int) - 1) ∧
      ∀ (j : Nat), ∀ p ∈ writePairs nrows ncols r j,
        ((k : Int) * ((nrows / t : Nat) : Int) ≤ p.1 ∧
          p.1 ≤ ((k : Int) + 1) * ((nrows / t : Nat) : Int) - 1) ∧
        ∃ x : Int, p.2 = (nrows : Int) * x) ∧
    (∀ inb out out', gol_worker (packageAt nrows ncols ((nrows / t : Nat) : Int) k) inb out =
        some out' →
      ∀ a < nrows, ∀ b : Nat,
        ((a : Int) < (k : Int) * ((nrows / t : Nat) : Int) ∨
          ((k : Int) + 1) * ((nrows / t : Nat) : Int) - 1 < (a : Int)) →
        cellAt out' nrows a b = cellAt out nrows a b) ∧
    (∀ k' : Nat, k' < t → k ≠ k' →
      ∀ r ∈ rowRange (packageAt nrows ncols ((nrows / t : Nat) : Int) k).start_row
        (packageAt nrows ncols ((nrows / t : Nat) : Int) k).end_row,
      ∀ r' ∈ rowRange (packageAt nrows ncols ((nrows / t : Nat) : Int) k').start_row
        (packageAt nrows ncols ((nrows / t : Nat) : Int) k').end_row,
      ∀ (j j' : Nat), ∀ p ∈ writePairs nrows ncols r j, ∀ p' ∈ writePairs nrows ncols r' j',
        p.1 + p.2 ≠ p'.1 + p'.2) := by
  have hrows : ∀ (rr : Int) (jj kk : Nat), kk < t →
      rr ∈ rowRange (packageAt nrows ncols ((nrows / t : Nat) : Int) kk).start_row
        (packageAt nrows ncols ((nrows / t : Nat) : Int) kk).end_row →
      ∀ p ∈ writePairs nrows ncols rr jj,
        ((kk : Int) * ((nrows / t : Nat) : Int) ≤ p.1 ∧
          p.1 ≤ ((kk : Int) + 1) * ((nrows / t : Nat) : Int) - 1) ∧
        ∃ x : Int, p.2 = (nrows : Int) * x := by
    intro rr jj kk hkk hrr p hp
    obtain ⟨hbb, hmm, hpp, _, _⟩ := interior_rows_bounds t nrows ncols kk rr hkk hrr
    obtain ⟨hrow, hx⟩ := writePairs_rows nrows ncols rr jj p hp
    refine ⟨?_, hx⟩
    rw [hmm, hpp] at hrow
    rcases hrow with h | h | h <;> rw [h] <;> omega
  obtain ⟨hc0, hc1⟩ := chunk_bounds t nrows k hk
  refine ⟨packagesOf_getElem t nrows ncols k hk, ?_, ?_, ?_⟩
  · intro r hr
    obtain ⟨hb, hm1, hp1, hlo, hhi⟩ := interior_rows_bounds t nrows ncols k r hk hr
    refine ⟨hb, ?_, fun j => hrows r j k hk hr⟩
    intro x hx
    simp only [List.mem_cons, List.mem_singleton, List.not_mem_nil, or_false] at hx
    rw [hm1, hp1] at hx
    rcases hx with h | h | h <;> rw [h] <;> omega
  · intro inb out out' hrun a ha b hout
    rw [gol_worker_eq] at hrun
    apply runCells_frame _ _ inb _ out out' _ hrun
    intro c hc' p hp e
    have hmem := (mem_workerCells _ c.1 c.2).1 hc'
    have hcr : c.1 ∈ rowRange (packageAt nrows ncols ((nrows / t : Nat) : Int) k).start_row
        (packageAt nrows ncols ((nrows / t : Nat) : Int) k).end_row :=
      (mem_rowRange _ _ _).2 hmem.2
    obtain ⟨hin, x, hx⟩ := hrows c.1 c.2 k hk hcr p hp
    have hflat : ((a + nrows * b : Nat) : Int) = (a : Int) + (nrows : Int) * (b : Int) := by
      push_cast; rfl
    rw [hx, hflat] at e
    have := address_row nrows p.1 a x b (by omega) (by omega) (by omega) (by omega) e
    omega
  · intro k' hk' hne r hr r' hr' j j' p hp p' hp' e
    obtain ⟨hc0', hc1'⟩ := chunk_bounds t nrows k' hk'
    obtain ⟨hin, x, hx⟩ := hrows r j k hk hr p hp
    obtain ⟨hin', x', hx'⟩ := hrows r' j' k' hk' hr' p' hp'
    rw [hx, hx'] at e
    have := address_row nrows p.1 p'.1 x x' (by omega) (by omega) (by omega) (by omega) e
    rcases Nat.lt_or_gt_of_ne hne with hlt | hgt
    · have := chunks_ordered ((nrows / t : Nat) : Int) k k' (Int.ofNat_nonneg _) hlt
      omega
    · have := chunks_ordered ((nrows / t : Nat) : Int) k' k (Int.ofNat_nonneg _) hgt
      omega

set_option maxRecDepth 100000 in
theorem interior_writes_confined_witness :
    ((1 : Int) ∈ rowRange (packageAt 8 3 ((8 / 2 : Nat) : Int) 0).start_row
        (packageAt 8 3 ((8 / 2 : Nat) : Int) 0).end_row ∧
      (6 : Int) ∈ rowRange (packageAt 8 3 ((8 / 2 : Nat) : Int) 1).start_row
        (packageAt 8 3 ((8 / 2 : Nat) : Int) 1).end_row) ∧
    (packagesOf 2 8 3)[0]? = some (packageAt 8 3 ((8 / 2 : Nat) : Int) 0) ∧
    (∀ x ∈ [mod (1 - 1) (8 : Nat), 1, mod (1 + 1) (8 : Nat)],
      ((0 : Nat) : Int) * ((8 / 2 : Nat) : Int) ≤ x ∧
        x ≤ (((0 : Nat) : Int) + 1) * ((8 / 2 : Nat) : Int) - 1) ∧
    (∀ p ∈ writePairs 8 3 1 0, ∀ p' ∈ writePairs 8 3 6 0, p.1 + p.2 ≠ p'.1 + p'.2) ∧
    (packagesOf 1 8 3)[0]? = some (packageAt 8 3 ((8 / 1 : Nat) : Int) 0) ∧
    (∀ p ∈ writePairs 8 3 6 2,
      (((0 : Nat) : Int) * ((8 / 1 : Nat) : Int) ≤ p.1 ∧
        p.1 ≤ (((0 : Nat) : Int) + 1) * ((8 / 1 : Nat) : Int) - 1) ∧
      ∃ x : Int, p.2 = ((8 : Nat) : Int) * x) :=
  ⟨⟨by decide, by decide⟩,
    (interior_writes_confined 2 8 3 0 (by decide)).1,
    ((interior_writes_confined 2 8 3 0 (by decide)).2.1 1 (by decide)).2.1,
    (interior_writes_confined 2 8 3 0 (by decide)).2.2.2 1 (by decide) (by decide)
      1 (by decide) 6 (by decide) 0 0,
    (interior_writes_confined 1 8 3 0 (by decide)).1,
    ((interior_writes_confined 1 8 3 0 (by decide)).2.1 6 (by decide)).2.2 2⟩

/-! ### Symmetry of the neighbour relation -/

theorem count_map_on {α β : Type} [BEq α] [LawfulBEq α] [BEq β] [LawfulBEq β] (f : α → β)
    (L : List α) (q : α) (hinj : ∀ x ∈ L, f x = f q → x = q) :
    (L.map f).count (f q) = L.count q := by
  induction L with
  | nil => rfl
  | cons x L ih =>
    rw [List.map_cons, List.count_cons, List.count_cons, ih (fun y hy => hinj y (by simp [hy]))]
    by_cases hxq : x = q
    · simp [hxq]
    · have : f x ≠ f q := fun e => hxq (hinj x (by simp) e)
      simp [hxq, this]

theorem wrap_swap (n x y : Nat) (hx : x < n) (hy : y < n) :
    (wrapDec n x = y ↔ wrapInc n y = x) ∧ (wrapInc n x = y ↔ wrapDec n y = x) := by
  unfold wrapDec wrapInc
  split_ifs <;> omega

theorem torus_count_symm (nrows ncols : Nat) (a b : Nat × Nat)
    (ha : a.1 < nrows ∧ a.2 < ncols) (hb : b.1 < nrows ∧ b.2 < ncols) :
    (torus nrows ncols a.1 a.2).count b = (torus nrows ncols b.1 b.2).count a := by
  obtain ⟨a1, a2⟩ := a
  obtain ⟨b1, b2⟩ := b
  simp only at ha hb
  rw [torus_eq _ _ _ _ ha.1 ha.2, torus_eq _ _ _ _ hb.1 hb.2]
  have r := wrap_swap nrows a1 b1 ha.1 hb.1
  have c := wrap_swap ncols a2 b2 ha.2 hb.2
  have e1 : a1 = b1 ↔ b1 = a1 := eq_comm
  have e2 : a2 = b2 ↔ b2 = a2 := eq_comm
  simp only [List.count_cons, List.count_nil, beq_iff_eq, Prod.mk.injEq, r.1, r.2, c.1, c.2,
    e1, e2]
  ring

/-- C20. The neighbour relation is symmetric with multiplicity: for
`nrows, ncols ≥ 2` and two cells `a`, `b` of the grid, the flat address of `b`
occurs among the eight neighbour addresses computed for `a` as often as the
address of `a` occurs among the eight computed for `b`; for `nrows, ncols ≥ 3`
the eight addresses are pairwise distinct and differ from the address of the cell
itself. -/
theorem neighbour_relation_symmetric (nrows ncols : Nat) (a b : Nat × Nat)
    (hr : 2 ≤ nrows) (hc : 2 ≤ ncols) (ha : a.1 < nrows ∧ a.2 < ncols)
    (hb : b.1 < nrows ∧ b.2 < ncols) :
    ((neighbours nrows ncols (a.1 : Int) a.2).map (fun p => p.1 + p.2)).count
        ((flat nrows b : Nat) : Int) =
      ((neighbours nrows ncols (b.1 : Int) b.2).map (fun p => p.1 + p.2)).count
        ((flat nrows a : Nat) : Int) ∧
    (3 ≤ nrows → 3 ≤ ncols →
      ((neighbours nrows ncols (a.1 : Int) a.2).map (fun p => p.1 + p.2)).Nodup ∧
      ((flat nrows a : Nat) : Int) ∉
        (neighbours nrows ncols (a.1 : Int) a.2).map (fun p => p.1 + p.2)) := by
  have hcast : ∀ (L : List Nat) (q : Nat),
      (List.map (fun k : Nat => (k : Int)) L).count (q : Int) = L.count q :=
    fun L q => count_map_on (fun k : Nat => (k : Int)) L q (fun x _ e => by simpa using e)
  rw [neighbours_eq nrows ncols a.1 a.2 hr hc ha.1 ha.2,
    neighbours_eq nrows ncols b.1 b.2 hr hc hb.1 hb.2]
  refine ⟨?_, ?_⟩
  · rw [hcast, hcast,
      count_flat nrows _ (fun q hq => (torus_range _ _ _ _ ha.1 ha.2 q hq).1) b hb.1,
      count_flat nrows _ (fun q hq => (torus_range _ _ _ _ hb.1 hb.2 q hq).1) a ha.1]
    exact torus_count_symm nrows ncols a b ha hb
  · intro hr3 hc3
    have hnd := torus_nodup nrows ncols a.1 a.2 hr3 hc3 ha.1 ha.2
    have hns := torus_not_self nrows ncols a.1 a.2 hr3 hc3 ha.1 ha.2
    have hinj : ∀ x ∈ torus nrows ncols a.1 a.2, ∀ y ∈ torus nrows ncols a.1 a.2,
        flat nrows x = flat nrows y → x = y :=
      fun x hx y hy e =>
        (flat_inj nrows x y (torus_range _ _ _ _ ha.1 ha.2 x hx).1
          (torus_range _ _ _ _ ha.1 ha.2 y hy).1).1 e
    refine ⟨List.Nodup.map (fun x y e => by simpa using e) (List.Nodup.map_on hinj hnd), ?_⟩
    intro hmem
    simp only [List.mem_map] at hmem
    obtain ⟨k, ⟨q, hq, hqk⟩, hk⟩ := hmem
    have hk' : k = flat nrows a := by exact_mod_cast hk
    rw [hk'] at hqk
    have := (flat_inj nrows q a (torus_range _ _ _ _ ha.1 ha.2 q hq).1 ha.1).1 hqk
    subst this
    exact hns hq

set_option maxRecDepth 100000 in
theorem neighbour_relation_symmetric_witness :
    (neighbours 2 2 ((0 : Nat) : Int) 0).map (fun p => p.1 + p.2) = [3, 1, 3, 2, 2, 3, 1, 3] ∧
    ((neighbours 2 2 (((0, 0) : Nat × Nat).1 : Int) ((0, 0) : Nat × Nat).2).map
        (fun p => p.1 + p.2)).count ((flat 2 ((1, 1) : Nat × Nat) : Nat) : Int) =
      ((neighbours 2 2 (((1, 1) : Nat × Nat).1 : Int) ((1, 1) : Nat × Nat).2).map
        (fun p => p.1 + p.2)).count ((flat 2 ((0, 0) : Nat × Nat) : Nat) : Int) ∧
    ((neighbours 5 5 (((0, 0) : Nat × Nat).1 : Int) ((0, 0) : Nat × Nat).2).map
        (fun p => p.1 + p.2)).Nodup :=
  ⟨by decide!,
    (neighbour_relation_symmetric 2 2 (0, 0) (1, 1) (by decide) (by decide) (by decide)
      (by decide)).1,
    ((neighbour_relation_symmetric 5 5 (0, 0) (1, 1) (by decide) (by decide) (by decide)
      (by decide)).2 (by decide) (by decide)).1⟩

/-! ### Counts stay in range during a generation -/

theorem neighbour_room (nrows ncols : Nat) (out : Board) (i j a b : Nat) (fl : Bool)
    (hr : 3 ≤ nrows) (hc : 3 ≤ ncols) (hi : i < nrows) (hj : j < ncols)
    (ha : a < nrows) (hb : b < ncols) (hinv : CountInv nrows ncols out)
    (hold : aliveAt out nrows i j = !fl) (hm : (a, b) ∈ torus nrows ncols i j) :
    (if fl = true then cellAt out nrows a b % 16 ≤ 7 else 1 ≤ cellAt out nrows a b % 16) ∧
      cellAt out nrows a b % 16 ≤ 8 := by
  have hq : (i, j) ∈ torus nrows ncols a b := (torus_symm _ _ _ _ _ _ hr hc hi hj ha hb).1 hm
  have hcnt : cellAt out nrows a b % 16 =
      (torus nrows ncols a b).countP (fun p => aliveAt out nrows p.1 p.2) := hinv a ha b hb
  have hflip := countP_flip (torus nrows ncols a b) (fun p => aliveAt out nrows p.1 p.2)
    (fun p => if p = (i, j) then fl else aliveAt out nrows p.1 p.2) (i, j)
    (torus_nodup _ _ _ _ hr hc ha hb) (fun x _ hne => by simp [hne])
  have hlen := List.countP_le_length (fun p => if p = (i, j) then fl else aliveAt out nrows p.1 p.2)
    (l := torus nrows ncols a b)
  have hlen0 := List.countP_le_length (fun p => aliveAt out nrows p.1 p.2)
    (l := torus nrows ncols a b)
  rw [torus_length] at hlen hlen0
  simp only [hq, true_and, hold, if_true] at hflip
  rw [hcnt]
  generalize List.countP (fun p => if p = (i, j) then fl else aliveAt out nrows p.1 p.2)
    (torus nrows ncols a b) = c' at hflip hlen
  generalize List.countP (fun p => aliveAt out nrows p.1 p.2) (torus nrows ncols a b) = c
    at hflip hlen0
  cases fl <;> simp at hflip ⊢ <;> omega

theorem notifyTrace_ok (f : Nat → Nat) (g : Board → Int → Int → Option Board)
    (hg : ∀ b i j, g b i j = (rd b (i + j)).bind fun v => wr b (i + j) (f v))
    (P : Nat → Prop) (ps : List (Int × Int)) (L : List Nat)
    (hL : ps.map (fun p => p.1 + p.2) = List.map (fun k : Nat => (k : Int)) L)
    (hnd : L.Nodup) (b : Board) (hb : ∀ k ∈ L, k < b.length ∧ P (b.getD k 0)) :
    ∃ tr, notifyTrace g ps b = some tr ∧ tr.length = ps.length ∧
      ∀ x ∈ tr, P x.1 ∧ x.2 = f x.1 := by
  induction ps generalizing L b with
  | nil => exact ⟨[], rfl, rfl, fun x hx => by simp at hx⟩
  | cons p ps ih =>
    cases L with
    | nil => simp at hL
    | cons k L =>
      simp only [List.map_cons, List.cons.injEq] at hL
      rw [List.nodup_cons] at hnd
      obtain ⟨hk, hP⟩ := hb k (by simp)
      have hb' : ∀ k' ∈ L, k' < (b.set k (f (b.getD k 0))).length ∧
          P ((b.set k (f (b.getD k 0))).getD k' 0) := by
        intro k' hk'
        have hne : k ≠ k' := fun e => hnd.1 (e ▸ hk')
        rw [getD_set, if_neg (fun h => hne h.1), List.length_set]
        exact hb k' (by simp [hk'])
      obtain ⟨tr, htr, hlen, hall⟩ := ih L hL.2 hnd.2 (b.set k (f (b.getD k 0))) hb'
      refine ⟨(b.getD k 0, f (b.getD k 0)) :: tr, ?_, by simp [hlen], ?_⟩
      · rw [notifyTrace, hg, hL.1, rd_nat b k hk]
        simp only [Option.some_bind]
        rw [wr_nat b k _ hk]
        simp only [Option.some_bind]
        rw [rd_nat _ k (by rw [List.length_set]; exact hk), getD_set, if_pos ⟨rfl, hk⟩]
        simp only [Option.some_bind]
        rw [htr]; rfl
      · intro x hx
        rcases List.mem_cons.1 hx with h | h
        · rw [h]; exact ⟨hP, rfl⟩
        · exact hall x h

theorem mem_rowsCells (rows : List Nat) (ncols : Nat) (c : Int × Nat) :
    c ∈ rows.flatMap (fun (r : Nat) => rowCells (r : Int) ncols) ↔
      ∃ r ∈ rows, c.1 = (r : Int) ∧ c.2 < ncols := by
  simp only [List.mem_flatMap]
  constructor
  · rintro ⟨r, hr, hc⟩
    exact ⟨r, hr, (mem_rowCells (r : Int) ncols c.1 c.2).1 hc⟩
  · rintro ⟨r, hr, hc⟩
    exact ⟨r, hr, (mem_rowCells (r : Int) ncols c.1 c.2).2 hc⟩

theorem nodup_rowsCells (rows : List Nat) (ncols : Nat) (hnd : rows.Nodup) :
    (rows.flatMap (fun (r : Nat) => rowCells (r : Int) ncols)).Nodup := by
  rw [List.nodup_flatMap]
  refine ⟨fun r _ => nodup_rowCells _ _, ?_⟩
  apply List.Pairwise.imp _ hnd
  intro r r' hne
  show List.Disjoint _ _
  intro x hx hx'
  have h1 := (mem_rowCells (r : Int) ncols x.1 x.2).1 hx
  have h2 := (mem_rowCells (r' : Int) ncols x.1 x.2).1 hx'
  exact hne (by omega)

theorem rowsRun_eq (rows : List Nat) (nrows ncols : Nat) (inb out : Board) :
    rows.foldlM (fun o (r : Nat) => gol_worker_for_row (r : Int) ncols nrows inb o) out =
      runCells nrows ncols inb (rows.flatMap (fun (r : Nat) => rowCells (r : Int) ncols)) out := by
  unfold runCells
  rw [foldlM_flatMap]
  congr 1
  funext o r
  rw [gol_worker_for_row_eq]; rfl

theorem fresh_cell_trace (nrows ncols : Nat) (out : Board) (i j : Nat) (fl : Bool) (w : Nat)
    (f : Nat → Nat) (g : Board → Int → Int → Option Board)
    (hg : ∀ b i j, g b i j = (rd b (i + j)).bind fun v => wr b (i + j) (f v))
    (hr : 3 ≤ nrows) (hc : 3 ≤ ncols) (hi : i < nrows) (hj : j < ncols)
    (hout : nrows * ncols ≤ out.length) (hinv : CountInv nrows ncols out)
    (hold : aliveAt out nrows i j = !fl) :
    ∃ tr, notifyTrace g (neighbours nrows ncols (i : Int) j)
        (out.set (flat nrows (i, j)) w) = some tr ∧ tr.length = 8 ∧
      ∀ x ∈ tr, ((if fl = true then x.1 % 16 ≤ 7 else 1 ≤ x.1 % 16) ∧ x.1 % 16 ≤ 8) ∧
        x.2 = f x.1 := by
  have hnd : ((torus nrows ncols i j).map (flat nrows)).Nodup :=
    List.Nodup.map_on (fun x hx y hy e =>
      (flat_inj nrows x y (torus_range _ _ _ _ hi hj x hx).1
        (torus_range _ _ _ _ hi hj y hy).1).1 e) (torus_nodup nrows ncols i j hr hc hi hj)
  obtain ⟨tr, htr, hlen, hall⟩ := notifyTrace_ok f g hg
    (fun v => (if fl = true then v % 16 ≤ 7 else 1 ≤ v % 16) ∧ v % 16 ≤ 8)
    (neighbours nrows ncols (i : Int) j) _
    (neighbours_eq nrows ncols i j (by omega) (by omega) hi hj) hnd
    (out.set (flat nrows (i, j)) w)
    (fun k hk => by
      rw [List.mem_map] at hk
      obtain ⟨q, hq, rfl⟩ := hk
      have hq' := torus_range _ _ _ _ hi hj q hq
      have hlt := flat_lt nrows ncols q hq'.1 hq'.2
      have hne : ¬ (flat nrows (i, j) = flat nrows q ∧ flat nrows (i, j) < out.length) := by
        intro h
        have := (flat_inj nrows (i, j) q hi hq'.1).1 h.1
        exact torus_not_self nrows ncols i j hr hc hi hj (by rw [this]; exact hq)
      rw [getD_set, if_neg hne, List.length_set]
      exact ⟨by omega, neighbour_room nrows ncols out i j q.1 q.2 fl hr hc hi hj hq'.1 hq'.2
        hinv hold hq⟩)
  exact ⟨tr, htr, by rw [hlen]; rfl, hall⟩

theorem state_before_cell (nrows ncols : Nat) (inboard outboard : Board) (rows : List Nat)
    (pre post : List (Int × Nat)) (c : Int × Nat)
    (hr : 3 ≤ nrows) (hc : 3 ≤ ncols)
    (hin : nrows * ncols ≤ inboard.length) (hout : nrows * ncols ≤ outboard.length)
    (hinv : CountInv nrows ncols inboard)
    (hcopy : ∀ k < nrows * ncols, outboard.getD k 0 = inboard.getD k 0)
    (hnd : rows.Nodup) (hrange : ∀ r ∈ rows, r < nrows)
    (hsplit : rows.flatMap (fun (r : Nat) => rowCells (r : Int) ncols) = pre ++ c :: post) :
    ∃ (out : Board) (i : Nat), c.1 = (i : Int) ∧ i < nrows ∧ c.2 < ncols ∧
      runCells nrows ncols inboard pre outboard = some out ∧
      out.length = outboard.length ∧ CountInv nrows ncols out ∧
      aliveAt out nrows i c.2 = aliveAt inboard nrows i c.2 := by
  have hcells := nodup_rowsCells rows ncols hnd
  rw [hsplit, List.nodup_append] at hcells
  obtain ⟨hpre, _, hdisj⟩ := hcells
  have hmemc : ∀ x ∈ pre ++ c :: post, 0 ≤ x.1 ∧ x.1 < nrows ∧ x.2 < ncols := by
    intro x hx
    rw [← hsplit, mem_rowsCells] at hx
    obtain ⟨r, hr', h1, h2⟩ := hx
    have := hrange r hr'
    omega
  obtain ⟨h0, h1, h2⟩ := hmemc c (by simp)
  obtain ⟨i, hi⟩ : ∃ i : Nat, c.1 = (i : Int) := ⟨c.1.toNat, by omega⟩
  have hcell0 := cellAt_of_getD nrows ncols outboard inboard hcopy
  have hinv0 : CountInv nrows ncols outboard :=
    CountInv_congr nrows ncols inboard outboard (fun a ha b hb => (hcell0 a ha b hb).symm) hinv
  obtain ⟨out, hrun, hlen, hinv', halive, _⟩ :=
    runCells_inv nrows ncols inboard hr hc hin pre outboard
      (fun x hx => hmemc x (by simp [hx])) hpre hout hinv0
      (fun a ha b hb _ => by unfold aliveAt; rw [hcell0 a ha b hb])
  refine ⟨out, i, hi, by omega, h2, hrun, hlen, hinv', ?_⟩
  have hnot : ((i : Int), c.2) ∉ pre := by
    intro hm
    have : c ∈ pre := by rw [show c = ((i : Int), c.2) from by rw [← hi]]; exact hm
    exact hdisj this (by simp)
  rw [halive i (by omega) c.2 h2, if_neg hnot]
  unfold aliveAt; rw [hcell0 i (by omega) c.2 h2]

/-- C16. No neighbour count leaves `0..8` during a generation: for
`nrows, ncols ≥ 3`, an `inboard` satisfying the count invariant, an `outboard`
that is a copy of it, and a sequence `rows` of row updates
(`gol_worker_for_row`) in which no row occurs twice, consider any point of the
sequence at which a cell `c` is about to be updated (the cell updates are
`pre ++ c :: post`).  The updates `pre` succeed, and if `c` is born, each of the
eight `INCREMENT_NEIGHBOURS` finds a count in `0..7` and leaves the count plus
one, at most `8`, with bits 4-7 unchanged (no carry); if `c` dies, each of the
eight `DECREMENT_NEIGHBOURS` finds a count in `1..8` and leaves the count minus
one with bits 4-7 unchanged (no borrow). -/
theorem counts_stay_in_range (nrows ncols : Nat) (inboard outboard : Board) (rows : List Nat)
    (pre post : List (Int × Nat)) (c : Int × Nat)
    (hr : 3 ≤ nrows) (hc : 3 ≤ ncols)
    (hin : nrows * ncols ≤ inboard.length) (hout : nrows * ncols ≤ outboard.length)
    (hinv : CountInv nrows ncols inboard)
    (hcopy : ∀ k < nrows * ncols, outboard.getD k 0 = inboard.getD k 0)
    (hnd : rows.Nodup) (hrange : ∀ r ∈ rows, r < nrows)
    (hsplit : rows.flatMap (fun (r : Nat) => rowCells (r : Int) ncols) = pre ++ c :: post) :
    rows.foldlM (fun o (r : Nat) => gol_worker_for_row (r : Int) ncols nrows inboard o)
        outboard = runCells nrows ncols inboard (pre ++ c :: post) outboard ∧
    ∃ out cell v, runCells nrows ncols inboard pre outboard = some out ∧
      rd inboard (c.1 + (nrows : Int) * (c.2 : Int)) = some cell ∧
      rd out (c.1 + (nrows : Int) * (c.2 : Int)) = some v ∧
      (IS_ALIVE cell = 0 → cell = 0x3 →
        ∃ out1 tr, wr out (c.1 + (nrows : Int) * (c.2 : Int)) (SET_ALIVE v) = some out1 ∧
          notifyTrace INCREMENT_NEIGHBOURS (neighbours nrows ncols c.1 c.2) out1 = some tr ∧
          tr.length = 8 ∧
          ∀ x ∈ tr, x.1 % 16 ≤ 7 ∧ x.2 % 16 = x.1 % 16 + 1 ∧ x.2 % 16 ≤ 8 ∧
            x.2 / 16 % 16 = x.1 / 16 % 16) ∧
      (IS_ALIVE cell ≠ 0 → (toChar cell ≤ 0x11 ∨ toChar cell ≥ 0x14) →
        ∃ out1 tr, wr out (c.1 + (nrows : Int) * (c.2 : Int)) (SET_DEAD v) = some out1 ∧
          notifyTrace DECREMENT_NEIGHBOURS (neighbours nrows ncols c.1 c.2) out1 = some tr ∧
          tr.length = 8 ∧
          ∀ x ∈ tr, 1 ≤ x.1 % 16 ∧ x.1 % 16 ≤ 8 ∧ x.2 % 16 + 1 = x.1 % 16 ∧
            x.2 / 16 % 16 = x.1 / 16 % 16) := by
  obtain ⟨out, i, hi, hi', hj, hrun, hlen, hinv', hfresh⟩ :=
    state_before_cell nrows ncols inboard outboard rows pre post c hr hc hin hout hinv hcopy
      hnd hrange hsplit
  have hk : flat nrows (i, c.2) < nrows * ncols := flat_lt _ _ _ hi' hj
  have hcast : c.1 + (nrows : Int) * (c.2 : Int) = ((flat nrows (i, c.2) : Nat) : Int) := by
    rw [hi]; simp [flat]
  have hIS := IS_ALIVE_eq (cellAt inboard nrows i c.2)
  have hlt2 : cellAt inboard nrows i c.2 / 16 % 2 < 2 := Nat.mod_lt _ (by norm_num)
  refine ⟨by rw [rowsRun_eq, hsplit], out, cellAt inboard nrows i c.2, cellAt out nrows i c.2,
    hrun, by rw [hcast]; exact rd_nat inboard _ (by omega),
    by rw [hcast]; exact rd_nat out _ (by omega), ?_, ?_⟩
  · intro h1 _
    have hdead : aliveAt out nrows i c.2 = !true := by
      rw [hfresh]
      show aliveAt inboard nrows i c.2 = false
      rw [aliveAt_false_iff]; omega
    obtain ⟨tr, htr, hl, hall⟩ := fresh_cell_trace nrows ncols out i c.2 true
      (SET_ALIVE (cellAt out nrows i c.2)) (fun v => (v + 1) % 256) INCREMENT_NEIGHBOURS
      (fun _ _ _ => rfl) hr hc hi' hj (by omega) hinv' hdead
    refine ⟨_, tr, by rw [hcast]; exact wr_nat out _ _ (by omega), by rw [hi]; exact htr, hl, ?_⟩
    intro x hx
    obtain ⟨⟨h7, _⟩, hx2⟩ := hall x hx
    simp only [if_true] at h7
    rw [hx2]
    omega
  · intro h1 _
    have halive : aliveAt out nrows i c.2 = !false := by
      rw [hfresh]
      show aliveAt inboard nrows i c.2 = true
      rw [aliveAt_iff]; omega
    obtain ⟨tr, htr, hl, hall⟩ := fresh_cell_trace nrows ncols out i c.2 false
      (SET_DEAD (cellAt out nrows i c.2)) (fun v => (v + 255) % 256) DECREMENT_NEIGHBOURS
      (fun _ _ _ => rfl) hr hc hi' hj (by omega) hinv' halive
    refine ⟨_, tr, by rw [hcast]; exact wr_nat out _ _ (by omega), by rw [hi]; exact htr, hl, ?_⟩
    intro x hx
    obtain ⟨⟨h1', h8⟩, hx2⟩ := hall x hx
    simp only [Bool.false_eq_true, if_false] at h1'
    rw [hx2]
    omega

set_option maxRecDepth 100000 in
theorem counts_stay_in_range_witness :
    (CountInv 5 5 blinkerBoard ∧
      [(0 : Nat)].flatMap (fun (r : Nat) => rowCells (r : Int) 5) =
        [((0 : Int), 0)] ++ ((0 : Int), 1) :: [((0 : Int), 2), ((0 : Int), 3), ((0 : Int), 4)]) ∧
    ((wr blinkerBoard (0 + 5 * 1) (SET_ALIVE 3)).bind fun o =>
        notifyTrace INCREMENT_NEIGHBOURS (neighbours 5 5 0 1) o) =
      some [(0, 1), (0, 1), (0, 1), (2, 3), (2, 3), (17, 18), (18, 19), (17, 18)] ∧
    ∃ out cell v, runCells 5 5 blinkerBoard [((0 : Int), 0)] blinkerBoard = some out ∧
      rd blinkerBoard (((0 : Int), 1).1 + ((5 : Nat) : Int) * ((((0 : Int), 1) : Int × Nat).2 : Int))
        = some cell ∧
      rd out (((0 : Int), 1).1 + ((5 : Nat) : Int) * ((((0 : Int), 1) : Int × Nat).2 : Int))
        = some v ∧
      (IS_ALIVE cell = 0 → cell = 0x3 →
        ∃ out1 tr,
          wr out (((0 : Int), 1).1 + ((5 : Nat) : Int) * ((((0 : Int), 1) : Int × Nat).2 : Int))
            (SET_ALIVE v) = some out1 ∧
          notifyTrace INCREMENT_NEIGHBOURS
            (neighbours 5 5 (((0 : Int), 1) : Int × Nat).1 (((0 : Int), 1) : Int × Nat).2) out1 =
              some tr ∧
          tr.length = 8 ∧
          ∀ x ∈ tr, x.1 % 16 ≤ 7 ∧ x.2 % 16 = x.1 % 16 + 1 ∧ x.2 % 16 ≤ 8 ∧
            x.2 / 16 % 16 = x.1 / 16 % 16) ∧
      (IS_ALIVE cell ≠ 0 → (toChar cell ≤ 0x11 ∨ toChar cell ≥ 0x14) →
        ∃ out1 tr,
          wr out (((0 : Int), 1).1 + ((5 : Nat) : Int) * ((((0 : Int), 1) : Int × Nat).2 : Int))
            (SET_DEAD v) = some out1 ∧
          notifyTrace DECREMENT_NEIGHBOURS
            (neighbours 5 5 (((0 : Int), 1) : Int × Nat).1 (((0 : Int), 1) : Int × Nat).2) out1 =
              some tr ∧
          tr.length = 8 ∧
          ∀ x ∈ tr, 1 ≤ x.1 % 16 ∧ x.1 % 16 ≤ 8 ∧ x.2 % 16 + 1 = x.1 % 16 ∧
            x.2 / 16 % 16 = x.1 / 16 % 16) :=
  ⟨⟨by decide!, by decide⟩, by decide!,
    (counts_stay_in_range 5 5 blinkerBoard blinkerBoard [0] [((0 : Int), 0)]
      [((0 : Int), 2), ((0 : Int), 3), ((0 : Int), 4)] ((0 : Int), 1) (by decide) (by decide)
      (by decide) (by decide) (by decide!) (fun _ _ => rfl) (by decide) (by decide)
      (by decide)).2⟩

/-! ### Independence of the traversal order -/

theorem cellPure_high (nrows ncols : Nat) (inb out : Board) (i j : Nat)
    (hr : 3 ≤ nrows) (hc : 3 ≤ ncols) (hi : i < nrows) (hj : j < ncols)
    (hout : nrows * ncols ≤ out.length) (hinv : CountInv nrows ncols out)
    (hfresh : aliveAt out nrows i j = aliveAt inb nrows i j)
    (a b : Nat) (ha : a < nrows) (hb : b < ncols) (hbyte : cellAt out nrows a b < 256) :
    cellAt (cellPure nrows ncols inb i j out) nrows a b < 256 ∧
      cellAt (cellPure nrows ncols inb i j out) nrows a b / 32 = cellAt out nrows a b / 32 := by
  have hcellin : inb.getD (flat nrows (i, j)) 0 = cellAt inb nrows i j := rfl
  have hcellout : out.getD (flat nrows (i, j)) 0 = cellAt out nrows i j := rfl
  have hIS := IS_ALIVE_eq (cellAt inb nrows i j)
  have hlt2 : cellAt inb nrows i j / 16 % 2 < 2 := Nat.mod_lt _ (by norm_num)
  unfold cellPure
  simp only [hcellin, hcellout]
  by_cases h1 : IS_ALIVE (cellAt inb nrows i j) = 0
  · have hdead : aliveAt out nrows i j = !true := by
      rw [hfresh]
      show aliveAt inb nrows i j = false
      rw [aliveAt_false_iff]; omega
    have hdead' : cellAt out nrows i j / 16 % 2 = 0 := (aliveAt_false_iff _ _ _ _).1 hdead
    by_cases h2 : cellAt inb nrows i j = 0x3
    · rw [if_pos h1, if_pos h2,
        applyAll_cellAt nrows ncols (fun v => (v + 1) % 256) (SET_ALIVE (cellAt out nrows i j))
          out i j a b hr hc hi hj ha hb hout]
      have hSA := SET_ALIVE_eq (cellAt out nrows i j)
      split_ifs with e1 e2
      · simp only [Prod.mk.injEq] at e1
        obtain ⟨rfl, rfl⟩ := e1
        omega
      · have := (neighbour_room nrows ncols out i j a b true hr hc hi hj ha hb hinv hdead e2).1
        simp only [if_true] at this
        show (cellAt out nrows a b + 1) % 256 < 256 ∧
          (cellAt out nrows a b + 1) % 256 / 32 = cellAt out nrows a b / 32
        omega
      · exact ⟨hbyte, rfl⟩
    · rw [if_pos h1, if_neg h2]; exact ⟨hbyte, rfl⟩
  · have halive : aliveAt out nrows i j = !false := by
      rw [hfresh]
      show aliveAt inb nrows i j = true
      rw [aliveAt_iff]; omega
    have halive' : cellAt out nrows i j / 16 % 2 = 1 := (aliveAt_iff _ _ _ _).1 halive
    by_cases h3 : toChar (cellAt inb nrows i j) ≤ 0x11 ∨ toChar (cellAt inb nrows i j) ≥ 0x14
    · rw [if_neg h1, if_pos h3,
        applyAll_cellAt nrows ncols (fun v => (v + 255) % 256) (SET_DEAD (cellAt out nrows i j))
          out i j a b hr hc hi hj ha hb hout]
      have hSD := SET_DEAD_eq (cellAt out nrows i j)
      split_ifs with e1 e2
      · simp only [Prod.mk.injEq] at e1
        obtain ⟨rfl, rfl⟩ := e1
        omega
      · have := (neighbour_room nrows ncols out i j a b false hr hc hi hj ha hb hinv halive e2).1
        simp only [Bool.false_eq_true, if_false] at this
        show (cellAt out nrows a b + 255) % 256 < 256 ∧
          (cellAt out nrows a b + 255) % 256 / 32 = cellAt out nrows a b / 32
        omega
      · exact ⟨hbyte, rfl⟩
    · rw [if_neg h1, if_neg h3]; exact ⟨hbyte, rfl⟩

theorem writePairs_lt (nrows ncols i j : Nat) (hr : 2 ≤ nrows) (hc : 2 ≤ ncols)
    (hi : i < nrows) (hj : j < ncols) (p : Int × Int)
    (hp : p ∈ writePairs nrows ncols (i : Int) j) :
    p.1 + p.2 < ((nrows * ncols : Nat) : Int) := by
  unfold writePairs at hp
  rcases List.mem_cons.1 hp with h | h
  · have := flat_lt nrows ncols (i, j) hi hj
    unfold flat at this
    rw [h]
    simp only
    exact_mod_cast this
  · have hmem : p.1 + p.2 ∈ (neighbours nrows ncols (i : Int) j).map (fun p => p.1 + p.2) :=
      List.mem_map.2 ⟨p, h, rfl⟩
    rw [neighbours_eq nrows ncols i j hr hc hi hj, List.mem_map] at hmem
    obtain ⟨k, hk, hk'⟩ := hmem
    have := torus_flat_lt nrows ncols i j hi hj k hk
    rw [← hk']
    exact_mod_cast this

theorem runCells_far (nrows ncols : Nat) (inb : Board) (hr : 2 ≤ nrows) (hc : 2 ≤ ncols)
    (cells : List (Int × Nat)) (out out' : Board)
    (hrange : ∀ c ∈ cells, 0 ≤ c.1 ∧ c.1 < nrows ∧ c.2 < ncols)
    (h : runCells nrows ncols inb cells out = some out') (k : Nat) (hk : nrows * ncols ≤ k) :
    out'.getD k 0 = out.getD k 0 := by
  apply runCells_frame nrows ncols inb cells out out' k h
  intro c hc' p hp e
  obtain ⟨h0, h1, h2⟩ := hrange c hc'
  obtain ⟨i, hi⟩ : ∃ i : Nat, c.1 = (i : Int) := ⟨c.1.toNat, by omega⟩
  rw [hi] at hp
  have := writePairs_lt nrows ncols i c.2 hr hc (by omega) h2 p hp
  rw [e] at this
  have : k < nrows * ncols := by exact_mod_cast this
  omega

theorem runCells_high (nrows ncols : Nat) (inb : Board) (hr : 3 ≤ nrows) (hc : 3 ≤ ncols)
    (hin : nrows * ncols ≤ inb.length) (cells : List (Int × Nat)) (out out' : Board)
    (hrange : ∀ c ∈ cells, 0 ≤ c.1 ∧ c.1 < nrows ∧ c.2 < ncols) (hnd : cells.Nodup)
    (hout : nrows * ncols ≤ out.length) (hinv : CountInv nrows ncols out)
    (hfresh : ∀ a < nrows, ∀ b < ncols, ((a : Int), b) ∈ cells →
      aliveAt out nrows a b = aliveAt inb nrows a b)
    (hbytes : ∀ a < nrows, ∀ b < ncols, cellAt out nrows a b < 256)
    (hrun : runCells nrows ncols inb cells out = some out') :
    ∀ a < nrows, ∀ b < ncols,
      cellAt out' nrows a b < 256 ∧ cellAt out' nrows a b / 32 = cellAt out nrows a b / 32 := by
  induction cells generalizing out with
  | nil =>
    unfold runCells at hrun
    simp only [List.foldlM_nil] at hrun
    cases hrun
    exact fun a ha b hb => ⟨hbytes a ha b hb, rfl⟩
  | cons c cells ih =>
    obtain ⟨h0, h1, h2⟩ := hrange c (by simp)
    obtain ⟨i, hi⟩ : ∃ i : Nat, c.1 = (i : Int) := ⟨c.1.toNat, by omega⟩
    have hi' : i < nrows := by omega
    have hc' : c = ((i : Int), c.2) := by rw [← hi]
    rw [List.nodup_cons] at hnd
    have hstep := cellStep_eq nrows ncols inb out i c.2 (by omega) (by omega) hi' h2 hin hout
    have hfr := hfresh i hi' c.2 h2 (by rw [← hc']; simp)
    have hpure := cellPure_inv nrows ncols inb out i c.2 hr hc hi' h2 hout hinv hfr
    have hhigh := fun a ha b hb => cellPure_high nrows ncols inb out i c.2 hr hc hi' h2 hout hinv
      hfr a b ha hb (hbytes a ha b hb)
    have hlen := cellPure_length nrows ncols inb out i c.2
    unfold runCells at hrun ih
    rw [List.foldlM_cons, hi, hstep] at hrun
    have := ih (cellPure nrows ncols inb i c.2 out)
      (fun x hx => hrange x (by simp [hx])) hnd.2 (by omega) hpure.1
      (fun a ha b hb hm => by
        rw [hpure.2.1 a ha b hb]
        have hne : ¬ ((a, b) = (i, c.2)) := by
          intro e
          simp only [Prod.mk.injEq] at e
          apply hnd.1
          rw [hc', ← e.1, ← e.2]; exact hm
        rw [if_neg hne]
        exact hfresh a ha b hb (by simp [hm]))
      (fun a ha b hb => (hhigh a ha b hb).1) hrun
    intro a ha b hb
    exact ⟨(this a ha b hb).1, by rw [(this a ha b hb).2, (hhigh a ha b hb).2]⟩

theorem runCells_order (nrows ncols : Nat) (inb out : Board) (hr : 3 ≤ nrows) (hc : 3 ≤ ncols)
    (hin : nrows * ncols ≤ inb.length) (hout : nrows * ncols ≤ out.length)
    (hinv : CountInv nrows ncols inb)
    (hcopy : ∀ k < nrows * ncols, out.getD k 0 = inb.getD k 0)
    (hbytes : ∀ k < nrows * ncols, inb.getD k 0 < 256)
    (cells1 cells2 : List (Int × Nat))
    (hrange : ∀ c ∈ cells1, 0 ≤ c.1 ∧ c.1 < nrows ∧ c.2 < ncols)
    (hnd1 : cells1.Nodup) (hnd2 : cells2.Nodup) (hmem : ∀ c, c ∈ cells1 ↔ c ∈ cells2) :
    ∃ out', runCells nrows ncols inb cells1 out = some out' ∧
      runCells nrows ncols inb cells2 out = some out' := by
  have hcell := cellAt_of_getD nrows ncols out inb hcopy
  have halv : ∀ a < nrows, ∀ b < ncols, aliveAt out nrows a b = aliveAt inb nrows a b := by
    intro a ha b hb
    unfold aliveAt
    rw [hcell a ha b hb]
  have hinvo : CountInv nrows ncols out := by
    intro a ha b hb
    unfold countAt
    rw [hcell a ha b hb]
    have := hinv a ha b hb
    unfold countAt at this
    rw [this]
    unfold liveCount
    apply List.countP_congr
    intro q hq
    have hq' := torus_range nrows ncols a b ha hb q hq
    rw [halv q.1 hq'.1 q.2 hq'.2]
  have hbo : ∀ a < nrows, ∀ b < ncols, cellAt out nrows a b < 256 := by
    intro a ha b hb
    rw [hcell a ha b hb]
    exact hbytes _ (flat_lt nrows ncols (a, b) ha hb)
  have hrange2 : ∀ c ∈ cells2, 0 ≤ c.1 ∧ c.1 < nrows ∧ c.2 < ncols :=
    fun c h => hrange c ((hmem c).2 h)
  obtain ⟨o1, hrun1, hlen1, hinv1, hal1, _⟩ := runCells_inv nrows ncols inb hr hc hin cells1 out
    hrange hnd1 hout hinvo (fun a ha b hb _ => halv a ha b hb)
  obtain ⟨o2, hrun2, hlen2, hinv2, hal2, _⟩ := runCells_inv nrows ncols inb hr hc hin cells2 out
    hrange2 hnd2 hout hinvo (fun a ha b hb _ => halv a ha b hb)
  have hh1 := runCells_high nrows ncols inb hr hc hin cells1 out o1 hrange hnd1 hout hinvo
    (fun a ha b hb _ => halv a ha b hb) hbo hrun1
  have hh2 := runCells_high nrows ncols inb hr hc hin cells2 out o2 hrange2 hnd2 hout hinvo
    (fun a ha b hb _ => halv a ha b hb) hbo hrun2
  have hf1 := runCells_far nrows ncols inb (by omega) (by omega) cells1 out o1 hrange hrun1
  have hf2 := runCells_far nrows ncols inb (by omega) (by omega) cells2 out o2 hrange2 hrun2
  have hal : ∀ a < nrows, ∀ b < ncols, aliveAt o1 nrows a b = aliveAt o2 nrows a b := by
    intro a ha b hb
    rw [hal1 a ha b hb, hal2 a ha b hb]
    by_cases hm : ((a : Int), b) ∈ cells1
    · rw [if_pos hm, if_pos ((hmem _).1 hm)]
    · rw [if_neg hm, if_neg (fun h => hm ((hmem _).2 h))]
  have hcnt : ∀ a < nrows, ∀ b < ncols, countAt o1 nrows a b = countAt o2 nrows a b := by
    intro a ha b hb
    rw [hinv1 a ha b hb, hinv2 a ha b hb]
    unfold liveCount
    apply List.countP_congr
    intro q hq
    have hq' := torus_range nrows ncols a b ha hb q hq
    rw [hal q.1 hq'.1 q.2 hq'.2]
  have hget : ∀ k : Nat, o1.getD k 0 = o2.getD k 0 := by
    intro k
    by_cases hk : k < nrows * ncols
    · have hpos : 0 < nrows := by omega
      have ha : k % nrows < nrows := Nat.mod_lt _ hpos
      have hb : k / nrows < ncols := (Nat.div_lt_iff_lt_mul hpos).2 (by rw [Nat.mul_comm]; exact hk)
      have hk' : k % nrows + nrows * (k / nrows) = k := Nat.mod_add_div k nrows
      have e1 := hh1 _ ha _ hb
      have e2 := hh2 _ ha _ hb
      have e3 := hcnt _ ha _ hb
      have e4 := hal _ ha _ hb
      unfold countAt at e3
      unfold aliveAt at e4
      have e5 : cellAt o1 nrows (k % nrows) (k / nrows) / 16 % 2 =
          cellAt o2 nrows (k % nrows) (k / nrows) / 16 % 2 := by
        have l1 : cellAt o1 nrows (k % nrows) (k / nrows) / 16 % 2 < 2 :=
          Nat.mod_lt _ (by norm_num)
        have l2 : cellAt o2 nrows (k % nrows) (k / nrows) / 16 % 2 < 2 :=
          Nat.mod_lt _ (by norm_num)
        by_cases h : cellAt o1 nrows (k % nrows) (k / nrows) / 16 % 2 = 1
        · rw [h] at e4 ⊢
          simp only [beq_self_eq_true] at e4
          have := e4.symm
          simp only [beq_iff_eq] at this
          exact this.symm
        · have h0 : (cellAt o1 nrows (k % nrows) (k / nrows) / 16 % 2 == 1) = false := by
            simp only [beq_eq_false_iff_ne, ne_eq]; exact h
          rw [h0] at e4
          have := e4.symm
          simp only [beq_eq_false_iff_ne, ne_eq] at this
          omega
      have : cellAt o1 nrows (k % nrows) (k / nrows) = cellAt o2 nrows (k % nrows) (k / nrows) := by
        omega
      unfold cellAt at this
      rw [hk'] at this
      exact this
    · rw [hf1 k (by omega), hf2 k (by omega)]
  refine ⟨o1, hrun1, ?_⟩
  rw [hrun2]
  congr 1
  apply List.ext_getElem (by omega)
  intro k h1 h2
  have := hget k
  rw [List.getD_eq_getElem _ _ h1, List.getD_eq_getElem _ _ h2] at this
  exact this.symm

theorem foldlM_rows_eq (nrows ncols : Nat) (inb : Board) (rows : List Int) (out : Board) :
    rows.foldlM (fun o (r : Int) => gol_worker_for_row r ncols nrows inb o) out =
      runCells nrows ncols inb (rows.flatMap (fun (r : Int) => rowCells r ncols)) out := by
  induction rows generalizing out with
  | nil => rfl
  | cons r rows ih =>
    rw [List.foldlM_cons, List.flatMap_cons, runCells_append, gol_worker_for_row_eq]
    congr 1
    funext o
    exact ih o

theorem mem_rangeCells (s e : Int) (ncols : Nat) (c : Int × Nat) :
    c ∈ (rowRange s e).flatMap (fun (r : Int) => rowCells r ncols) ↔
      c.2 < ncols ∧ s ≤ c.1 ∧ c.1 < e := by
  obtain ⟨a, b⟩ := c
  simp only [List.mem_flatMap, mem_rowCells, mem_rowRange]
  constructor
  · rintro ⟨r, hr, rfl, hb⟩; exact ⟨hb, hr⟩
  · rintro ⟨hb, hr⟩; exact ⟨a, hr, rfl, hb⟩

theorem nodup_rangeCells (s e : Int) (ncols : Nat) :
    ((rowRange s e).flatMap (fun (r : Int) => rowCells r ncols)).Nodup := by
  rw [List.nodup_flatMap]
  refine ⟨fun r _ => nodup_rowCells r ncols, ?_⟩
  apply List.Pairwise.imp _ (nodup_rowRange s e)
  intro r r' hne
  show List.Disjoint _ _
  intro x hx hx'
  obtain ⟨a, b⟩ := x
  rw [mem_rowCells] at hx hx'
  exact hne (hx.1.symm.trans hx'.1)

/-- C15. For a board of at least 3 x 3 cells whose bytes are `char` values, an
`inboard` that satisfies the count invariant, an `outboard` that agrees with
`inboard` on the `nrows * ncols` cells, and a row range `[s, e)` with `0 ≤ s` and `e ≤ nrows`:
`gol_worker` on `[s, e)` (column by column) and `gol_worker_for_row` called on
the rows `s, s+1, ..., e-1` one after the other both return, and they return the
same board. -/
theorem traversal_order_independent (nrows ncols s e : Nat) (inboard outboard : Board)
    (hr : 3 ≤ nrows) (hc : 3 ≤ ncols) (hen : e ≤ nrows)
    (hin : nrows * ncols ≤ inboard.length) (hout : nrows * ncols ≤ outboard.length)
    (hinv : CountInv nrows ncols inboard)
    (hbytes : ∀ k < nrows * ncols, inboard.getD k 0 < 256)
    (hcopy : ∀ k < nrows * ncols, outboard.getD k 0 = inboard.getD k 0) :
    ∃ out', gol_worker { nrows := nrows, ncols := ncols, start_row := s, end_row := e }
        inboard outboard = some out' ∧
      (rowRange s e).foldlM
        (fun o (r : Int) => gol_worker_for_row r ncols nrows inboard o) outboard = some out' := by
  rw [gol_worker_eq, foldlM_rows_eq]
  apply runCells_order nrows ncols inboard outboard hr hc hin hout hinv hcopy hbytes
  · intro c hm
    obtain ⟨a, b⟩ := c
    rw [mem_workerCells] at hm
    simp only at hm ⊢
    omega
  · exact nodup_workerCells _
  · exact nodup_rangeCells _ _ _
  · intro c
    obtain ⟨a, b⟩ := c
    rw [mem_workerCells, mem_rangeCells]

set_option maxRecDepth 100000 in
theorem traversal_order_independent_witness :
    CountInv 5 5 blinkerBoard ∧
    ∃ out', gol_worker
        { nrows := 5, ncols := 5, start_row := ((0 : Nat) : Int), end_row := ((3 : Nat) : Int) }
        blinkerBoard blinkerBoard = some out' ∧
      (rowRange ((0 : Nat) : Int) ((3 : Nat) : Int)).foldlM
        (fun o (r : Int) => gol_worker_for_row r 5 5 blinkerBoard o) blinkerBoard = some out' :=
  ⟨by decide!, traversal_order_independent 5 5 0 3 blinkerBoard blinkerBoard (by decide)
    (by decide) (by decide) (by decide) (by decide) (by decide!) (by decide!)
    (fun _ _ => rfl)⟩

end Gol
